import Mathlib

/-!
# network-latency-profiler: reliability layer

A shallow embedding of the packet codec (`src/network/packet.cpp`) and of the
reliability engines (`src/reliability/reliability.cpp`), followed by theorems
about them.

Conventions of the embedding:

* `sequence_t`, `timestamp_t` and `size_t` are 64-bit unsigned integers: they
  are natural numbers, and every operation that can wrap carries an explicit
  `% 2 ^ 64`.
* A byte buffer (`std::vector<uint8_t>`, or a `const uint8_t*` together with
  its `size`) is a `List Nat` of byte values; writers only store values below
  256.
* `std::map` is an association list kept in ascending key order (the order in
  which the C++ iterates it); `std::unordered_map` is an association list
  whose order carries no meaning.
* Callback invocations are recorded, in order, in a list of events.
* `int` counters are mathematical integers: signed overflow is undefined in
  C++ and no statement below is about it.
-/

namespace udp_benchmark

/-! ## common.hpp -/

/-- The number of values of a `uint64_t` (`sequence_t`, `timestamp_t`, `size_t`). -/
def U64 : Nat := 2 ^ 64

/-- Constant `config::MIN_MESSAGE_SIZE`. -/
def MIN_MESSAGE_SIZE : Nat := 16

/-- Constant `config::DEFAULT_WINDOW_SIZE`, an `int`. -/
def DEFAULT_WINDOW_SIZE : Int := 256

/-- Constant `config::DEFAULT_ACK_PERIOD`, an `int`. -/
def DEFAULT_ACK_PERIOD : Int := 1

/-- Size of the packed `struct PacketHeader` (two `uint64_t`). -/
def sizeof_PacketHeader : Nat := 16

/-- Size of the packed `struct AckHeader` (a `uint64_t` and a `uint16_t`). -/
def sizeof_AckHeader : Nat := 10

/-- Size of a `sequence_t`. -/
def sizeof_sequence_t : Nat := 8

/-- Record `struct Pending`. -/
structure Pending where
  seq : Nat
  send_ts_ns : Nat
  retransmits : Int
  deriving DecidableEq, Repr

/-! ## Byte-level helpers -/

/-- The eight bytes that `htobe64 x` occupies in memory (most significant first). -/
def be64_bytes (x : Nat) : List Nat :=
  [x / 2 ^ 56 % 256, x / 2 ^ 48 % 256, x / 2 ^ 40 % 256, x / 2 ^ 32 % 256,
   x / 2 ^ 24 % 256, x / 2 ^ 16 % 256, x / 2 ^ 8 % 256, x % 256]

/-- The two bytes that `htons x` occupies in memory (most significant first). -/
def be16_bytes (x : Nat) : List Nat :=
  [x / 2 ^ 8 % 256, x % 256]

/-- Function `std::memcpy(dst + off, src, src.length)` on a buffer. -/
def memcpy (dst : List Nat) (off : Nat) (src : List Nat) : List Nat :=
  dst.take off ++ src ++ dst.drop (off + src.length)

/-- Read eight bytes at `off` with `memcpy` and convert with `be64toh`. -/
def be64_read (data : List Nat) (off : Nat) : Nat :=
  data.getD off 0 * 2 ^ 56 + data.getD (off + 1) 0 * 2 ^ 48 +
  data.getD (off + 2) 0 * 2 ^ 40 + data.getD (off + 3) 0 * 2 ^ 32 +
  data.getD (off + 4) 0 * 2 ^ 24 + data.getD (off + 5) 0 * 2 ^ 16 +
  data.getD (off + 6) 0 * 2 ^ 8 + data.getD (off + 7) 0

/-- Read two bytes at `off` with `memcpy` and convert with `ntohs`. -/
def be16_read (data : List Nat) (off : Nat) : Nat :=
  data.getD off 0 * 2 ^ 8 + data.getD (off + 1) 0

/-! ## packet.cpp: `Packet` -/

/-- Class `Packet`: its only member is the byte vector `data_`. -/
structure Packet where
  data_ : List Nat
  deriving DecidableEq, Repr

/-- Constructor `Packet::Packet(size)`: `max(size, sizeof(PacketHeader))` zero bytes. -/
def Packet.new (size : Nat) : Packet :=
  ⟨List.replicate (max size sizeof_PacketHeader) 0⟩

/-- Method `Packet::size`. -/
def Packet.size (p : Packet) : Nat := p.data_.length

/-- Method `Packet::set_sequence`. -/
def Packet.set_sequence (p : Packet) (seq : Nat) : Packet :=
  if p.data_.length ≥ sizeof_sequence_t then ⟨memcpy p.data_ 0 (be64_bytes seq)⟩ else p

/-- Method `Packet::set_timestamp`. -/
def Packet.set_timestamp (p : Packet) (ts : Nat) : Packet :=
  if p.data_.length ≥ sizeof_PacketHeader then
    ⟨memcpy p.data_ sizeof_sequence_t (be64_bytes ts)⟩
  else p

/-- Method `Packet::get_sequence`. -/
def Packet.get_sequence (p : Packet) : Nat :=
  if p.data_.length ≥ sizeof_sequence_t then be64_read p.data_ 0 else 0

/-- Method `Packet::get_timestamp`. -/
def Packet.get_timestamp (p : Packet) : Nat :=
  if p.data_.length ≥ sizeof_PacketHeader then be64_read p.data_ sizeof_sequence_t else 0

/-! ## packet.cpp: `AckPacket` -/

/-- Class `AckPacket`: its only member is the byte vector `data_`. -/
structure AckPacket where
  data_ : List Nat
  deriving DecidableEq, Repr

/-- Constructor `AckPacket::AckPacket(bitmap_bytes)`. -/
def AckPacket.new (bitmap_bytes : Nat) : AckPacket :=
  ⟨List.replicate (sizeof_AckHeader + bitmap_bytes) 0⟩

/-- Method `AckPacket::size`. -/
def AckPacket.size (p : AckPacket) : Nat := p.data_.length

/-- Method `AckPacket::set_ack_sequence`. -/
def AckPacket.set_ack_sequence (p : AckPacket) (ack_seq : Nat) : AckPacket :=
  if p.data_.length ≥ sizeof_sequence_t then ⟨memcpy p.data_ 0 (be64_bytes ack_seq)⟩ else p

/-- Method `AckPacket::set_bitmap_length`; `len` is a `uint16_t`. -/
def AckPacket.set_bitmap_length (p : AckPacket) (len : Nat) : AckPacket :=
  if p.data_.length ≥ sizeof_AckHeader then
    ⟨memcpy p.data_ sizeof_sequence_t (be16_bytes len)⟩
  else p

/-- Method `AckPacket::set_bitmap_bit`: the bitmap starts at offset `sizeof(AckHeader)`;
the updated byte is stored back into a `uint8_t`. -/
def AckPacket.set_bitmap_bit (p : AckPacket) (index : Nat) (value : Bool) : AckPacket :=
  let byte_idx := index / 8
  let bit_idx := index % 8
  let bitmap_size := p.data_.length - sizeof_AckHeader
  if byte_idx < bitmap_size then
    let b := p.data_.getD (sizeof_AckHeader + byte_idx) 0
    if value then
      ⟨p.data_.set (sizeof_AckHeader + byte_idx) ((b ||| (1 <<< bit_idx)) % 256)⟩
    else
      ⟨p.data_.set (sizeof_AckHeader + byte_idx)
        ((b &&& (2 ^ 32 - 1 - (1 <<< bit_idx))) % 256)⟩
  else p

/-- Method `AckPacket::get_ack_sequence`. -/
def AckPacket.get_ack_sequence (p : AckPacket) : Nat :=
  if p.data_.length ≥ sizeof_sequence_t then be64_read p.data_ 0 else 0

/-- Method `AckPacket::get_bitmap_length`. -/
def AckPacket.get_bitmap_length (p : AckPacket) : Nat :=
  if p.data_.length ≥ sizeof_AckHeader then be16_read p.data_ sizeof_sequence_t else 0

/-- Method `AckPacket::get_bitmap_bit`. -/
def AckPacket.get_bitmap_bit (p : AckPacket) (index : Nat) : Bool :=
  let byte_idx := index / 8
  let bit_idx := index % 8
  let bitmap_size := p.data_.length - sizeof_AckHeader
  if byte_idx < bitmap_size then
    ((p.data_.getD (sizeof_AckHeader + byte_idx) 0) >>> bit_idx) &&& 1 != 0
  else false

/-! ## packet.cpp: `PacketHandler` -/

/-- Function `PacketHandler::is_valid_packet_size`. -/
def is_valid_packet_size (size : Nat) : Bool := decide (size ≥ sizeof_PacketHeader)

/-- Function `PacketHandler::is_valid_ack_size`. -/
def is_valid_ack_size (size : Nat) : Bool := decide (size ≥ sizeof_AckHeader)

/-- Function `PacketHandler::create_data_packet`. -/
def create_data_packet (seq ts total_size : Nat) : Packet :=
  ((Packet.new (max total_size sizeof_PacketHeader)).set_sequence seq).set_timestamp ts

/-- One iteration of the loop over `missing_seqs` in `create_ack_packet`;
`ack_seq + window_size` and `missing - ack_seq - 1` are 64-bit unsigned. -/
def create_ack_step (ack_seq window_size : Nat) (p : AckPacket) (missing : Nat) : AckPacket :=
  if missing > ack_seq ∧ missing ≤ (ack_seq + window_size) % U64 then
    p.set_bitmap_bit ((missing - ack_seq - 1) % U64) true
  else p

/-- Function `PacketHandler::create_ack_packet`; the argument of
`set_bitmap_length` is narrowed from `size_t` to `uint16_t`. -/
def create_ack_packet (ack_seq : Nat) (missing_seqs : List Nat) (window_size : Nat) :
    AckPacket :=
  let bitmap_bytes := window_size / 8
  let p := ((AckPacket.new bitmap_bytes).set_ack_sequence ack_seq).set_bitmap_length
    (bitmap_bytes % 2 ^ 16)
  missing_seqs.foldl (create_ack_step ack_seq window_size) p

/-- Function `PacketHandler::parse_data_packet` on the datagram `data` (the pointer
together with its `size`); `none` is the `false` return, `some (seq, ts)` the
`true` return with the two output parameters. -/
def parse_data_packet (data : List Nat) : Option (Nat × Nat) :=
  if !is_valid_packet_size data.length then none
  else some (be64_read data 0, be64_read data sizeof_sequence_t)

/-- One iteration of the bit loop of `parse_ack_packet`. -/
def parse_ack_step (data : List Nat) (ack_seq bitmap_len : Nat) (missing_seqs : List Nat)
    (i : Nat) : List Nat :=
  let byte_idx := i / 8
  let bit_idx := i % 8
  if byte_idx < bitmap_len then
    let bit_set := ((data.getD (sizeof_AckHeader + byte_idx) 0) >>> bit_idx) &&& 1 != 0
    if !bit_set then missing_seqs ++ [(ack_seq + 1 + i) % U64] else missing_seqs
  else missing_seqs

/-- Function `PacketHandler::parse_ack_packet` on the datagram `data` (the pointer
together with its `size`); `none` is the `false` return, `some (ack_seq, missing_seqs)`
the `true` return with the two output parameters. -/
def parse_ack_packet (data : List Nat) : Option (Nat × List Nat) :=
  if !is_valid_ack_size data.length then none
  else
    let ack_seq := be64_read data 0
    let bitmap_len := be16_read data sizeof_sequence_t
    if data.length < sizeof_AckHeader + bitmap_len then none
    else
      let max_bits := bitmap_len * 8
      some (ack_seq, (List.range max_bits).foldl (parse_ack_step data ack_seq bitmap_len) [])


/-! ## Associative containers -/

/-- Lookup `m.find(key)`: the value of the first entry with that key. -/
def map_find {V : Type} : List (Nat × V) → Nat → Option V
  | [], _ => none
  | (k, v) :: rest, key => if k = key then some v else map_find rest key

/-- Assignment `m[key] = v` on a `std::map`: replaces the value of an existing key,
otherwise inserts the entry at its place in ascending key order. -/
def map_assign {V : Type} : List (Nat × V) → Nat → V → List (Nat × V)
  | [], key, v => [(key, v)]
  | (k, w) :: rest, key, v =>
    if key < k then (key, v) :: (k, w) :: rest
    else if key = k then (key, v) :: rest
    else (k, w) :: map_assign rest key v

/-- Removal `m.erase(key)`. -/
def map_erase {V : Type} (m : List (Nat × V)) (key : Nat) : List (Nat × V) :=
  m.filter (fun e => e.1 != key)

/-- Update through the iterator returned by `m.find(key)`: the value of the first
entry with that key is replaced by `f` of it. -/
def map_modify {V : Type} (f : V → V) : List (Nat × V) → Nat → List (Nat × V)
  | [], _ => []
  | (k, v) :: rest, key =>
    if k = key then (k, f v) :: rest else (k, v) :: map_modify f rest key

/-- Keys of a map, in iteration order. -/
def map_keys {V : Type} (m : List (Nat × V)) : List Nat := m.map Prod.fst

/-! ## reliability.cpp: `ReliabilityManager` -/

/-- A callback invocation made by the reliability engine: `ack_callback_(seq,
send_time, recv_time, retransmits)` or `retransmit_callback_(packet, dummy_addr)`. -/
inductive Event where
  | ack (seq send_time recv_time : Nat) (retransmits : Int)
  | retransmit (packet : Packet)
  deriving DecidableEq, Repr

/-- Class `ReliabilityManager`: the two maps, and whether each `std::function`
callback holds a target. -/
structure ReliabilityManager where
  pending_packets_ : List (Nat × Pending)
  send_times_ : List (Nat × Nat)
  has_retransmit_callback : Bool
  has_ack_callback : Bool
  deriving DecidableEq, Repr

/-- Constructor `ReliabilityManager::ReliabilityManager(retransmit_cb, ack_cb)`. -/
def ReliabilityManager.new (retransmit_cb ack_cb : Bool) : ReliabilityManager :=
  ⟨[], [], retransmit_cb, ack_cb⟩

/-- Method `ReliabilityManager::add_pending_packet`. -/
def ReliabilityManager.add_pending_packet (m : ReliabilityManager) (seq send_time : Nat) :
    ReliabilityManager :=
  { m with
    pending_packets_ := map_assign m.pending_packets_ seq ⟨seq, send_time, 0⟩
    send_times_ := map_assign m.send_times_ seq send_time }

/-- Method `ReliabilityManager::remove_pending_packet`. -/
def ReliabilityManager.remove_pending_packet (m : ReliabilityManager) (seq : Nat) :
    ReliabilityManager :=
  { m with
    pending_packets_ := map_erase m.pending_packets_ seq
    send_times_ := map_erase m.send_times_ seq }

/-- Method `ReliabilityManager::is_packet_pending`. -/
def ReliabilityManager.is_packet_pending (m : ReliabilityManager) (seq : Nat) : Bool :=
  (map_find m.pending_packets_ seq).isSome

/-- First loop of `process_ack`, over the entries of `pending_packets_` in key order:
returns `to_remove` and the ack callback invocations. `clock n` is the value of the
`n`-th call of `get_timestamp_ns()` made by this `process_ack`. -/
def ack_sweep (send_times : List (Nat × Nat)) (has_ack_callback : Bool) (clock : Nat → Nat)
    (ack_seq : Nat) : List (Nat × Pending) → Nat → List Nat × List Event
  | [], _ => ([], [])
  | (seq, pending) :: rest, n =>
    if seq ≤ ack_seq then
      if has_ack_callback then
        let send_time :=
          match map_find send_times seq with
          | some t => t
          | none => pending.send_ts_ns
        let r := ack_sweep send_times has_ack_callback clock ack_seq rest (n + 1)
        (seq :: r.1, Event.ack seq send_time (clock n) pending.retransmits :: r.2)
      else
        let r := ack_sweep send_times has_ack_callback clock ack_seq rest n
        (seq :: r.1, r.2)
    else ack_sweep send_times has_ack_callback clock ack_seq rest n

/-- One iteration of the second loop of `process_ack`. -/
def erase_step (m : ReliabilityManager) (seq : Nat) : ReliabilityManager :=
  { m with
    pending_packets_ := map_erase m.pending_packets_ seq
    send_times_ := map_erase m.send_times_ seq }

/-- One iteration of the third loop of `process_ack`, on the manager and the
callback invocations made so far. -/
def retransmit_step (s : ReliabilityManager × List Event) (missing : Nat) :
    ReliabilityManager × List Event :=
  match map_find s.1.pending_packets_ missing with
  | some pending =>
    let m :=
      { s.1 with
        pending_packets_ :=
          map_modify (fun p => { p with retransmits := p.retransmits + 1 })
            s.1.pending_packets_ missing }
    if s.1.has_retransmit_callback then
      (m, s.2 ++ [Event.retransmit
        (create_data_packet missing pending.send_ts_ns MIN_MESSAGE_SIZE)])
    else (m, s.2)
  | none => s

/-- Method `ReliabilityManager::process_ack`: the resulting manager and the callback
invocations, in order. -/
def ReliabilityManager.process_ack (m : ReliabilityManager) (clock : Nat → Nat)
    (ack_seq : Nat) (missing_seqs : List Nat) : ReliabilityManager × List Event :=
  let r := ack_sweep m.send_times_ m.has_ack_callback clock ack_seq m.pending_packets_ 0
  let m1 := r.1.foldl erase_step m
  missing_seqs.foldl retransmit_step (m1, r.2)

/-- Method `ReliabilityManager::get_pending_count`. -/
def ReliabilityManager.get_pending_count (m : ReliabilityManager) : Nat :=
  m.pending_packets_.length

/-- Method `ReliabilityManager::get_pending_sequences`. -/
def ReliabilityManager.get_pending_sequences (m : ReliabilityManager) : List Nat :=
  map_keys m.pending_packets_

/-! ## reliability.cpp: `AckManager` -/

/-- Class `AckManager`; `window_size_` and `ack_period_` are `int`. -/
structure AckManager where
  received_packets_ : List (Nat × Nat)
  highest_contiguous_ : Nat
  window_size_ : Int
  ack_period_ : Int
  packets_since_ack_ : Nat
  deriving DecidableEq, Repr

/-- Constructor `AckManager::AckManager(window_size, ack_period)`. -/
def AckManager.new (window_size ack_period : Int) : AckManager :=
  ⟨[], 0, window_size, ack_period, 0⟩

/-- Conversion of an `int` to a 64-bit unsigned integer. -/
def int_to_u64 (x : Int) : Nat := (x % (2 : Int) ^ 64).toNat

/-- The `while` loop of `add_received_packet`; `none` when `fuel` iterations do not
end it. -/
def advance_contiguous (received : List (Nat × Nat)) : Nat → Nat → Option Nat
  | 0, _ => none
  | fuel + 1, h =>
    if (map_find received ((h + 1) % U64)).isSome then
      advance_contiguous received fuel ((h + 1) % U64)
    else some h

/-- Method `AckManager::add_received_packet`: the resulting state and the returned
flag; `none` when the watermark loop does not end within `fuel` iterations. -/
def AckManager.add_received_packet (a : AckManager) (fuel : Nat) (seq recv_time : Nat) :
    Option (AckManager × Bool) :=
  if (map_find a.received_packets_ seq).isSome then some (a, false)
  else
    let received := (seq, recv_time) :: a.received_packets_
    match advance_contiguous received fuel a.highest_contiguous_ with
    | some h =>
      some ({ a with
              received_packets_ := received
              packets_since_ack_ := (a.packets_since_ack_ + 1) % U64
              highest_contiguous_ := h }, true)
    | none => none

/-- The `for` loop of `generate_ack` from `seq` on; `none` when `fuel` iterations do
not end it. -/
def generate_ack_scan (received : List (Nat × Nat)) (window_end : Nat) :
    Nat → Nat → List Nat → Option (List Nat)
  | 0, _, _ => none
  | fuel + 1, seq, missing_seqs =>
    if seq ≤ window_end then
      generate_ack_scan received window_end fuel ((seq + 1) % U64)
        (if (map_find received seq).isSome then missing_seqs else missing_seqs ++ [seq])
    else some missing_seqs

/-- Method `AckManager::generate_ack`: the resulting state and the frame; `none` when
the scan of the window does not end within `fuel` iterations. -/
def AckManager.generate_ack (a : AckManager) (fuel : Nat) : Option (AckManager × AckPacket) :=
  let window_end := (a.highest_contiguous_ + int_to_u64 a.window_size_) % U64
  match generate_ack_scan a.received_packets_ window_end fuel
      ((a.highest_contiguous_ + 1) % U64) [] with
  | some missing_seqs =>
    some ({ a with packets_since_ack_ := 0 },
      create_ack_packet a.highest_contiguous_ missing_seqs (int_to_u64 a.window_size_))
  | none => none

/-! ## reliability.cpp: `SenderReliability` -/

/-- Class `SenderReliability`: the engine and the configured packet size. Its
constructor installs both callbacks on the engine. -/
structure SenderReliability where
  reliability_mgr_ : ReliabilityManager
  packet_size_ : Nat
  deriving DecidableEq, Repr

/-- Constructor `SenderReliability::SenderReliability`. -/
def SenderReliability.new (packet_size : Nat) : SenderReliability :=
  ⟨{ ReliabilityManager.new false false with
     has_retransmit_callback := true, has_ack_callback := true }, packet_size⟩

/-- Method `SenderReliability::send_packet`; `sent` is the value returned by
`socket_->send_to` for the frame. -/
def SenderReliability.send_packet (s : SenderReliability) (sent : Int) (seq send_time : Nat) :
    SenderReliability × Bool :=
  if sent > 0 then
    ({ s with reliability_mgr_ := s.reliability_mgr_.add_pending_packet seq send_time }, true)
  else (s, false)

/-- Method `SenderReliability::process_ack_packet` on the datagram `data`. -/
def SenderReliability.process_ack_packet (s : SenderReliability) (clock : Nat → Nat)
    (data : List Nat) : SenderReliability × List Event :=
  match parse_ack_packet data with
  | some (ack_seq, missing_seqs) =>
    let r := s.reliability_mgr_.process_ack clock ack_seq missing_seqs
    ({ s with reliability_mgr_ := r.1 }, r.2)
  | none => (s, [])

/-! ## Observations used in the statements -/

/-- Bit `i` of the bitmap carried by the SACK frame `data`: bit `i % 8`, counted from
the least significant bit, of the byte at offset `sizeof(AckHeader) + i / 8`. -/
def frame_bit (data : List Nat) (i : Nat) : Bool :=
  (data.getD (sizeof_AckHeader + i / 8) 0).testBit (i % 8)

/-- The ack callback invocations among `evs`, in order, each as
`(seq, send_time, retransmits)`. -/
def ack_calls (evs : List Event) : List (Nat × Nat × Int) :=
  evs.filterMap fun e =>
    match e with
    | Event.ack seq send_time _ retransmits => some (seq, send_time, retransmits)
    | Event.retransmit _ => none

/-- The frames passed to the retransmit callback among `evs`, in order. -/
def retransmit_calls (evs : List Event) : List Packet :=
  evs.filterMap fun e =>
    match e with
    | Event.ack _ _ _ _ => none
    | Event.retransmit packet => some packet

/-- The keys of a `std::map` are strictly ascending in iteration order. -/
def map_sorted {V : Type} (m : List (Nat × V)) : Prop :=
  (map_keys m).Pairwise (fun a b => a < b)

/-- Every key of `pending_packets_` that `send_times_` holds is mapped there to the
entry's own send timestamp (both are written together by `add_pending_packet`). -/
def send_times_agree (m : ReliabilityManager) : Prop :=
  ∀ k p t, (k, p) ∈ m.pending_packets_ → map_find m.send_times_ k = some t → t = p.send_ts_ns

/-! ## Scenario B of the specification -/

/-- Successive calls of `add_received_packet`, one per `(seq, recv_time)`. -/
def AckManager.add_received_packets (a : AckManager) (fuel : Nat) :
    List (Nat × Nat) → Option AckManager
  | [] => some a
  | (seq, recv_time) :: rest =>
    match a.add_received_packet fuel seq recv_time with
    | some r => AckManager.add_received_packets r.1 fuel rest
    | none => none

/-- Successive calls of `send_packet` whose socket writes all succeed, one per
`(seq, send_time)`; the frames have `packet_size_` bytes. -/
def SenderReliability.send_packets (s : SenderReliability) :
    List (Nat × Nat) → SenderReliability
  | [] => s
  | (seq, send_time) :: rest =>
    SenderReliability.send_packets
      (s.send_packet (s.packet_size_ : Int) seq send_time).1 rest

/-- The receiver of scenario B: default window 256 and ack period 1, after the
data frames 1, 2, 3 and 5 have arrived. -/
def scenario_B_receiver : Option AckManager :=
  (AckManager.new DEFAULT_WINDOW_SIZE DEFAULT_ACK_PERIOD).add_received_packets 8
    [(1, 2001), (2, 2002), (3, 2003), (5, 2005)]

/-- The sender of scenario B: 64-byte frames, after sending 1, 2, 3, 4 and 5. -/
def scenario_B_sender : SenderReliability :=
  (SenderReliability.new 64).send_packets
    [(1, 1001), (2, 1002), (3, 1003), (4, 1004), (5, 1005)]

/-- The SACK frame that the receiver of scenario B builds. -/
def scenario_B_frame : Option AckPacket :=
  match scenario_B_receiver with
  | some a =>
    match a.generate_ack 257 with
    | some r => some r.2
    | none => none
  | none => none

/-! ## reliability.cpp: further `AckManager` methods -/

/-- Method `AckManager::is_duplicate`. -/
def AckManager.is_duplicate (a : AckManager) (seq : Nat) : Bool :=
  (map_find a.received_packets_ seq).isSome

/-- Method `AckManager::should_send_ack`; `ack_period_` is cast to `uint64_t`. -/
def AckManager.should_send_ack (a : AckManager) : Bool :=
  decide (a.packets_since_ack_ ≥ int_to_u64 a.ack_period_)

/-- Method `AckManager::force_ack`: the `int` `ack_period_` is stored into the
`uint64_t` counter. -/
def AckManager.force_ack (a : AckManager) : AckManager :=
  { a with packets_since_ack_ := int_to_u64 a.ack_period_ }

/-- Method `AckManager::get_received_count`. -/
def AckManager.get_received_count (a : AckManager) : Nat :=
  a.received_packets_.length

/-- Method `AckManager::get_highest_contiguous`. -/
def AckManager.get_highest_contiguous (a : AckManager) : Nat :=
  a.highest_contiguous_

/-! ## congestion_control.cpp: `CongestionController` -/

/-- Constant `config::MIN_CWND`. -/
def MIN_CWND : Nat := 10

/-- Constant `config::MAX_CWND`. -/
def MAX_CWND : Nat := 10000

/-- Class `CongestionController`: three `std::atomic<uint64_t>` fields and the two
`uint64_t` bounds, read and written by one thread. -/
structure CongestionController where
  cwnd_ : Nat
  ssthresh_ : Nat
  inflight_ : Nat
  min_cwnd_ : Nat
  max_cwnd_ : Nat
  deriving DecidableEq, Repr

/-- Constructor `CongestionController::CongestionController`. -/
def CongestionController.new (initial_cwnd initial_ssthresh min_cwnd max_cwnd : Nat) :
    CongestionController :=
  ⟨initial_cwnd, initial_ssthresh, 0, min_cwnd, max_cwnd⟩

/-- The constructor with all its default arguments, from congestion_control.hpp. -/
def CongestionController.default : CongestionController :=
  CongestionController.new 1000 5000 MIN_CWND MAX_CWND

/-- Method `CongestionController::can_send`. -/
def CongestionController.can_send (c : CongestionController) : Bool :=
  decide (c.inflight_ < c.cwnd_)

/-- Method `CongestionController::packet_sent`: `fetch_add(1)` on a `uint64_t`. -/
def CongestionController.packet_sent (c : CongestionController) : CongestionController :=
  { c with inflight_ := (c.inflight_ + 1) % U64 }

/-- Method `CongestionController::packet_acked`. -/
def CongestionController.packet_acked (c : CongestionController) : CongestionController :=
  if c.inflight_ > 0 then { c with inflight_ := c.inflight_ - 1 } else c

/-- Method `CongestionController::packet_lost`. -/
def CongestionController.packet_lost (c : CongestionController) : CongestionController :=
  if c.inflight_ > 0 then { c with inflight_ := c.inflight_ - 1 } else c

/-- Method `CongestionController::increase_cwnd`; `current_cwnd * 2` and
`current_cwnd + 1` are 64-bit unsigned. -/
def CongestionController.increase_cwnd (c : CongestionController) : CongestionController :=
  let current_cwnd := c.cwnd_
  let current_ssthresh := c.ssthresh_
  let new_cwnd :=
    if current_cwnd < current_ssthresh then min ((current_cwnd * 2) % U64) c.max_cwnd_
    else min ((current_cwnd + 1) % U64) c.max_cwnd_
  { c with cwnd_ := new_cwnd }

/-- Method `CongestionController::decrease_cwnd_on_loss`. -/
def CongestionController.decrease_cwnd_on_loss (c : CongestionController) :
    CongestionController :=
  let current_cwnd := c.cwnd_
  let new_cwnd := max (current_cwnd / 2) c.min_cwnd_
  let new_ssthresh := max (current_cwnd / 2) c.min_cwnd_
  { c with cwnd_ := new_cwnd, ssthresh_ := new_ssthresh }

/-- Method `CongestionController::enter_slow_start`. -/
def CongestionController.enter_slow_start (c : CongestionController) : CongestionController :=
  { c with cwnd_ := c.min_cwnd_ }

/-- Method `CongestionController::enter_congestion_avoidance`. -/
def CongestionController.enter_congestion_avoidance (c : CongestionController) :
    CongestionController :=
  { c with ssthresh_ := c.cwnd_ }

/-- Method `CongestionController::on_ack_received`. -/
def CongestionController.on_ack_received (c : CongestionController) (has_loss : Bool) :
    CongestionController :=
  if has_loss then c.decrease_cwnd_on_loss else c.increase_cwnd

/-- Method `CongestionController::on_timeout`. -/
def CongestionController.on_timeout (c : CongestionController) : CongestionController :=
  c.decrease_cwnd_on_loss.enter_slow_start

/-- Method `CongestionController::on_duplicate_ack`. -/
def CongestionController.on_duplicate_ack (c : CongestionController) : CongestionController :=
  c.decrease_cwnd_on_loss

/-! ## Executions -/

/-- A call of one of the event methods of `CongestionController`. -/
inductive ControllerCall where
  | packet_sent
  | packet_acked
  | packet_lost
  | on_ack_received (has_loss : Bool)
  | on_duplicate_ack
  | on_timeout
  deriving DecidableEq, Repr

/-- The effect of one call on the controller. -/
def CongestionController.call (c : CongestionController) : ControllerCall → CongestionController
  | ControllerCall.packet_sent => c.packet_sent
  | ControllerCall.packet_acked => c.packet_acked
  | ControllerCall.packet_lost => c.packet_lost
  | ControllerCall.on_ack_received has_loss => c.on_ack_received has_loss
  | ControllerCall.on_duplicate_ack => c.on_duplicate_ack
  | ControllerCall.on_timeout => c.on_timeout

/-- The controller after a sequence of calls. -/
def CongestionController.run (c : CongestionController) (calls : List ControllerCall) :
    CongestionController :=
  calls.foldl CongestionController.call c

/-- A call of `add_pending_packet` or of `process_ack` on a `ReliabilityManager`. -/
inductive ManagerCall where
  | add_pending_packet (seq send_time : Nat)
  | process_ack (clock : Nat → Nat) (ack_seq : Nat) (missing_seqs : List Nat)

/-- The effect of one call on the manager and on the callback invocations made so far. -/
def ReliabilityManager.call (s : ReliabilityManager × List Event) :
    ManagerCall → ReliabilityManager × List Event
  | ManagerCall.add_pending_packet seq send_time =>
    (s.1.add_pending_packet seq send_time, s.2)
  | ManagerCall.process_ack clock ack_seq missing_seqs =>
    ((s.1.process_ack clock ack_seq missing_seqs).1,
      s.2 ++ (s.1.process_ack clock ack_seq missing_seqs).2)

/-- The manager after a sequence of calls, with all callback invocations in order. -/
def ReliabilityManager.run (m : ReliabilityManager) (calls : List ManagerCall) :
    ReliabilityManager × List Event :=
  calls.foldl ReliabilityManager.call (m, [])

/-- The sequence numbers passed to `add_pending_packet` in `calls`, in call order. -/
def added_seqs : List ManagerCall → List Nat
  | [] => []
  | ManagerCall.add_pending_packet seq _ :: rest => seq :: added_seqs rest
  | ManagerCall.process_ack _ _ _ :: rest => added_seqs rest

/-! ## congestion_control.cpp: `EnhancedCongestionController` -/

/-- Record `struct CongestionStats`; the counters are `uint64_t`. -/
structure CongestionStats where
  total_acks : Nat
  total_losses : Nat
  total_timeouts : Nat
  slow_start_events : Nat
  congestion_avoidance_events : Nat
  last_reset_time : Nat
  deriving DecidableEq, Repr

/-- Method `CongestionStats::reset`; `now` is the value of `get_timestamp_ns()`. -/
def CongestionStats.reset (now : Nat) : CongestionStats :=
  ⟨0, 0, 0, 0, 0, now⟩

/-- Class `EnhancedCongestionController`: the base controller, the counters and the
verbosity flag. The diagnostic lines it writes with `safe_log` are not part of the state
and are left out. -/
structure EnhancedCongestionController where
  base : CongestionController
  stats_ : CongestionStats
  verbose_logging_ : Bool
  deriving DecidableEq, Repr

/-- Constructor `EnhancedCongestionController::EnhancedCongestionController`; the base
class gets the default `min_cwnd` and `max_cwnd`. -/
def EnhancedCongestionController.new (initial_cwnd initial_ssthresh : Nat) (verbose : Bool)
    (now : Nat) : EnhancedCongestionController :=
  ⟨CongestionController.new initial_cwnd initial_ssthresh MIN_CWND MAX_CWND,
    CongestionStats.reset now, verbose⟩

/-- Method `EnhancedCongestionController::on_ack_received_with_stats`: the counters, the
window update of the branch taken, and then the call of
`CongestionController::on_ack_received(has_loss)` that ends the method. -/
def EnhancedCongestionController.on_ack_received_with_stats (e : EnhancedCongestionController)
    (has_loss : Bool) : EnhancedCongestionController :=
  let stats1 := { e.stats_ with total_acks := (e.stats_.total_acks + 1) % U64 }
  let e1 : EnhancedCongestionController :=
    if has_loss then
      { e with
        stats_ := { stats1 with total_losses := (stats1.total_losses + 1) % U64 }
        base := e.base.decrease_cwnd_on_loss }
    else
      let old_cwnd := e.base.cwnd_
      let stats2 :=
        if old_cwnd < e.base.ssthresh_ then
          { stats1 with slow_start_events := (stats1.slow_start_events + 1) % U64 }
        else
          { stats1 with
            congestion_avoidance_events := (stats1.congestion_avoidance_events + 1) % U64 }
      { e with stats_ := stats2, base := e.base.increase_cwnd }
  { e1 with base := e1.base.on_ack_received has_loss }

/-- Method `EnhancedCongestionController::on_timeout_with_stats`. -/
def EnhancedCongestionController.on_timeout_with_stats (e : EnhancedCongestionController) :
    EnhancedCongestionController :=
  { e with
    stats_ := { e.stats_ with total_timeouts := (e.stats_.total_timeouts + 1) % U64 }
    base := e.base.on_timeout }

/-! ## stats.hpp, stats.cpp -/

/-- Record `struct LatencyStats`. -/
structure LatencyStats where
  packet_count : Nat
  total_latency_ns : Nat
  min_latency_ns : Nat
  max_latency_ns : Nat
  latencies : List Nat
  deriving DecidableEq, Repr

/-- Record `struct ThroughputStats`. -/
structure ThroughputStats where
  packets_sent : Nat
  packets_received : Nat
  bytes_sent : Nat
  bytes_received : Nat
  start_time : Nat
  end_time : Nat
  deriving DecidableEq, Repr

/-- Class `StatsCollector`. -/
structure StatsCollector where
  latency_stats_ : LatencyStats
  throughput_stats_ : ThroughputStats
  progress_interval_ : Nat
  last_progress_count_ : Nat
  last_progress_time_ : Nat
  deriving DecidableEq, Repr

/-- The default-constructed `StatsCollector`. -/
def StatsCollector.new : StatsCollector :=
  ⟨⟨0, 0, U64 - 1, 0, []⟩, ⟨0, 0, 0, 0, 0, 0⟩, 1000, 0, 0⟩

/-- Method `StatsCollector::add_packet_sent`; `bytes` is a `size_t`. -/
def StatsCollector.add_packet_sent (s : StatsCollector) (bytes : Nat) : StatsCollector :=
  { s with
    throughput_stats_ :=
      { s.throughput_stats_ with
        packets_sent := (s.throughput_stats_.packets_sent + 1) % U64
        bytes_sent := (s.throughput_stats_.bytes_sent + bytes) % U64 } }

/-- Method `StatsCollector::add_packet_received`; `bytes` is a `size_t`. -/
def StatsCollector.add_packet_received (s : StatsCollector) (bytes : Nat) : StatsCollector :=
  { s with
    throughput_stats_ :=
      { s.throughput_stats_ with
        packets_received := (s.throughput_stats_.packets_received + 1) % U64
        bytes_received := (s.throughput_stats_.bytes_received + bytes) % U64 } }

/-! ## udp_sender.cpp: the send loop -/

/-- The objects of `main` in udp_sender.cpp that one iteration of the send loop works
on; `msg_size` is the command-line message size. -/
structure SenderLoop where
  reliability : SenderReliability
  congestion_ctrl : EnhancedCongestionController
  stats : StatsCollector
  msg_size : Nat
  deriving DecidableEq, Repr

/-- One iteration of the send loop of `main` in udp_sender.cpp, from the call of
`send_packet` on (the waits on the congestion window and on the rate limiter come
before it, the progress display changes none of these objects); `sent` is the result of
the socket write made by `send_packet`. -/
def SenderLoop.send_one (l : SenderLoop) (sent : Int) (seq send_time : Nat) : SenderLoop :=
  if (l.reliability.send_packet sent seq send_time).2 then
    { l with
      reliability := (l.reliability.send_packet sent seq send_time).1
      congestion_ctrl := { l.congestion_ctrl with base := l.congestion_ctrl.base.packet_sent }
      stats := l.stats.add_packet_sent l.msg_size }
  else
    { l with reliability := (l.reliability.send_packet sent seq send_time).1 }

/-! ## reliability.cpp: `ReceiverReliability` -/

/-- A datagram handed to `socket_->send_to`: its bytes and its destination address. -/
structure SentDatagram where
  data : List Nat
  dest : Nat
  deriving DecidableEq, Repr

/-- Class `ReceiverReliability`; a `sockaddr_in` is an opaque number. -/
structure ReceiverReliability where
  ack_mgr_ : AckManager
  sender_addr_ : Nat
  sender_addr_set_ : Bool
  deriving DecidableEq, Repr

/-- Constructor `ReceiverReliability::ReceiverReliability`. -/
def ReceiverReliability.new (window_size ack_period : Int) : ReceiverReliability :=
  ⟨AckManager.new window_size ack_period, 0, false⟩

/-- Method `ReceiverReliability::send_ack`: the new state and the datagram sent; `none`
when `generate_ack` does not end within `fuel` iterations. -/
def ReceiverReliability.send_ack (r : ReceiverReliability) (fuel : Nat) :
    Option (ReceiverReliability × List SentDatagram) :=
  match r.ack_mgr_.generate_ack fuel with
  | some g => some ({ r with ack_mgr_ := g.1 }, [⟨g.2.data_, r.sender_addr_⟩])
  | none => none

/-- Method `ReceiverReliability::send_ack_if_needed`. -/
def ReceiverReliability.send_ack_if_needed (r : ReceiverReliability) (fuel : Nat) :
    Option (ReceiverReliability × List SentDatagram) :=
  if r.ack_mgr_.should_send_ack && r.sender_addr_set_ then r.send_ack fuel
  else some (r, [])

/-- Method `ReceiverReliability::force_ack`. -/
def ReceiverReliability.force_ack (r : ReceiverReliability) (fuel : Nat) :
    Option (ReceiverReliability × List SentDatagram) :=
  let r1 := { r with ack_mgr_ := r.ack_mgr_.force_ack }
  if r1.sender_addr_set_ then r1.send_ack fuel else some (r1, [])

/-- Method `ReceiverReliability::process_data_packet`: the new state, the returned flag
and the datagrams sent; `now` is the value of `get_timestamp_ns()`. -/
def ReceiverReliability.process_data_packet (r : ReceiverReliability) (fuel now : Nat)
    (data : List Nat) (sender : Nat) :
    Option (ReceiverReliability × Bool × List SentDatagram) :=
  match parse_data_packet data with
  | none => some (r, false, [])
  | some (seq, _) =>
    let r1 := if r.sender_addr_set_ then r
      else { r with sender_addr_ := sender, sender_addr_set_ := true }
    match r1.ack_mgr_.add_received_packet fuel seq now with
    | none => none
    | some added =>
      match ({ r1 with ack_mgr_ := added.1 } : ReceiverReliability).send_ack_if_needed fuel with
      | none => none
      | some s => some (s.1, added.2, s.2)

/-! ## udp_receiver.cpp: the receive loop -/

/-- One iteration of the receive loop of `main` in udp_receiver.cpp for a received
datagram `data` (`n > 0`): `process_data_packet` when the datagram parses, followed by
`send_ack_if_needed`. The result is the new state, whether the datagram was reported as
new, and the datagrams sent. The logger and the statistics touch none of this. -/
def receive_one (r : ReceiverReliability) (fuel now : Nat) (data : List Nat) (sender : Nat) :
    Option (ReceiverReliability × Bool × List SentDatagram) :=
  match parse_data_packet data with
  | none => some (r, false, [])
  | some _ =>
    match r.process_data_packet fuel now data sender with
    | none => none
    | some p =>
      match p.1.send_ack_if_needed fuel with
      | none => none
      | some s => some (s.1, p.2.1, p.2.2 ++ s.2)

/-- The receive loop over the datagrams `(now, data, sender)` in arrival order: the final
state and, per datagram, the new-flag and the datagrams sent while handling it. -/
def receive_all (fuel : Nat) :
    ReceiverReliability → List (Nat × List Nat × Nat) →
      Option (ReceiverReliability × List (Bool × List SentDatagram))
  | r, [] => some (r, [])
  | r, (now, data, sender) :: rest =>
    match receive_one r fuel now data sender with
    | none => none
    | some step =>
      match receive_all fuel step.1 rest with
      | none => none
      | some tail => some (tail.1, (step.2.1, step.2.2) :: tail.2)

/-! ## Reference behaviours from the specification -/

/-- The ACK cadence in the words of the specification: with `c` new sequences delivered
since the previous SACK, a datagram that delivers a new sequence emits one SACK when it
is the `p`-th one and none otherwise; a datagram that delivers nothing new emits none.
The result lists the number of SACKs per datagram. -/
def cadence_spec (p : Nat) : Nat → List Bool → List Nat
  | _, [] => []
  | c, true :: rest =>
    if c + 1 = p then 1 :: cadence_spec p 0 rest else 0 :: cadence_spec p (c + 1) rest
  | c, false :: rest => 0 :: cadence_spec p c rest

/-- The saturating in-flight counter in the words of the specification: `packet_sent`
adds 1, `packet_acked` subtracts 1 only when the counter is positive. -/
def saturating_inflight : Nat → List ControllerCall → Nat
  | n, [] => n
  | n, ControllerCall.packet_sent :: rest => saturating_inflight (n + 1) rest
  | n, ControllerCall.packet_acked :: rest =>
    saturating_inflight (if n > 0 then n - 1 else n) rest
  | n, _ :: rest => saturating_inflight n rest

/-- Which datagrams deliver a new sequence, in the words of the specification: a
datagram delivers a new sequence when it parses as a data frame and its sequence is not
among those already seen. -/
def delivers_new : List Nat → List (Nat × List Nat × Nat) → List Bool
  | _, [] => []
  | seen, (_, data, _) :: rest =>
    match parse_data_packet data with
    | none => false :: delivers_new seen rest
    | some (seq, _) =>
      if seq ∈ seen then false :: delivers_new seen rest
      else true :: delivers_new (seq :: seen) rest

/-! ## Arithmetic on `double` -/

/-- The loop behind `ilog2`; `fuel` bounds the number of halvings. -/
def ilog2_loop : Nat → Nat → Nat
  | 0, _ => 0
  | fuel + 1, n => if n < 2 then 0 else ilog2_loop fuel (n / 2) + 1

/-- The position of the leading bit of `n`: the `k` with `2^k ≤ n < 2^(k+1)` for `n > 0`. -/
def ilog2 (n : Nat) : Nat := ilog2_loop n n

/-- Rounding of a rational to the nearest integer, a tie going to the even one. -/
def round_half_even (x : ℚ) : ℤ :=
  let f := ⌊x⌋
  let d := x - f
  if d < 1 / 2 then f
  else if 1 / 2 < d then f + 1
  else if f % 2 = 0 then f else f + 1

/-- The binary exponent of a positive rational: the `e` with `2^e ≤ x < 2^(e+1)`. -/
def binade (x : ℚ) : ℤ :=
  let k : ℤ := (ilog2 x.num.toNat : ℤ) - (ilog2 x.den : ℤ)
  if x < (2 : ℚ) ^ k then k - 1 else k

/-- The value of type `double` (IEEE 754 binary64, 53 significant bits, round to nearest
with ties to even) that represents the real number `x`. Overflow to infinity and gradual
underflow are left out: the magnitudes that occur are between `1/100` and `2^71`. -/
def double_round (x : ℚ) : ℚ :=
  if x = 0 then 0
  else if x < 0 then
    -((round_half_even (-x / (2 : ℚ) ^ (binade (-x) - 52)) : ℚ) * (2 : ℚ) ^ (binade (-x) - 52))
  else (round_half_even (x / (2 : ℚ) ^ (binade x - 52)) : ℚ) * (2 : ℚ) ^ (binade x - 52)

/-- Conversion of a `size_t` to `double`. -/
def double_of_u64 (n : Nat) : ℚ := double_round n

/-- Product of two `double` values. -/
def double_mul (a b : ℚ) : ℚ := double_round (a * b)

/-- Quotient of two `double` values. -/
def double_div (a b : ℚ) : ℚ := double_round (a / b)

/-- Conversion `static_cast<size_t>` of a `double`: the fractional part is discarded.
The conversion is defined for values from 0 up to `2^64`, which is where it is used. -/
def double_to_u64 (x : ℚ) : Nat := ⌊x⌋.toNat

/-! ## stats.hpp, stats.cpp: `LatencyStats` -/

/-- Method `LatencyStats::reset`, which also gives the default member values. -/
def LatencyStats.reset : LatencyStats := ⟨0, 0, U64 - 1, 0, []⟩

/-- Method `LatencyStats::add_latency`. -/
def LatencyStats.add_latency (s : LatencyStats) (latency_ns : Nat) : LatencyStats :=
  { packet_count := (s.packet_count + 1) % U64
    total_latency_ns := (s.total_latency_ns + latency_ns) % U64
    min_latency_ns := min s.min_latency_ns latency_ns
    max_latency_ns := max s.max_latency_ns latency_ns
    latencies := s.latencies ++ [latency_ns] }

/-- Successive calls of `add_latency`, one per sample. -/
def LatencyStats.add_latencies (s : LatencyStats) (samples : List Nat) : LatencyStats :=
  samples.foldl LatencyStats.add_latency s

/-- The index computed by `get_percentile_latency_ns` for a vector of `size` elements:
`static_cast<size_t>(percentile * (size - 1) / 100.0)`, evaluated in `double`. -/
def percentile_index (percentile : ℚ) (size : Nat) : Nat :=
  double_to_u64 (double_div (double_mul percentile (double_of_u64 (size - 1))) 100)

/-- Method `LatencyStats::get_percentile_latency_ns`: the object after the call and the
returned value; `none` when the index is outside the sorted copy. `std::sort` yields the
ascending arrangement of the copy. -/
def LatencyStats.get_percentile_latency_ns (s : LatencyStats) (percentile : ℚ) :
    LatencyStats × Option Nat :=
  if s.latencies.isEmpty then (s, some 0)
  else
    let sorted_latencies := s.latencies
    let sorted_latencies := sorted_latencies.insertionSort (fun a b => a ≤ b)
    let index := percentile_index percentile sorted_latencies.length
    (s, sorted_latencies[index]?)

/-! ## udp_sender.cpp: the ACK task -/

/-- The effect on the objects of `main` of one callback invocation made by the
reliability engine. The ack callback installed by `main` logs the event, calls
`stats.add_packet_received(msg_size)` and `congestion_ctrl.packet_acked()`; the
retransmit callback sends the frame on the socket. -/
def SenderLoop.on_event (l : SenderLoop) : Event → SenderLoop
  | Event.ack _ _ _ _ =>
    { l with
      stats := l.stats.add_packet_received l.msg_size
      congestion_ctrl := { l.congestion_ctrl with base := l.congestion_ctrl.base.packet_acked } }
  | Event.retransmit _ => l

/-- One iteration of the loop of `ack_thread` in udp_sender.cpp for a received datagram
`data` (`n > 0`): `reliability.process_ack_packet(buf, n)` with its callbacks, then
`congestion_ctrl.on_ack_received_with_stats()`, whose argument defaults to `false`. -/
def SenderLoop.ack_one (l : SenderLoop) (clock : Nat → Nat) (data : List Nat) : SenderLoop :=
  let r := l.reliability.process_ack_packet clock data
  let l1 := r.2.foldl SenderLoop.on_event { l with reliability := r.1 }
  { l1 with congestion_ctrl := l1.congestion_ctrl.on_ack_received_with_stats false }

/-! ## reliability.cpp: eviction from the received set -/

/-- Method `AckManager::cleanup_old_packets`: erases the entries with key below
`before_seq`. -/
def AckManager.cleanup_old_packets (a : AckManager) (before_seq : Nat) : AckManager :=
  { a with received_packets_ := a.received_packets_.filter (fun e => !decide (e.1 < before_seq)) }

/-- A call of one of the state-changing methods of `AckManager`. -/
inductive AckCall where
  | add_received_packet (seq recv_time : Nat)
  | generate_ack
  | force_ack
  | cleanup_old_packets (before_seq : Nat)
  deriving DecidableEq, Repr

/-- The effect of one call on the `AckManager`; `none` when a loop of the method does not
end within `fuel` iterations. -/
def AckManager.call (a : AckManager) (fuel : Nat) : AckCall → Option AckManager
  | AckCall.add_received_packet seq recv_time =>
    (a.add_received_packet fuel seq recv_time).map (fun r => r.1)
  | AckCall.generate_ack => (a.generate_ack fuel).map (fun r => r.1)
  | AckCall.force_ack => some a.force_ack
  | AckCall.cleanup_old_packets before_seq => some (a.cleanup_old_packets before_seq)

/-- The `AckManager` after a sequence of calls. -/
def AckManager.run (fuel : Nat) : AckManager → List AckCall → Option AckManager
  | a, [] => some a
  | a, c :: rest =>
    match a.call fuel c with
    | some a1 => AckManager.run fuel a1 rest
    | none => none

/-- The `while` loop of `add_received_packet` with a count of the increments of
`highest_contiguous_` it performs: the final watermark and that count. -/
def advance_contiguous_count (received : List (Nat × Nat)) : Nat → Nat → Option (Nat × Nat)
  | 0, _ => none
  | fuel + 1, h =>
    if (map_find received ((h + 1) % U64)).isSome then
      (advance_contiguous_count received fuel ((h + 1) % U64)).map (fun r => (r.1, r.2 + 1))
    else some (h, 0)

/-! ## reliability.cpp: executions of the pending table -/

/-- A call of `add_pending_packet`, `remove_pending_packet` or `process_ack`. -/
inductive PendingCall where
  | add_pending_packet (seq send_time : Nat)
  | remove_pending_packet (seq : Nat)
  | process_ack (clock : Nat → Nat) (ack_seq : Nat) (missing_seqs : List Nat)

/-- The effect of one call on the manager. -/
def ReliabilityManager.apply (m : ReliabilityManager) : PendingCall → ReliabilityManager
  | PendingCall.add_pending_packet seq send_time => m.add_pending_packet seq send_time
  | PendingCall.remove_pending_packet seq => m.remove_pending_packet seq
  | PendingCall.process_ack clock ack_seq missing_seqs =>
    (m.process_ack clock ack_seq missing_seqs).1

/-- The manager after a sequence of calls. -/
def ReliabilityManager.after (m : ReliabilityManager) (calls : List PendingCall) :
    ReliabilityManager :=
  calls.foldl ReliabilityManager.apply m

/-! ## Theorems -/

theorem replicate_header_split (n : Nat) (h : 16 ≤ n) :
    List.replicate n 0 =
      [0, 0, 0, 0, 0, 0, 0, 0, 0, 0, 0, 0, 0, 0, 0, 0] ++ List.replicate (n - 16) 0 := by
  obtain ⟨k, rfl⟩ : ∃ k, n = 16 + k := ⟨n - 16, by omega⟩
  rw [List.replicate_add]
  simp [List.replicate]

theorem create_data_packet_data (seq ts total_size : Nat) :
    (create_data_packet seq ts total_size).data_ =
      be64_bytes seq ++ (be64_bytes ts ++ List.replicate (max total_size 16 - 16) 0) := by
  have h16 : 16 ≤ max (max total_size 16) 16 := by omega
  have hm : max (max total_size 16) 16 = max total_size 16 := by omega
  simp only [create_data_packet, Packet.new, Packet.set_sequence, Packet.set_timestamp,
    sizeof_PacketHeader, sizeof_sequence_t]
  rw [replicate_header_split _ h16, hm]
  simp [memcpy, be64_bytes]

theorem be64_read_be64_bytes (x : Nat) (hx : x < 2 ^ 64) (rest : List Nat) :
    be64_read (be64_bytes x ++ rest) 0 = x := by
  simp only [be64_read, be64_bytes]
  simp
  omega

theorem be64_read_skip8 (a b : List Nat) (ha : a.length = 8) :
    be64_read (a ++ b) 8 = be64_read b 0 := by
  simp [be64_read, List.getD_eq_getElem?_getD, List.getElem?_append_right, ha]

theorem be64_bytes_length (x : Nat) : (be64_bytes x).length = 8 := rfl

theorem parse_data_packet_of_length (data : List Nat) (h : 16 ≤ data.length) :
    parse_data_packet data = some (be64_read data 0, be64_read data 8) := by
  simp [parse_data_packet, is_valid_packet_size, sizeof_PacketHeader, sizeof_sequence_t, h]

/-- C4. Data codec round trip: for every 64-bit `seq` and `ts` and every `total_size`
(in particular every `total_size ≥ 16`), `parse_data_packet` on the bytes of
`create_data_packet seq ts total_size` returns `true` and yields the same `seq` and `ts`. -/
theorem parse_create_data_packet (seq ts total_size : Nat) (hseq : seq < 2 ^ 64)
    (hts : ts < 2 ^ 64) :
    parse_data_packet (create_data_packet seq ts total_size).data_ = some (seq, ts) := by
  rw [create_data_packet_data,
    parse_data_packet_of_length _ (by simp [be64_bytes_length]; omega),
    be64_read_be64_bytes seq hseq, be64_read_skip8 _ _ (be64_bytes_length seq),
    be64_read_be64_bytes ts hts]

theorem parse_create_data_packet_witness :
    parse_data_packet (create_data_packet 42 1000000000 16).data_ = some (42, 1000000000) :=
  parse_create_data_packet 42 1000000000 16 (by decide) (by decide)

theorem shiftRight_land_byte (x n : Nat) : (x >>> n) &&& 0xFF = x / 2 ^ n % 256 := by
  rw [Nat.shiftRight_eq_div_pow]
  exact Nat.and_pow_two_sub_one_eq_mod _ 8

theorem be64_bytes_getElem? (x k : Nat) (hk : k < 8) (rest : List Nat) :
    (be64_bytes x ++ rest)[k]? = some ((x >>> (8 * (7 - k))) &&& 0xFF) := by
  rw [shiftRight_land_byte]
  interval_cases k <;> simp [be64_bytes]

/-- C5. Data frame wire layout: `create_data_packet seq ts total_size` has exactly
`max total_size 16` bytes, bytes 0..7 are `seq` in big-endian order (byte `k` is
`(seq >> 8*(7-k)) & 0xFF`), bytes 8..15 are `ts` in big-endian order, and every byte at an
offset from 16 on is zero. Scenario A: `seq = 42`, `ts = 1_000_000_000`, size 16 gives the
bytes `00 00 00 00 00 00 00 2A 00 00 00 00 3B 9A CA 00`. -/
theorem create_data_packet_layout :
    (∀ seq ts total_size : Nat,
      ((create_data_packet seq ts total_size).data_.length = max total_size 16) ∧
      (∀ k, k < 8 → (create_data_packet seq ts total_size).data_[k]? =
        some ((seq >>> (8 * (7 - k))) &&& 0xFF)) ∧
      (∀ k, k < 8 → (create_data_packet seq ts total_size).data_[8 + k]? =
        some ((ts >>> (8 * (7 - k))) &&& 0xFF)) ∧
      (∀ j, 16 ≤ j → j < max total_size 16 →
        (create_data_packet seq ts total_size).data_[j]? = some 0)) ∧
    (create_data_packet 42 1000000000 16).data_ =
      [0x00, 0x00, 0x00, 0x00, 0x00, 0x00, 0x00, 0x2A,
       0x00, 0x00, 0x00, 0x00, 0x3B, 0x9A, 0xCA, 0x00] := by
  refine ⟨fun seq ts total_size => ?_, by decide⟩
  rw [create_data_packet_data]
  refine ⟨?_, ?_, ?_, ?_⟩
  · simp [be64_bytes_length]; omega
  · intro k hk
    exact be64_bytes_getElem? seq k hk _
  · intro k hk
    rw [List.getElem?_append_right (by simp [be64_bytes_length])]
    simp only [be64_bytes_length, Nat.add_sub_cancel_left]
    exact be64_bytes_getElem? ts k hk _
  · intro j hj hlt
    rw [List.getElem?_append_right (by simp [be64_bytes_length]; omega),
      List.getElem?_append_right (by simp [be64_bytes_length]; omega)]
    simp only [be64_bytes_length]
    rw [List.getElem?_replicate, if_pos (by omega)]

/-! ### SACK encoder -/

theorem be16_bytes_length (x : Nat) : (be16_bytes x).length = 2 := rfl

theorem replicate_ack_header_split (n : Nat) :
    List.replicate (10 + n) 0 = [0, 0, 0, 0, 0, 0, 0, 0, 0, 0] ++ List.replicate n 0 := by
  rw [List.replicate_add]
  simp [List.replicate]

theorem ack_header_data (ack_seq len bitmap_bytes : Nat) :
    (((AckPacket.new bitmap_bytes).set_ack_sequence ack_seq).set_bitmap_length len).data_ =
      be64_bytes ack_seq ++ (be16_bytes len ++ List.replicate bitmap_bytes 0) := by
  simp only [AckPacket.new, AckPacket.set_ack_sequence, AckPacket.set_bitmap_length,
    sizeof_AckHeader, sizeof_sequence_t]
  rw [replicate_ack_header_split]
  simp [memcpy, be64_bytes, be16_bytes]

theorem set_bitmap_bit_length (p : AckPacket) (j : Nat) (v : Bool) :
    (p.set_bitmap_bit j v).data_.length = p.data_.length := by
  unfold AckPacket.set_bitmap_bit
  simp only
  split
  · split <;> simp
  · rfl

theorem frame_bit_set_bitmap_bit (p : AckPacket) (i j : Nat) :
    frame_bit (p.set_bitmap_bit j true).data_ i =
      (frame_bit p.data_ i || (decide (i = j) && decide (j / 8 < p.data_.length - 10))) := by
  unfold AckPacket.set_bitmap_bit frame_bit
  simp only [sizeof_AckHeader, if_true]
  by_cases hj : j / 8 < p.data_.length - 10
  · simp only [hj, if_true, decide_True, Bool.and_true]
    by_cases hb : i / 8 = j / 8
    · have hlt : 10 + j / 8 < p.data_.length := by omega
      rw [hb, List.getD_eq_getElem?_getD, List.getElem?_set_self hlt, Option.getD_some,
        Nat.testBit_mod_two_pow _ 8, Nat.testBit_lor, Nat.one_shiftLeft, Nat.testBit_two_pow,
        List.getD_eq_getElem?_getD]
      have h8 : i % 8 < 8 := Nat.mod_lt _ (by decide)
      have hiff : (j % 8 = i % 8) ↔ (i = j) := by constructor <;> intro h <;> omega
      simp [h8, hiff]
    · have hne : 10 + j / 8 ≠ 10 + i / 8 := by omega
      have hij : i ≠ j := fun h => hb (by rw [h])
      rw [List.getD_eq_getElem?_getD, List.getElem?_set_ne hne, ← List.getD_eq_getElem?_getD]
      simp [hij]
  · simp [hj]

theorem create_ack_step_length (A W : Nat) (p : AckPacket) (m : Nat) :
    (create_ack_step A W p m).data_.length = p.data_.length := by
  unfold create_ack_step
  split
  · exact set_bitmap_bit_length _ _ _
  · rfl

theorem frame_bit_create_ack_step (A W : Nat) (hAW : A + W < 2 ^ 64) (p : AckPacket)
    (hlen : p.data_.length = 10 + W / 8) (m i : Nat) (hi : i < 8 * (W / 8)) :
    frame_bit (create_ack_step A W p m).data_ i =
      (frame_bit p.data_ i || decide (m = A + 1 + i)) := by
  unfold create_ack_step
  have hmod : (A + W) % U64 = A + W := Nat.mod_eq_of_lt hAW
  rw [hmod]
  by_cases hm : m > A ∧ m ≤ A + W
  · have hidx : (m - A - 1) % U64 = m - A - 1 := Nat.mod_eq_of_lt (by unfold U64; omega)
    rw [if_pos hm, hidx, frame_bit_set_bitmap_bit, hlen]
    congr 1
    by_cases h : m = A + 1 + i
    · have h1 : i = m - A - 1 := by omega
      have h2 : (m - A - 1) / 8 < 10 + W / 8 - 10 := by omega
      rw [decide_eq_true h, decide_eq_true h1, decide_eq_true h2]
      rfl
    · have h1 : ¬ i = m - A - 1 := by omega
      rw [decide_eq_false h, decide_eq_false h1]
      rfl
  · have h : ¬ m = A + 1 + i := by omega
    rw [if_neg hm]
    simp [h]

theorem frame_bit_create_ack_fold (A W : Nat) (hAW : A + W < 2 ^ 64) (M : List Nat) :
    ∀ (p : AckPacket), p.data_.length = 10 + W / 8 → ∀ i, i < 8 * (W / 8) →
      frame_bit (M.foldl (create_ack_step A W) p).data_ i =
        (frame_bit p.data_ i || decide (A + 1 + i ∈ M)) := by
  induction M with
  | nil => intro p _ i _; simp
  | cons m M ih =>
    intro p hlen i hi
    rw [List.foldl_cons, ih _ (by rw [create_ack_step_length]; exact hlen) i hi,
      frame_bit_create_ack_step A W hAW p hlen m i hi]
    by_cases h : m = A + 1 + i
    · simp [h]
    · have h' : ¬ A + 1 + i = m := fun e => h e.symm
      simp [h, h']

theorem frame_bit_ack_header (ack_seq len bitmap_bytes i : Nat) :
    frame_bit (be64_bytes ack_seq ++ (be16_bytes len ++ List.replicate bitmap_bytes 0)) i =
      false := by
  unfold frame_bit
  have h1 : (be64_bytes ack_seq).length ≤ sizeof_AckHeader + i / 8 := by
    simp [be64_bytes_length, sizeof_AckHeader]
    omega
  have h2 : (be16_bytes len).length ≤ sizeof_AckHeader + i / 8 - (be64_bytes ack_seq).length := by
    simp [be64_bytes_length, be16_bytes_length, sizeof_AckHeader]
    omega
  rw [List.getD_eq_getElem?_getD, List.getElem?_append_right h1,
    List.getElem?_append_right h2, List.getElem?_replicate]
  split <;> simp

theorem create_ack_fold_filter (A W : Nat) (hAW : A + W < 2 ^ 64) (M : List Nat) :
    ∀ p : AckPacket, M.foldl (create_ack_step A W) p =
      (M.filter (fun m => decide (A < m ∧ m ≤ A + W))).foldl (create_ack_step A W) p := by
  have hmod : (A + W) % U64 = A + W := Nat.mod_eq_of_lt hAW
  induction M with
  | nil => intro p; rfl
  | cons m M ih =>
    intro p
    by_cases hm : A < m ∧ m ≤ A + W
    · rw [List.filter_cons_of_pos (by simpa using hm), List.foldl_cons, List.foldl_cons, ih]
    · rw [List.filter_cons_of_neg (by simpa using hm), List.foldl_cons, ih]
      have hstep : create_ack_step A W p m = p := by
        unfold create_ack_step
        rw [hmod, if_neg hm]
      rw [hstep]

/-- C6. SACK encoder bit placement: when `A + W < 2^64`, in the frame of
`create_ack_packet A M W` bit `i` (for `i < 8 * (W / 8)`) is set if and only if `A + 1 + i`
is an element of `M`; and the elements of `M` that are `≤ A` or `> A + W` change nothing:
dropping them from `M` gives the same frame. -/
theorem create_ack_packet_bits (A W : Nat) (M : List Nat) (hAW : A + W < 2 ^ 64) :
    (∀ i, i < 8 * (W / 8) →
      (frame_bit (create_ack_packet A M W).data_ i = true ↔ A + 1 + i ∈ M)) ∧
    create_ack_packet A M W =
      create_ack_packet A (M.filter (fun m => decide (A < m ∧ m ≤ A + W))) W := by
  constructor
  · intro i hi
    unfold create_ack_packet
    simp only
    rw [frame_bit_create_ack_fold A W hAW M _
      (by rw [ack_header_data]; simp [be64_bytes_length, be16_bytes_length]; omega) i hi,
      ack_header_data, frame_bit_ack_header]
    simp
  · unfold create_ack_packet
    exact create_ack_fold_filter A W hAW M _

theorem create_ack_packet_bits_witness :
    (∀ i, i < 8 * (16 / 8) →
      (frame_bit (create_ack_packet 7 [9, 3, 40, 12] 16).data_ i = true ↔
        7 + 1 + i ∈ [9, 3, 40, 12])) ∧
    create_ack_packet 7 [9, 3, 40, 12] 16 =
      create_ack_packet 7 ([9, 3, 40, 12].filter (fun m => decide (7 < m ∧ m ≤ 7 + 16))) 16 :=
  create_ack_packet_bits 7 16 [9, 3, 40, 12] (by decide)

/-! ### SACK decoder -/

theorem parse_ack_packet_of_length (data : List Nat)
    (h : 10 + be16_read data 8 ≤ data.length) :
    parse_ack_packet data = some (be64_read data 0,
      (List.range (be16_read data 8 * 8)).foldl
        (parse_ack_step data (be64_read data 0) (be16_read data 8)) []) := by
  have h10 : 10 ≤ data.length := by omega
  have hnot : ¬ data.length < 10 + be16_read data 8 := by omega
  simp [parse_ack_packet, is_valid_ack_size, sizeof_AckHeader, sizeof_sequence_t, h10, hnot]

theorem parse_ack_packet_accepts (data : List Nat) (r : Nat × List Nat)
    (h : parse_ack_packet data = some r) : 10 + be16_read data 8 ≤ data.length := by
  unfold parse_ack_packet at h
  simp only [is_valid_ack_size, sizeof_AckHeader, sizeof_sequence_t] at h
  by_contra hc
  split at h
  · exact Option.noConfusion h
  · split at h
    · exact Option.noConfusion h
    · omega

theorem parse_ack_step_eq (data : List Nat) (A L : Nat) (acc : List Nat) (i : Nat)
    (hi : i < L * 8) :
    parse_ack_step data A L acc i =
      if frame_bit data i then acc else acc ++ [(A + 1 + i) % U64] := by
  have hb : i / 8 < L := by omega
  unfold parse_ack_step frame_bit Nat.testBit
  simp only [hb, if_true]
  rw [Nat.land_comm]
  cases hbit : (1 &&& data.getD (sizeof_AckHeader + i / 8) 0 >>> (i % 8) != 0) <;> simp

theorem parse_ack_fold (data : List Nat) (A L : Nat) :
    ∀ n, n ≤ L * 8 →
      (List.range n).foldl (parse_ack_step data A L) [] =
        ((List.range n).filter (fun i => !frame_bit data i)).map
          (fun i => (A + 1 + i) % U64) := by
  intro n
  induction n with
  | zero => intro _; rfl
  | succ n ih =>
    intro hn
    rw [List.range_succ, List.foldl_append, List.filter_append, List.map_append,
      ih (by omega), List.foldl_cons, List.foldl_nil, parse_ack_step_eq data A L _ n (by omega)]
    cases hbit : frame_bit data n <;> simp [hbit]

theorem parse_ack_packet_closed (data : List Nat)
    (h : 10 + be16_read data 8 ≤ data.length) :
    parse_ack_packet data = some (be64_read data 0,
      ((List.range (be16_read data 8 * 8)).filter (fun i => !frame_bit data i)).map
        (fun i => (be64_read data 0 + 1 + i) % U64)) := by
  rw [parse_ack_packet_of_length data h, parse_ack_fold data _ _ _ (Nat.le_refl _)]

theorem getD_eq_of_take_eq (d d' : List Nat) (n k : Nat) (h : d'.take n = d.take n)
    (hk : k < n) : d'.getD k 0 = d.getD k 0 := by
  rw [List.getD_eq_getElem?_getD, List.getD_eq_getElem?_getD,
    ← List.getElem?_take_of_lt hk, h, List.getElem?_take_of_lt hk]

/-- C7. SACK decoder: when `parse_ack_packet` accepts a datagram with header fields
`ack_seq = A` and `bitmap_len = L` (and `A + 8 * L < 2^64`), the returned list is exactly
the list of `A + 1 + i` for the bit indices `i` in `0 .. 8L-1` whose bit is clear, in
increasing order of `i`; any datagram with the same first `10 + L` bytes gives the same
result, so the bytes after the bitmap have no influence. -/
theorem parse_ack_packet_missing (data : List Nat) (A : Nat) (missing_seqs : List Nat)
    (hparse : parse_ack_packet data = some (A, missing_seqs))
    (hA : A + 8 * be16_read data 8 < 2 ^ 64) :
    A = be64_read data 0 ∧
    missing_seqs =
      ((List.range (8 * be16_read data 8)).filter (fun i => !frame_bit data i)).map
        (fun i => A + 1 + i) ∧
    ∀ data' : List Nat,
      data'.take (10 + be16_read data 8) = data.take (10 + be16_read data 8) →
      parse_ack_packet data' = some (A, missing_seqs) := by
  have hacc := parse_ack_packet_accepts data _ hparse
  have hclosed := parse_ack_packet_closed data hacc
  rw [hparse] at hclosed
  have hAeq : A = be64_read data 0 := congrArg Prod.fst (Option.some.inj hclosed)
  have hMeq := congrArg Prod.snd (Option.some.inj hclosed)
  simp only at hMeq
  refine ⟨hAeq, ?_, ?_⟩
  · rw [hMeq, Nat.mul_comm, ← hAeq]
    apply List.map_congr_left
    intro i hi
    have hi' : i < 8 * be16_read data 8 := List.mem_range.mp (List.mem_filter.mp hi).1
    exact Nat.mod_eq_of_lt (by unfold U64; omega)
  · intro data' htake
    have hlen' : 10 + be16_read data 8 ≤ data'.length := by
      have := congrArg List.length htake
      simp only [List.length_take] at this
      omega
    have hget : ∀ k, k < 10 + be16_read data 8 → data'.getD k 0 = data.getD k 0 :=
      fun k hk => getD_eq_of_take_eq data data' _ k htake hk
    have h16 : be16_read data' 8 = be16_read data 8 := by
      unfold be16_read
      rw [hget 8 (by omega), hget (8 + 1) (by omega)]
    have h64 : be64_read data' 0 = be64_read data 0 := by
      unfold be64_read
      rw [hget 0 (by omega), hget (0 + 1) (by omega), hget (0 + 2) (by omega),
        hget (0 + 3) (by omega), hget (0 + 4) (by omega), hget (0 + 5) (by omega),
        hget (0 + 6) (by omega), hget (0 + 7) (by omega)]
    rw [parse_ack_packet_closed data' (by rw [h16]; exact hlen'), h16, h64, hclosed]
    congr 2
    apply congrArg
    apply List.filter_congr
    intro i hi
    have hi' : i < be16_read data 8 * 8 := List.mem_range.mp hi
    unfold frame_bit
    rw [hget _ (by simp only [sizeof_AckHeader]; omega)]

theorem parse_ack_packet_missing_witness :
    parse_ack_packet [0, 0, 0, 0, 0, 0, 0, 3, 0, 1, 0xA5, 0xFF] =
        some (3, [5, 7, 8, 10]) ∧
    3 + 8 * be16_read [0, 0, 0, 0, 0, 0, 0, 3, 0, 1, 0xA5, 0xFF] 8 < 2 ^ 64 ∧
    (3 = be64_read [0, 0, 0, 0, 0, 0, 0, 3, 0, 1, 0xA5, 0xFF] 0 ∧
    [5, 7, 8, 10] =
      ((List.range (8 * be16_read [0, 0, 0, 0, 0, 0, 0, 3, 0, 1, 0xA5, 0xFF] 8)).filter
        (fun i => !frame_bit [0, 0, 0, 0, 0, 0, 0, 3, 0, 1, 0xA5, 0xFF] i)).map
        (fun i => 3 + 1 + i) ∧
    ∀ data' : List Nat,
      data'.take (10 + be16_read [0, 0, 0, 0, 0, 0, 0, 3, 0, 1, 0xA5, 0xFF] 8) =
        [0, 0, 0, 0, 0, 0, 0, 3, 0, 1, 0xA5, 0xFF].take
          (10 + be16_read [0, 0, 0, 0, 0, 0, 0, 3, 0, 1, 0xA5, 0xFF] 8) →
      parse_ack_packet data' = some (3, [5, 7, 8, 10])) :=
  ⟨by decide, by decide,
    parse_ack_packet_missing [0, 0, 0, 0, 0, 0, 0, 3, 0, 1, 0xA5, 0xFF] 3 [5, 7, 8, 10]
      (by decide) (by decide)⟩

/-! ### Association lists -/

theorem map_find_filter_key {V : Type} (q : Nat → Bool) (m : List (Nat × V)) (k : Nat) :
    map_find (m.filter (fun e => q e.1)) k = if q k then map_find m k else none := by
  induction m with
  | nil => simp [map_find]
  | cons e m ih =>
    obtain ⟨k', v⟩ := e
    by_cases hq : q k' = true
    · rw [List.filter_cons_of_pos (by simpa using hq)]
      simp only [map_find]
      by_cases hk : k' = k
      · subst hk; simp [hq]
      · simp only [hk, if_false]; exact ih
    · rw [List.filter_cons_of_neg (by simpa using hq)]
      simp only [map_find]
      by_cases hk : k' = k
      · subst hk; rw [ih]; simp [hq]
      · simp only [hk, if_false]; exact ih

theorem map_find_of_mem_sorted {V : Type} (m : List (Nat × V)) (h : map_sorted m) (k : Nat)
    (v : V) (hmem : (k, v) ∈ m) : map_find m k = some v := by
  induction m with
  | nil => cases hmem
  | cons e m ih =>
    obtain ⟨k', v'⟩ := e
    unfold map_sorted map_keys at h
    rw [List.map_cons, List.pairwise_cons] at h
    rcases List.mem_cons.mp hmem with heq | htail
    · cases heq; simp [map_find]
    · have hlt : k' < k := h.1 k (List.mem_map.mpr ⟨(k, v), htail, rfl⟩)
      have hne : ¬ k' = k := by omega
      simp only [map_find, hne, if_false]
      exact ih h.2 htail

theorem map_find_some_mem {V : Type} (m : List (Nat × V)) (k : Nat) (v : V)
    (h : map_find m k = some v) : (k, v) ∈ m := by
  induction m with
  | nil => simp [map_find] at h
  | cons e m ih =>
    obtain ⟨k', v'⟩ := e
    simp only [map_find] at h
    by_cases hk : k' = k
    · simp only [hk, if_true, Option.some.injEq] at h
      subst hk; subst h
      exact List.mem_cons_self _ _
    · simp only [hk, if_false] at h
      exact List.mem_cons_of_mem _ (ih h)

theorem map_find_modify {V : Type} (f : V → V) (m : List (Nat × V)) (k x : Nat) :
    map_find (map_modify f m k) x =
      (map_find m x).map (fun v => if x = k then f v else v) := by
  induction m with
  | nil => simp [map_find, map_modify]
  | cons e m ih =>
    obtain ⟨k', v⟩ := e
    simp only [map_modify]
    by_cases hk : k' = k
    · simp only [hk, if_true, map_find]
      by_cases hx : k = x
      · simp [hx]
      · have hx' : ¬ x = k := fun e => hx e.symm
        simp only [hx, if_false]
        cases map_find m x <;> simp [hx']
    · simp only [hk, if_false, map_find]
      by_cases hx : k' = x
      · have hx' : ¬ x = k := fun e => hk (hx.trans e)
        simp [hx, hx']
      · simp only [hx, if_false]
        exact ih

theorem map_modify_proj {V W : Type} (f : V → V) (g : Nat × V → W)
    (hg : ∀ k v, g (k, f v) = g (k, v)) (m : List (Nat × V)) (k : Nat) :
    (map_modify f m k).map g = m.map g := by
  induction m with
  | nil => rfl
  | cons e m ih =>
    obtain ⟨k', v⟩ := e
    simp only [map_modify]
    by_cases hk : k' = k
    · simp [hk, hg]
    · simp [hk, ih]

/-! ### The three loops of `process_ack` -/

theorem ack_sweep_to_remove (st : List (Nat × Nat)) (cb : Bool) (clock : Nat → Nat)
    (ack_seq : Nat) (l : List (Nat × Pending)) :
    ∀ n, (ack_sweep st cb clock ack_seq l n).1 =
      (l.filter (fun e => decide (e.1 ≤ ack_seq))).map Prod.fst := by
  induction l with
  | nil => intro n; rfl
  | cons e l ih =>
    intro n
    obtain ⟨k, p⟩ := e
    by_cases hk : k ≤ ack_seq
    · rw [List.filter_cons_of_pos (by simpa using hk)]
      cases cb <;> simp [ack_sweep, hk, ih]
    · rw [List.filter_cons_of_neg (by simpa using hk)]
      simp [ack_sweep, hk, ih]

theorem ack_sweep_calls (st : List (Nat × Nat)) (clock : Nat → Nat) (ack_seq : Nat)
    (l : List (Nat × Pending))
    (hst : ∀ k p t, (k, p) ∈ l → map_find st k = some t → t = p.send_ts_ns) :
    ∀ n, ack_calls (ack_sweep st true clock ack_seq l n).2 =
      (l.filter (fun e => decide (e.1 ≤ ack_seq))).map
        (fun e => (e.1, e.2.send_ts_ns, e.2.retransmits)) := by
  induction l with
  | nil => intro n; rfl
  | cons e l ih =>
    intro n
    obtain ⟨k, p⟩ := e
    have ih' := ih (fun k' p' t hm hf => hst k' p' t (List.mem_cons_of_mem _ hm) hf)
    by_cases hk : k ≤ ack_seq
    · rw [List.filter_cons_of_pos (by simpa using hk)]
      have hts : (match map_find st k with
          | some t => t
          | none => p.send_ts_ns) = p.send_ts_ns := by
        cases hf : map_find st k with
        | none => rfl
        | some t => exact hst k p t (List.mem_cons_self _ _) hf
      simp only [ack_sweep, hk, if_true, ack_calls, List.filterMap_cons, List.map_cons, hts]
      exact congrArg _ (ih' (n + 1))
    · rw [List.filter_cons_of_neg (by simpa using hk)]
      simp only [ack_sweep, hk, if_false]
      exact ih' n

theorem ack_sweep_retransmit_calls (st : List (Nat × Nat)) (cb : Bool) (clock : Nat → Nat)
    (ack_seq : Nat) (l : List (Nat × Pending)) :
    ∀ n, retransmit_calls (ack_sweep st cb clock ack_seq l n).2 = [] := by
  induction l with
  | nil => intro n; rfl
  | cons e l ih =>
    intro n
    obtain ⟨k, p⟩ := e
    by_cases hk : k ≤ ack_seq
    · cases cb
      · simp only [ack_sweep, hk, if_true]
        exact ih n
      · simp only [ack_sweep, hk, if_true, retransmit_calls, List.filterMap_cons]
        exact ih (n + 1)
    · simp only [ack_sweep, hk, if_false]
      exact ih n

theorem ack_sweep_calls_keys (st : List (Nat × Nat)) (cb : Bool) (clock : Nat → Nat)
    (ack_seq : Nat) (l : List (Nat × Pending)) :
    ∀ n, ∀ c ∈ ack_calls (ack_sweep st cb clock ack_seq l n).2, c.1 ≤ ack_seq := by
  induction l with
  | nil => intro n c hc; cases hc
  | cons e l ih =>
    intro n c hc
    obtain ⟨k, p⟩ := e
    by_cases hk : k ≤ ack_seq
    · cases cb
      · simp only [ack_sweep, hk, if_true] at hc
        exact ih n c hc
      · simp only [ack_sweep, hk, if_true, ack_calls, List.filterMap_cons,
          List.mem_cons] at hc
        rcases hc with rfl | hc
        · exact hk
        · exact ih (n + 1) c hc
    · simp only [ack_sweep, hk, if_false] at hc
      exact ih n c hc

theorem erase_fold (ks : List Nat) :
    ∀ m : ReliabilityManager,
      ks.foldl erase_step m =
        { m with
          pending_packets_ := m.pending_packets_.filter (fun e => decide (e.1 ∉ ks))
          send_times_ := m.send_times_.filter (fun e => decide (e.1 ∉ ks)) } := by
  induction ks with
  | nil => intro m; simp
  | cons k ks ih =>
    intro m
    rw [List.foldl_cons, ih]
    simp only [erase_step, map_erase, List.filter_filter]
    congr 1
    · apply List.filter_congr
      intro e _
      by_cases h1 : e.1 = k <;> by_cases h2 : e.1 ∈ ks <;> simp [h1, h2]
    · apply List.filter_congr
      intro e _
      by_cases h1 : e.1 = k <;> by_cases h2 : e.1 ∈ ks <;> simp [h1, h2]

theorem filter_not_mem_swept {V : Type} (ack_seq : Nat) (l : List (Nat × Pending))
    (m : List (Nat × V)) :
    m.filter (fun e => decide (e.1 ∉
        (l.filter (fun e => decide (e.1 ≤ ack_seq))).map Prod.fst)) =
      m.filter (fun e => decide (ack_seq < e.1 ∨ e.1 ∉ map_keys l)) := by
  apply List.filter_congr
  intro e _
  apply decide_eq_decide.mpr
  simp only [List.mem_map, List.mem_filter, decide_eq_true_eq, map_keys]
  constructor
  · intro h
    by_cases hlt : ack_seq < e.1
    · exact Or.inl hlt
    · right
      rintro ⟨e', he', heq⟩
      exact h ⟨e', ⟨he', by omega⟩, heq⟩
  · rintro (h | h) ⟨e', ⟨he', hle⟩, heq⟩
    · omega
    · exact h ⟨e', he', heq⟩

theorem retransmit_step_fst_fields (s : ReliabilityManager × List Event) (x : Nat) :
    (retransmit_step s x).1.send_times_ = s.1.send_times_ ∧
    (retransmit_step s x).1.has_retransmit_callback = s.1.has_retransmit_callback ∧
    (retransmit_step s x).1.has_ack_callback = s.1.has_ack_callback := by
  unfold retransmit_step
  cases map_find s.1.pending_packets_ x with
  | none => exact ⟨rfl, rfl, rfl⟩
  | some p =>
    simp only
    split <;> exact ⟨rfl, rfl, rfl⟩

theorem retransmit_step_pending (s : ReliabilityManager × List Event) (x : Nat) :
    (retransmit_step s x).1.pending_packets_ =
      map_modify (fun p => { p with retransmits := p.retransmits + 1 })
        s.1.pending_packets_ x := by
  unfold retransmit_step
  cases hf : map_find s.1.pending_packets_ x with
  | none =>
    simp only
    have hid : ∀ (m : List (Nat × Pending)), map_find m x = none →
        m = map_modify (fun p => { p with retransmits := p.retransmits + 1 }) m x := by
      intro m
      induction m with
      | nil => intro _; rfl
      | cons e m ih =>
        obtain ⟨k, v⟩ := e
        intro h
        simp only [map_find] at h
        by_cases hk : k = x
        · simp [hk] at h
        · simp only [hk, if_false] at h
          simp only [map_modify, hk, if_false]
          exact congrArg _ (ih h)
    exact hid _ hf
  | some p =>
    simp only
    split <;> rfl

theorem retransmit_fold_fields (missing : List Nat) :
    ∀ s : ReliabilityManager × List Event,
      (missing.foldl retransmit_step s).1.send_times_ = s.1.send_times_ ∧
      (missing.foldl retransmit_step s).1.has_retransmit_callback =
        s.1.has_retransmit_callback ∧
      (missing.foldl retransmit_step s).1.has_ack_callback = s.1.has_ack_callback := by
  induction missing with
  | nil => intro s; exact ⟨rfl, rfl, rfl⟩
  | cons x rest ih =>
    intro s
    rw [List.foldl_cons]
    obtain ⟨h1, h2, h3⟩ := ih (retransmit_step s x)
    obtain ⟨g1, g2, g3⟩ := retransmit_step_fst_fields s x
    exact ⟨h1.trans g1, h2.trans g2, h3.trans g3⟩

theorem retransmit_fold_proj {W : Type} (g : Nat × Pending → W)
    (hg : ∀ k (p : Pending), g (k, { p with retransmits := p.retransmits + 1 }) = g (k, p))
    (missing : List Nat) :
    ∀ s : ReliabilityManager × List Event,
      (missing.foldl retransmit_step s).1.pending_packets_.map g =
        s.1.pending_packets_.map g := by
  induction missing with
  | nil => intro s; rfl
  | cons x rest ih =>
    intro s
    rw [List.foldl_cons, ih, retransmit_step_pending]
    exact map_modify_proj _ g hg _ _

theorem retransmit_fold_find (missing : List Nat) (k : Nat) :
    ∀ s : ReliabilityManager × List Event,
      map_find (missing.foldl retransmit_step s).1.pending_packets_ k =
        (map_find s.1.pending_packets_ k).map
          (fun p => { p with retransmits := p.retransmits + (missing.count k : Nat) }) := by
  induction missing with
  | nil =>
    intro s
    rw [List.foldl_nil]
    cases map_find s.1.pending_packets_ k <;> simp
  | cons x rest ih =>
    intro s
    rw [List.foldl_cons, ih, retransmit_step_pending, map_find_modify, Option.map_map]
    cases map_find s.1.pending_packets_ k with
    | none => rfl
    | some p =>
      simp only [Option.map_some', Function.comp, Option.some.injEq]
      by_cases hk : k = x
      · subst hk
        simp only [if_true, List.count_cons_self, Nat.cast_add, Nat.cast_one]
        congr 1
        omega
      · have hx : (x == k) = false := by
          simpa using fun e : x = k => hk e.symm
        simp only [hk, if_false, List.count_cons, hx]
        simp

theorem retransmit_step_ack_calls (s : ReliabilityManager × List Event) (x : Nat) :
    ack_calls (retransmit_step s x).2 = ack_calls s.2 := by
  unfold retransmit_step
  cases map_find s.1.pending_packets_ x with
  | none => rfl
  | some p =>
    simp only
    split
    · simp [ack_calls, List.filterMap_append]
    · rfl

theorem retransmit_fold_ack_calls (missing : List Nat) :
    ∀ s : ReliabilityManager × List Event,
      ack_calls (missing.foldl retransmit_step s).2 = ack_calls s.2 := by
  induction missing with
  | nil => intro s; rfl
  | cons x rest ih =>
    intro s
    rw [List.foldl_cons, ih, retransmit_step_ack_calls]

theorem retransmit_fold_calls (missing : List Nat) :
    ∀ s : ReliabilityManager × List Event, s.1.has_retransmit_callback = true →
      retransmit_calls (missing.foldl retransmit_step s).2 =
        retransmit_calls s.2 ++ missing.filterMap (fun x =>
          (map_find s.1.pending_packets_ x).map
            (fun p => create_data_packet x p.send_ts_ns MIN_MESSAGE_SIZE)) := by
  induction missing with
  | nil => intro s _; simp
  | cons x rest ih =>
    intro s hcb
    have hcb' : (retransmit_step s x).1.has_retransmit_callback = true :=
      (retransmit_step_fst_fields s x).2.1.trans hcb
    rw [List.foldl_cons, ih _ hcb']
    have htail : rest.filterMap (fun y =>
          (map_find (retransmit_step s x).1.pending_packets_ y).map
            (fun p => create_data_packet y p.send_ts_ns MIN_MESSAGE_SIZE)) =
        rest.filterMap (fun y =>
          (map_find s.1.pending_packets_ y).map
            (fun p => create_data_packet y p.send_ts_ns MIN_MESSAGE_SIZE)) := by
      congr 1
      funext y
      rw [retransmit_step_pending, map_find_modify, Option.map_map]
      cases map_find s.1.pending_packets_ y with
      | none => rfl
      | some p =>
        simp only [Option.map_some', Function.comp]
        split <;> rfl
    rw [htail, List.filterMap_cons]
    unfold retransmit_step
    cases hf : map_find s.1.pending_packets_ x with
    | none => simp
    | some p =>
      simp only [hcb, if_true, Option.map_some']
      simp [retransmit_calls, List.filterMap_append]

/-- The first two loops of `process_ack` keep exactly the entries above `ack_seq`,
and the third loop runs on them. -/
theorem process_ack_eq (m : ReliabilityManager) (clock : Nat → Nat) (ack_seq : Nat)
    (missing_seqs : List Nat) :
    m.process_ack clock ack_seq missing_seqs =
      missing_seqs.foldl retransmit_step
        ({ m with
           pending_packets_ := m.pending_packets_.filter (fun e => decide (ack_seq < e.1))
           send_times_ := m.send_times_.filter
             (fun e => decide (ack_seq < e.1 ∨ e.1 ∉ map_keys m.pending_packets_)) },
         (ack_sweep m.send_times_ m.has_ack_callback clock ack_seq m.pending_packets_ 0).2) := by
  unfold ReliabilityManager.process_ack
  simp only
  rw [erase_fold, ack_sweep_to_remove, filter_not_mem_swept, filter_not_mem_swept]
  congr 3
  apply List.filter_congr
  intro e he
  have hk : e.1 ∈ map_keys m.pending_packets_ := List.mem_map.mpr ⟨e, he, rfl⟩
  simp [hk]

/-! ### `process_ack` -/

/-- C8. Cumulative sweep of `process_ack`: on a manager whose ack callback is set, the ack
callback is invoked for exactly the pending entries with `seq ≤ ack_seq`, once each and in
the order of the table, with the entry's key, its send timestamp and its retransmit count;
the sequence numbers of the invocations are strictly increasing; and afterwards the pending
table holds exactly the former entries with `seq > ack_seq` (same keys, `seq` fields and
send timestamps). -/
theorem process_ack_cumulative_sweep (m : ReliabilityManager) (clock : Nat → Nat)
    (ack_seq : Nat) (missing_seqs : List Nat)
    (hsorted : map_sorted m.pending_packets_) (htimes : send_times_agree m)
    (hcb : m.has_ack_callback = true) :
    ack_calls (m.process_ack clock ack_seq missing_seqs).2 =
      (m.pending_packets_.filter (fun e => decide (e.1 ≤ ack_seq))).map
        (fun e => (e.1, e.2.send_ts_ns, e.2.retransmits)) ∧
    ((ack_calls (m.process_ack clock ack_seq missing_seqs).2).map (fun c => c.1)).Pairwise
      (fun a b => a < b) ∧
    (m.process_ack clock ack_seq missing_seqs).1.pending_packets_.map
        (fun e => (e.1, e.2.seq, e.2.send_ts_ns)) =
      (m.pending_packets_.filter (fun e => decide (ack_seq < e.1))).map
        (fun e => (e.1, e.2.seq, e.2.send_ts_ns)) := by
  have hcalls : ack_calls (m.process_ack clock ack_seq missing_seqs).2 =
      (m.pending_packets_.filter (fun e => decide (e.1 ≤ ack_seq))).map
        (fun e => (e.1, e.2.send_ts_ns, e.2.retransmits)) := by
    rw [process_ack_eq, retransmit_fold_ack_calls, hcb]
    exact ack_sweep_calls _ clock ack_seq _ htimes 0
  refine ⟨hcalls, ?_, ?_⟩
  · rw [hcalls, List.map_map]
    have hsub : ((m.pending_packets_.filter (fun e => decide (e.1 ≤ ack_seq))).map
        ((fun c : Nat × Nat × Int => c.1) ∘
          fun e : Nat × Pending => (e.1, e.2.send_ts_ns, e.2.retransmits))).Sublist
        (map_keys m.pending_packets_) :=
      List.Sublist.map _ (List.filter_sublist _)
    exact List.Pairwise.sublist hsub hsorted
  · rw [process_ack_eq]
    exact retransmit_fold_proj (fun e : Nat × Pending => (e.1, e.2.seq, e.2.send_ts_ns))
      (fun _ _ => rfl) missing_seqs _

theorem process_ack_cumulative_sweep_witness :
    ack_calls ((ReliabilityManager.mk
        [(1, ⟨1, 101, 0⟩), (2, ⟨2, 102, 1⟩), (5, ⟨5, 105, 0⟩), (6, ⟨6, 106, 2⟩)]
        [(1, 101), (2, 102), (5, 105), (6, 106)] true true).process_ack
        (fun n => 900 + n) 2 [6]).2 = [(1, 101, 0), (2, 102, 1)] ∧
    (ReliabilityManager.mk
        [(1, ⟨1, 101, 0⟩), (2, ⟨2, 102, 1⟩), (5, ⟨5, 105, 0⟩), (6, ⟨6, 106, 2⟩)]
        [(1, 101), (2, 102), (5, 105), (6, 106)] true true).process_ack
        (fun n => 900 + n) 2 [6] =
      (ReliabilityManager.mk [(5, ⟨5, 105, 0⟩), (6, ⟨6, 106, 3⟩)] [(5, 105), (6, 106)]
          true true,
        [Event.ack 1 101 900 0, Event.ack 2 102 901 1,
         Event.retransmit ⟨[0, 0, 0, 0, 0, 0, 0, 6, 0, 0, 0, 0, 0, 0, 0, 106]⟩]) := by
  constructor
  · have h := process_ack_cumulative_sweep
      (ReliabilityManager.mk
        [(1, ⟨1, 101, 0⟩), (2, ⟨2, 102, 1⟩), (5, ⟨5, 105, 0⟩), (6, ⟨6, 106, 2⟩)]
        [(1, 101), (2, 102), (5, 105), (6, 106)] true true)
      (fun n => 900 + n) 2 [6]
      (by simp [map_sorted, map_keys])
      (by
        intro k p t hmem hfind
        simp only [List.mem_cons, Prod.mk.injEq, List.mem_singleton, List.not_mem_nil,
          or_false] at hmem
        rcases hmem with ⟨rfl, rfl⟩ | ⟨rfl, rfl⟩ | ⟨rfl, rfl⟩ | ⟨rfl, rfl⟩ <;>
          simp [map_find] at hfind <;> exact hfind.symm)
      rfl
    exact h.1
  · decide

theorem process_ack_unacked_entry_aux (m : ReliabilityManager) (clock : Nat → Nat)
    (ack_seq : Nat) (missing_seqs : List Nat) (k : Nat) (p : Pending)
    (hsorted : map_sorted m.pending_packets_) (hmem : (k, p) ∈ m.pending_packets_)
    (hk : ack_seq < k) (hnodup : missing_seqs.Nodup) :
    map_find (m.process_ack clock ack_seq missing_seqs).1.pending_packets_ k =
      some { p with retransmits := p.retransmits + (if k ∈ missing_seqs then 1 else 0) } := by
  rw [process_ack_eq, retransmit_fold_find]
  simp only
  rw [map_find_filter_key (fun x => decide (ack_seq < x)), decide_eq_true hk, if_pos rfl,
    map_find_of_mem_sorted _ hsorted k p hmem, Option.map_some']
  by_cases hin : k ∈ missing_seqs
  · rw [List.count_eq_one_of_mem hnodup hin, if_pos hin]
    rfl
  · rw [List.count_eq_zero.mpr hin, if_neg hin]
    rfl

/-- C9. Entries that `process_ack` does not acknowledge: for a pending entry with
`seq > ack_seq` and a duplicate-free `missing_seqs`, the entry is still pending afterwards
with the same `seq` and send timestamp, its retransmit count is one larger if `seq` occurs
in `missing_seqs` and unchanged otherwise, its `send_times_` entry is untouched, and no ack
callback invocation carries its sequence number. Scenario F: pending `{3, 4, 5}`,
`ack_seq = 2`, `missing = {4}` fires no ack callback, invokes the retransmit callback once
(for 4), and leaves the retransmit count of 4 at 1 and the entries 3 and 5 unchanged. -/
theorem process_ack_unacked_entry (m : ReliabilityManager) (clock : Nat → Nat)
    (ack_seq : Nat) (missing_seqs : List Nat) (k : Nat) (p : Pending)
    (hsorted : map_sorted m.pending_packets_) (hmem : (k, p) ∈ m.pending_packets_)
    (hk : ack_seq < k) (hnodup : missing_seqs.Nodup) :
    (map_find (m.process_ack clock ack_seq missing_seqs).1.pending_packets_ k =
        some { p with retransmits := p.retransmits + (if k ∈ missing_seqs then 1 else 0) } ∧
      map_find (m.process_ack clock ack_seq missing_seqs).1.send_times_ k =
        map_find m.send_times_ k ∧
      ∀ c ∈ ack_calls (m.process_ack clock ack_seq missing_seqs).2, c.1 ≠ k) ∧
    (ReliabilityManager.mk [(3, ⟨3, 30, 0⟩), (4, ⟨4, 40, 0⟩), (5, ⟨5, 50, 0⟩)]
        [(3, 30), (4, 40), (5, 50)] true true).process_ack (fun n => 1000 + n) 2 [4] =
      (ReliabilityManager.mk [(3, ⟨3, 30, 0⟩), (4, ⟨4, 40, 1⟩), (5, ⟨5, 50, 0⟩)]
          [(3, 30), (4, 40), (5, 50)] true true,
        [Event.retransmit ⟨[0, 0, 0, 0, 0, 0, 0, 4, 0, 0, 0, 0, 0, 0, 0, 40]⟩]) := by
  refine ⟨⟨?_, ?_, ?_⟩, by decide⟩
  · exact process_ack_unacked_entry_aux m clock ack_seq missing_seqs k p hsorted hmem hk hnodup
  · rw [process_ack_eq, (retransmit_fold_fields missing_seqs _).1]
    simp only
    rw [map_find_filter_key
      (fun x => decide (ack_seq < x ∨ x ∉ map_keys m.pending_packets_))]
    simp [hk]
  · intro c hc
    rw [process_ack_eq, retransmit_fold_ack_calls] at hc
    have := ack_sweep_calls_keys _ _ _ _ _ 0 c hc
    omega

theorem process_ack_unacked_entry_witness :
    map_find ((ReliabilityManager.mk [(3, ⟨3, 30, 0⟩), (4, ⟨4, 40, 0⟩), (5, ⟨5, 50, 0⟩)]
        [(3, 30), (4, 40), (5, 50)] true true).process_ack
        (fun n => 1000 + n) 2 [4]).1.pending_packets_ 4 = some ⟨4, 40, 1⟩ :=
  (process_ack_unacked_entry
    (ReliabilityManager.mk [(3, ⟨3, 30, 0⟩), (4, ⟨4, 40, 0⟩), (5, ⟨5, 50, 0⟩)]
      [(3, 30), (4, 40), (5, 50)] true true)
    (fun n => 1000 + n) 2 [4] 4 ⟨4, 40, 0⟩
    (by simp [map_sorted, map_keys]) (by simp) (by decide) (by simp)).1.1

/-! ### `process_ack_packet` -/

theorem getD_lt_of_bytes (data : List Nat) (hbytes : ∀ b ∈ data, b < 256) (i : Nat) :
    data.getD i 0 < 256 := by
  rw [List.getD_eq_getElem?_getD]
  cases h : data[i]? with
  | none => simp
  | some b => exact hbytes b (List.getElem?_mem h)

theorem be16_read_lt (data : List Nat) (hbytes : ∀ b ∈ data, b < 256) (off : Nat) :
    be16_read data off < 65536 := by
  unfold be16_read
  have h0 := getD_lt_of_bytes data hbytes off
  have h1 := getD_lt_of_bytes data hbytes (off + 1)
  omega

theorem parse_ack_packet_nodup (data : List Nat) (hbytes : ∀ b ∈ data, b < 256)
    (A : Nat) (missing_seqs : List Nat)
    (hparse : parse_ack_packet data = some (A, missing_seqs)) :
    missing_seqs.Nodup ∧ ∀ x ∈ missing_seqs, x < 2 ^ 64 := by
  have hacc := parse_ack_packet_accepts data _ hparse
  have hclosed := parse_ack_packet_closed data hacc
  rw [hparse] at hclosed
  have hMeq := congrArg Prod.snd (Option.some.inj hclosed)
  simp only at hMeq
  have hL := be16_read_lt data hbytes 8
  subst hMeq
  constructor
  · apply List.Nodup.map_on
    · intro i hi j hj hij
      have hi' : i < be16_read data 8 * 8 := List.mem_range.mp (List.mem_filter.mp hi).1
      have hj' : j < be16_read data 8 * 8 := List.mem_range.mp (List.mem_filter.mp hj).1
      simp only [U64] at hij
      omega
    · exact List.Nodup.filter _ (List.nodup_range _)
  · intro x hx
    obtain ⟨i, _, rfl⟩ := List.mem_map.mp hx
    exact Nat.mod_lt _ (by unfold U64; decide)

theorem get_sequence_create_data_packet (x ts n : Nat) (hx : x < 2 ^ 64) :
    (create_data_packet x ts n).get_sequence = x := by
  unfold Packet.get_sequence
  rw [create_data_packet_data, be64_read_be64_bytes x hx]
  simp [be64_bytes_length, sizeof_sequence_t]

theorem retransmit_frames_sequences (P : List (Nat × Pending)) (missing : List Nat)
    (hlt : ∀ x ∈ missing, x < 2 ^ 64) :
    (missing.filterMap (fun x =>
        (map_find P x).map
          (fun p => create_data_packet x p.send_ts_ns MIN_MESSAGE_SIZE))).map
        Packet.get_sequence =
      missing.filter (fun x => (map_find P x).isSome) := by
  induction missing with
  | nil => rfl
  | cons x rest ih =>
    have ih' := ih (fun y hy => hlt y (List.mem_cons_of_mem _ hy))
    have hx := hlt x (List.mem_cons_self _ _)
    rw [List.filterMap_cons]
    cases hf : map_find P x with
    | none =>
      rw [List.filter_cons_of_neg (by simp [hf])]
      simpa using ih'
    | some p =>
      rw [List.filter_cons_of_pos (by simp [hf])]
      simp only [Option.map_some', List.map_cons, get_sequence_create_data_packet _ _ _ hx]
      exact congrArg _ ih'

/-- C10. Retransmit once per ACK frame: for a datagram that `parse_ack_packet` accepts
with result `(A, missing_seqs)`, the list `missing_seqs` has no duplicates, and for every
pending sequence `k`, `process_ack_packet` invokes the retransmit callback for `k` once if
`k > A` and `k` is in `missing_seqs` and never otherwise; an entry with `k > A` stays
pending with its retransmit count increased by one exactly when `k` is in `missing_seqs`,
and an entry with `k ≤ A` is removed. -/
theorem process_ack_packet_retransmit_once (s : SenderReliability) (clock : Nat → Nat)
    (data : List Nat) (A : Nat) (missing_seqs : List Nat)
    (hbytes : ∀ b ∈ data, b < 256)
    (hparse : parse_ack_packet data = some (A, missing_seqs))
    (hsorted : map_sorted s.reliability_mgr_.pending_packets_)
    (hcb : s.reliability_mgr_.has_retransmit_callback = true) :
    missing_seqs.Nodup ∧
    ∀ k p, (k, p) ∈ s.reliability_mgr_.pending_packets_ →
      ((retransmit_calls (s.process_ack_packet clock data).2).map Packet.get_sequence).count k =
        (if A < k ∧ k ∈ missing_seqs then 1 else 0) ∧
      (A < k →
        map_find (s.process_ack_packet clock data).1.reliability_mgr_.pending_packets_ k =
          some { p with
            retransmits := p.retransmits + (if k ∈ missing_seqs then 1 else 0) }) ∧
      (k ≤ A →
        map_find (s.process_ack_packet clock data).1.reliability_mgr_.pending_packets_ k =
          none) := by
  obtain ⟨hnodup, hlt⟩ := parse_ack_packet_nodup data hbytes A missing_seqs hparse
  refine ⟨hnodup, ?_⟩
  intro k p hmem
  have hfind := map_find_of_mem_sorted _ hsorted k p hmem
  have hrun : s.process_ack_packet clock data =
      ({ s with reliability_mgr_ :=
          (s.reliability_mgr_.process_ack clock A missing_seqs).1 },
        (s.reliability_mgr_.process_ack clock A missing_seqs).2) := by
    unfold SenderReliability.process_ack_packet
    rw [hparse]
  rw [hrun]
  simp only
  refine ⟨?_, ?_, ?_⟩
  · rw [process_ack_eq, retransmit_fold_calls _ _ hcb, ack_sweep_retransmit_calls,
      List.nil_append, retransmit_frames_sequences _ _ hlt]
    simp only
    by_cases hk : A < k
    · by_cases hin : k ∈ missing_seqs
      · rw [if_pos ⟨hk, hin⟩, List.count_filter, List.count_eq_one_of_mem hnodup hin]
        rw [map_find_filter_key (fun x => decide (A < x)), decide_eq_true hk, if_pos rfl, hfind]
        rfl
      · rw [if_neg (fun h => hin h.2)]
        exact List.count_eq_zero.mpr (fun h => hin (List.mem_filter.mp h).1)
    · rw [if_neg (fun h => hk h.1)]
      apply List.count_eq_zero.mpr
      intro h
      have h2 := (List.mem_filter.mp h).2
      rw [map_find_filter_key (fun x => decide (A < x)), decide_eq_false hk] at h2
      simp at h2
  · intro hk
    exact (process_ack_unacked_entry_aux s.reliability_mgr_ clock A missing_seqs k p hsorted
      hmem hk hnodup)
  · intro hk
    rw [process_ack_eq, retransmit_fold_find]
    simp only
    rw [map_find_filter_key (fun x => decide (A < x)), decide_eq_false (by omega)]
    rfl

theorem process_ack_packet_retransmit_once_witness :
    (((retransmit_calls ((SenderReliability.mk
        (ReliabilityManager.mk [(3, ⟨3, 30, 0⟩), (4, ⟨4, 40, 0⟩), (5, ⟨5, 50, 0⟩)]
          [(3, 30), (4, 40), (5, 50)] true true) 64).process_ack_packet
        (fun n => 1000 + n) [0, 0, 0, 0, 0, 0, 0, 2, 0, 1, 0xFD]).2).map
        Packet.get_sequence).count 4 = 1) ∧
    map_find ((SenderReliability.mk
        (ReliabilityManager.mk [(3, ⟨3, 30, 0⟩), (4, ⟨4, 40, 0⟩), (5, ⟨5, 50, 0⟩)]
          [(3, 30), (4, 40), (5, 50)] true true) 64).process_ack_packet
        (fun n => 1000 + n)
        [0, 0, 0, 0, 0, 0, 0, 2, 0, 1, 0xFD]).1.reliability_mgr_.pending_packets_ 4 =
      some ⟨4, 40, 1⟩ := by
  have h := (process_ack_packet_retransmit_once
    (SenderReliability.mk
      (ReliabilityManager.mk [(3, ⟨3, 30, 0⟩), (4, ⟨4, 40, 0⟩), (5, ⟨5, 50, 0⟩)]
        [(3, 30), (4, 40), (5, 50)] true true) 64)
    (fun n => 1000 + n) [0, 0, 0, 0, 0, 0, 0, 2, 0, 1, 0xFD] 2 [4]
    (by decide) (by decide) (by simp [map_sorted, map_keys]) rfl).2 4 ⟨4, 40, 0⟩ (by simp)
  exact ⟨h.1, h.2.1 (by decide)⟩

/-! ### The polarity of the SACK bitmap -/

theorem set_bitmap_bit_header (p : AckPacket) (j : Nat) (v : Bool) (i : Nat) (hi : i < 10) :
    (p.set_bitmap_bit j v).data_.getD i 0 = p.data_.getD i 0 := by
  unfold AckPacket.set_bitmap_bit
  simp only [sizeof_AckHeader]
  have hne : 10 + j / 8 ≠ i := by omega
  split
  · split <;>
      rw [List.getD_eq_getElem?_getD, List.getElem?_set_ne hne, ← List.getD_eq_getElem?_getD]
  · rfl

theorem create_ack_fold_header (A W : Nat) (M : List Nat) (i : Nat) (hi : i < 10) :
    ∀ p : AckPacket, (M.foldl (create_ack_step A W) p).data_.getD i 0 = p.data_.getD i 0 := by
  induction M with
  | nil => intro p; rfl
  | cons m M ih =>
    intro p
    rw [List.foldl_cons, ih]
    unfold create_ack_step
    split
    · exact set_bitmap_bit_header _ _ _ i hi
    · rfl

theorem create_ack_fold_length (A W : Nat) (M : List Nat) :
    ∀ p : AckPacket, (M.foldl (create_ack_step A W) p).data_.length = p.data_.length := by
  induction M with
  | nil => intro p; rfl
  | cons m M ih =>
    intro p
    rw [List.foldl_cons, ih, create_ack_step_length]

theorem create_ack_packet_length (A W : Nat) (M : List Nat) :
    (create_ack_packet A M W).data_.length = 10 + W / 8 := by
  unfold create_ack_packet
  simp only
  rw [create_ack_fold_length, ack_header_data]
  simp [be64_bytes_length, be16_bytes_length]
  omega

theorem create_ack_packet_ack_seq (A W : Nat) (M : List Nat) (hA : A < 2 ^ 64) :
    be64_read (create_ack_packet A M W).data_ 0 = A := by
  have hrd : be64_read (create_ack_packet A M W).data_ 0 =
      be64_read (be64_bytes A ++ (be16_bytes (W / 8 % 2 ^ 16) ++ List.replicate (W / 8) 0))
        0 := by
    unfold create_ack_packet be64_read
    simp only
    rw [create_ack_fold_header A W M 0 (by omega), create_ack_fold_header A W M (0 + 1) (by omega),
      create_ack_fold_header A W M (0 + 2) (by omega),
      create_ack_fold_header A W M (0 + 3) (by omega),
      create_ack_fold_header A W M (0 + 4) (by omega),
      create_ack_fold_header A W M (0 + 5) (by omega),
      create_ack_fold_header A W M (0 + 6) (by omega),
      create_ack_fold_header A W M (0 + 7) (by omega), ack_header_data]
  rw [hrd, be64_read_be64_bytes A hA]

theorem create_ack_packet_bitmap_len (A W : Nat) (M : List Nat) :
    be16_read (create_ack_packet A M W).data_ 8 = W / 8 % 2 ^ 16 := by
  have hrd : be16_read (create_ack_packet A M W).data_ 8 =
      be16_read (be64_bytes A ++ (be16_bytes (W / 8 % 2 ^ 16) ++ List.replicate (W / 8) 0))
        8 := by
    unfold create_ack_packet be16_read
    simp only
    rw [create_ack_fold_header A W M 8 (by omega), create_ack_fold_header A W M (8 + 1) (by omega),
      ack_header_data]
  rw [hrd]
  simp only [be16_read, be64_bytes, be16_bytes]
  simp
  omega

/-- What the codec does on a round trip: when `A + W < 2^64` and `W / 8 ≤ 65535`, parsing
the frame of `create_ack_packet A M W` succeeds with `ack_seq = A` and returns, in
increasing order, the sequences `A + 1 + i` with `i < 8 * (W / 8)` that are NOT in `M`. -/
theorem parse_create_ack_packet (A W : Nat) (M : List Nat) (hAW : A + W < 2 ^ 64)
    (hW : W / 8 ≤ 65535) :
    parse_ack_packet (create_ack_packet A M W).data_ =
      some (A, ((List.range (8 * (W / 8))).filter (fun i => decide (A + 1 + i ∉ M))).map
        (fun i => A + 1 + i)) := by
  have hlen := create_ack_packet_length A W M
  have hL : be16_read (create_ack_packet A M W).data_ 8 = W / 8 := by
    rw [create_ack_packet_bitmap_len]
    exact Nat.mod_eq_of_lt (by omega)
  have hA : be64_read (create_ack_packet A M W).data_ 0 = A :=
    create_ack_packet_ack_seq A W M (by omega)
  rw [parse_ack_packet_closed _ (by rw [hL, hlen]), hL, hA, Nat.mul_comm (W / 8) 8]
  congr 2
  have hfilter : (List.range (8 * (W / 8))).filter
        (fun i => !frame_bit (create_ack_packet A M W).data_ i) =
      (List.range (8 * (W / 8))).filter (fun i => decide (A + 1 + i ∉ M)) := by
    apply List.filter_congr
    intro i hi
    have hi' : i < 8 * (W / 8) := List.mem_range.mp hi
    have hbit : frame_bit (create_ack_packet A M W).data_ i = decide (A + 1 + i ∈ M) := by
      unfold create_ack_packet
      simp only
      rw [frame_bit_create_ack_fold A W hAW M _
        (by rw [ack_header_data]; simp [be64_bytes_length, be16_bytes_length]; omega) i hi',
        ack_header_data, frame_bit_ack_header]
      simp
    rw [hbit]
    by_cases h : A + 1 + i ∈ M <;> simp [h]
  rw [hfilter]
  apply List.map_congr_left
  intro i hi
  have hi' : i < 8 * (W / 8) := List.mem_range.mp (List.mem_filter.mp hi).1
  exact Nat.mod_eq_of_lt (by unfold U64; omega)

theorem generate_ack_scan_eq (received : List (Nat × Nat)) (window_end : Nat)
    (hend : window_end + 1 < 2 ^ 64) :
    ∀ (n seq : Nat) (acc : List Nat) (fuel : Nat), seq + n = window_end + 1 → n < fuel →
      generate_ack_scan received window_end fuel seq acc =
        some (acc ++ (List.range' seq n).filter
          (fun x => !(map_find received x).isSome)) := by
  intro n
  induction n with
  | zero =>
    intro seq acc fuel hseq hfuel
    obtain ⟨f, rfl⟩ : ∃ f, fuel = f + 1 := ⟨fuel - 1, by omega⟩
    have hgt : ¬ seq ≤ window_end := by omega
    simp [generate_ack_scan, hgt]
  | succ n ih =>
    intro seq acc fuel hseq hfuel
    obtain ⟨f, rfl⟩ : ∃ f, fuel = f + 1 := ⟨fuel - 1, by omega⟩
    have hle : seq ≤ window_end := by omega
    have hmod : (seq + 1) % U64 = seq + 1 := Nat.mod_eq_of_lt (by unfold U64; omega)
    simp only [generate_ack_scan, hle, if_true, hmod]
    rw [ih (seq + 1) _ f (by omega) (by omega), List.range'_succ]
    cases hr : (map_find received seq).isSome
    · rw [List.filter_cons_of_pos (by simp [hr])]
      simp
    · rw [List.filter_cons_of_neg (by simp [hr])]
      simp

/-- What `generate_ack` computes when the window ends below `2^64 - 1` and the scan is
given more than `window_size_` iterations: the frame that `create_ack_packet` builds
from the sequences of `(H, H + W]` that are not in the received set. -/
theorem generate_ack_eq (a : AckManager) (fuel : Nat)
    (hend : a.highest_contiguous_ + int_to_u64 a.window_size_ + 1 < 2 ^ 64)
    (hfuel : int_to_u64 a.window_size_ < fuel) :
    a.generate_ack fuel =
      some ({ a with packets_since_ack_ := 0 },
        create_ack_packet a.highest_contiguous_
          ((List.range' (a.highest_contiguous_ + 1) (int_to_u64 a.window_size_)).filter
            (fun x => !(map_find a.received_packets_ x).isSome))
          (int_to_u64 a.window_size_)) := by
  have h1 : (a.highest_contiguous_ + int_to_u64 a.window_size_) % U64 =
      a.highest_contiguous_ + int_to_u64 a.window_size_ :=
    Nat.mod_eq_of_lt (by unfold U64; omega)
  have h2 : (a.highest_contiguous_ + 1) % U64 = a.highest_contiguous_ + 1 :=
    Nat.mod_eq_of_lt (by unfold U64; omega)
  unfold AckManager.generate_ack
  simp only [h1, h2]
  rw [generate_ack_scan_eq _ _ hend (int_to_u64 a.window_size_) _ _ fuel (by omega) hfuel]
  simp

/-- What the receiver puts on the wire: in the frame of `generate_ack`, bit `i` of the
bitmap is set if and only if sequence `H + 1 + i` is NOT in the received set. -/
theorem generate_ack_frame_bit (a : AckManager) (fuel : Nat)
    (hend : a.highest_contiguous_ + int_to_u64 a.window_size_ + 1 < 2 ^ 64)
    (hfuel : int_to_u64 a.window_size_ < fuel) (i : Nat)
    (hi : i < 8 * (int_to_u64 a.window_size_ / 8)) :
    ∃ r, a.generate_ack fuel = some r ∧
      (frame_bit r.2.data_ i = true ↔
        map_find a.received_packets_ (a.highest_contiguous_ + 1 + i) = none) := by
  refine ⟨_, generate_ack_eq a fuel hend hfuel, ?_⟩
  simp only
  unfold create_ack_packet
  simp only
  rw [frame_bit_create_ack_fold _ _ (by omega) _ _
    (by rw [ack_header_data]; simp [be64_bytes_length, be16_bytes_length]; omega) i hi,
    ack_header_data, frame_bit_ack_header]
  simp only [Bool.false_or, decide_eq_true_eq, List.mem_filter, List.mem_range'_1,
    Bool.not_eq_true']
  constructor
  · intro h
    cases hf : map_find a.received_packets_ (a.highest_contiguous_ + 1 + i) with
    | none => rfl
    | some t => rw [hf] at h; exact absurd h.2 (by simp)
  · intro h
    exact ⟨by omega, by rw [h]; rfl⟩

/-- What the sender decodes from the receiver's frame: `ack_seq = H` and, as the
"missing" list, the sequences `H + 1 + i` (`i < 8 * (W / 8)`) that ARE in the received
set, in increasing order. -/
theorem parse_generate_ack (a : AckManager) (fuel : Nat)
    (hend : a.highest_contiguous_ + int_to_u64 a.window_size_ + 1 < 2 ^ 64)
    (hfuel : int_to_u64 a.window_size_ < fuel)
    (hW : int_to_u64 a.window_size_ / 8 ≤ 65535) :
    ∃ r, a.generate_ack fuel = some r ∧
      parse_ack_packet r.2.data_ =
        some (a.highest_contiguous_,
          ((List.range (8 * (int_to_u64 a.window_size_ / 8))).filter
            (fun i => (map_find a.received_packets_ (a.highest_contiguous_ + 1 + i)).isSome)).map
            (fun i => a.highest_contiguous_ + 1 + i)) := by
  refine ⟨_, generate_ack_eq a fuel hend hfuel, ?_⟩
  simp only
  rw [parse_create_ack_packet _ _ _ (by omega) hW]
  congr 3
  apply List.filter_congr
  intro i hi
  have hi' : i < 8 * (int_to_u64 a.window_size_ / 8) := List.mem_range.mp hi
  cases hr : (map_find a.received_packets_ (a.highest_contiguous_ + 1 + i)).isSome
  · simp only [decide_eq_false_iff_not, not_not, List.mem_filter, List.mem_range'_1, hr,
      Bool.not_false, and_true]
    omega
  · simp only [List.mem_filter, List.mem_range'_1, hr, Bool.not_true, and_false,
      Bool.false_eq_true, not_false_eq_true, decide_True]

/-- The sender's reaction to the receiver's frame: a pending sequence `k` above the
watermark `H` has its retransmit count increased exactly when `k ≤ H + 8 * (W / 8)` and
`k` IS in the received set; the sequences of the window that the receiver lacks are left
alone. -/
theorem process_generate_ack (a : AckManager) (fuel : Nat) (s : SenderReliability)
    (clock : Nat → Nat)
    (hend : a.highest_contiguous_ + int_to_u64 a.window_size_ + 1 < 2 ^ 64)
    (hfuel : int_to_u64 a.window_size_ < fuel)
    (hW : int_to_u64 a.window_size_ / 8 ≤ 65535)
    (hsorted : map_sorted s.reliability_mgr_.pending_packets_) :
    ∃ r, a.generate_ack fuel = some r ∧
      ∀ k p, (k, p) ∈ s.reliability_mgr_.pending_packets_ → a.highest_contiguous_ < k →
        map_find (s.process_ack_packet clock r.2.data_).1.reliability_mgr_.pending_packets_ k =
          some { p with
            retransmits := p.retransmits +
              (if k ≤ a.highest_contiguous_ + 8 * (int_to_u64 a.window_size_ / 8) ∧
                  (map_find a.received_packets_ k).isSome = true then 1 else 0) } := by
  obtain ⟨r, hgen, hparse⟩ := parse_generate_ack a fuel hend hfuel hW
  refine ⟨r, hgen, ?_⟩
  intro k p hmem hk
  have hnodup : (((List.range (8 * (int_to_u64 a.window_size_ / 8))).filter
      (fun i => (map_find a.received_packets_ (a.highest_contiguous_ + 1 + i)).isSome)).map
      (fun i => a.highest_contiguous_ + 1 + i)).Nodup := by
    apply List.Nodup.map
    · intro i j hij
      simp only at hij
      omega
    · exact List.Nodup.filter _ (List.nodup_range _)
  have hrun : (s.process_ack_packet clock r.2.data_).1.reliability_mgr_ =
      (s.reliability_mgr_.process_ack clock a.highest_contiguous_
        (((List.range (8 * (int_to_u64 a.window_size_ / 8))).filter
          (fun i => (map_find a.received_packets_ (a.highest_contiguous_ + 1 + i)).isSome)).map
          (fun i => a.highest_contiguous_ + 1 + i))).1 := by
    unfold SenderReliability.process_ack_packet
    rw [hparse]
  rw [hrun, process_ack_unacked_entry_aux _ clock _ _ k p hsorted hmem hk hnodup]
  have hiff : k ∈ ((List.range (8 * (int_to_u64 a.window_size_ / 8))).filter
        (fun i => (map_find a.received_packets_ (a.highest_contiguous_ + 1 + i)).isSome)).map
        (fun i => a.highest_contiguous_ + 1 + i) ↔
      (k ≤ a.highest_contiguous_ + 8 * (int_to_u64 a.window_size_ / 8) ∧
        (map_find a.received_packets_ k).isSome = true) := by
    simp only [List.mem_map, List.mem_filter, List.mem_range]
    constructor
    · rintro ⟨i, ⟨hi, hr⟩, rfl⟩
      exact ⟨by omega, hr⟩
    · rintro ⟨hle, hr⟩
      refine ⟨k - a.highest_contiguous_ - 1, ⟨by omega, ?_⟩, by omega⟩
      have hk' : a.highest_contiguous_ + 1 + (k - a.highest_contiguous_ - 1) = k := by omega
      rw [hk']
      exact hr
  by_cases h : k ∈ ((List.range (8 * (int_to_u64 a.window_size_ / 8))).filter
        (fun i => (map_find a.received_packets_ (a.highest_contiguous_ + 1 + i)).isSome)).map
        (fun i => a.highest_contiguous_ + 1 + i)
  · rw [if_pos h, if_pos (hiff.mp h)]
  · rw [if_neg h, if_neg (fun h2 => h (hiff.mpr h2))]

/-- C1. SACK round trip at `ack_seq = 3`, `M = {4}`: parsing the frame that
`create_ack_packet` builds from `M` does not return `M` but the other sequences of the
window, `5 .. 11` for a window of 8 and `5 .. 259` for the default window of 256. -/
theorem sack_round_trip_returns_complement :
    parse_ack_packet (create_ack_packet 3 [4] 8).data_ = some (3, [5, 6, 7, 8, 9, 10, 11]) ∧
    parse_ack_packet (create_ack_packet 3 [4] 256).data_ =
      some (3, (List.range 255).map (fun i => 5 + i)) :=
  ⟨by decide, by decide!⟩

/-- C2. Bit polarity of `generate_ack` in scenario B (received 1, 2, 3 and 5, so the
watermark is 3, window 256): the frame is `ack_seq = 3`, `bitmap_len = 32`, bitmap
`FD FF .. FF`; bit 0, which stands for the absent sequence 4, is set, and bit 1, which
stands for the received sequence 5, is clear. -/
theorem generate_ack_sets_bits_of_absent_sequences :
    scenario_B_receiver =
      some ⟨[(5, 2005), (3, 2003), (2, 2002), (1, 2001)], 3, 256, 1, 4⟩ ∧
    scenario_B_frame.map (fun f => f.data_) =
      some ([0, 0, 0, 0, 0, 0, 0, 3, 0, 32, 0xFD] ++ List.replicate 31 0xFF) ∧
    scenario_B_frame.map (fun f => (frame_bit f.data_ 0, frame_bit f.data_ 1)) =
      some (true, false) :=
  ⟨by decide!, by decide!, by decide!⟩

/-- C3. Scenario B end to end: the sender has 1..5 pending and processes the frame built
by the receiver that holds 1, 2, 3 and 5. The ack callback fires for 1, 2, 3 in order; the
only retransmit callback invocation is for sequence 5, whose retransmit count becomes 1,
while sequence 4, which the receiver lacks, keeps retransmit count 0. -/
theorem scenario_B_bumps_received_sequence :
    scenario_B_sender.reliability_mgr_.pending_packets_ =
      [(1, ⟨1, 1001, 0⟩), (2, ⟨2, 1002, 0⟩), (3, ⟨3, 1003, 0⟩), (4, ⟨4, 1004, 0⟩),
       (5, ⟨5, 1005, 0⟩)] ∧
    scenario_B_frame.map (fun f =>
        (ack_calls (scenario_B_sender.process_ack_packet (fun n => 3000 + n) f.data_).2,
         (scenario_B_sender.process_ack_packet (fun n => 3000 + n)
            f.data_).1.reliability_mgr_.pending_packets_,
         (retransmit_calls (scenario_B_sender.process_ack_packet (fun n => 3000 + n)
            f.data_).2).map Packet.get_sequence)) =
      some ([(1, 1001, 0), (2, 1002, 0), (3, 1003, 0)],
        [(4, ⟨4, 1004, 0⟩), (5, ⟨5, 1005, 1⟩)],
        [5]) :=
  ⟨by decide!, by decide!⟩

/-! ### At-most-once ACK events -/

theorem map_assign_append {V : Type} (m : List (Nat × V)) (seq : Nat) (v : V)
    (h : ∀ k ∈ map_keys m, k < seq) : map_assign m seq v = m ++ [(seq, v)] := by
  induction m with
  | nil => rfl
  | cons e m ih =>
    obtain ⟨k, w⟩ := e
    have hk : k < seq := h k (by simp [map_keys])
    have h1 : ¬ seq < k := by omega
    have h2 : ¬ seq = k := by omega
    simp only [map_assign, h1, h2, if_false, List.cons_append]
    rw [ih (fun k' hk' => h k' (by simp only [map_keys, List.map_cons, List.mem_cons] at hk' ⊢
                                   exact Or.inr hk'))]

theorem ack_calls_append (a b : List Event) : ack_calls (a ++ b) = ack_calls a ++ ack_calls b := by
  simp [ack_calls, List.filterMap_append]

theorem ack_sweep_call_seqs (st : List (Nat × Nat)) (cb : Bool) (clock : Nat → Nat)
    (ack_seq : Nat) (l : List (Nat × Pending)) :
    ∀ n, (ack_calls (ack_sweep st cb clock ack_seq l n).2).map (fun c => c.1) =
      if cb = true then (l.filter (fun e => decide (e.1 ≤ ack_seq))).map Prod.fst else [] := by
  induction l with
  | nil => intro n; cases cb <;> rfl
  | cons e l ih =>
    intro n
    obtain ⟨k, p⟩ := e
    by_cases hk : k ≤ ack_seq
    · rw [List.filter_cons_of_pos (by simpa using hk)]
      cases cb
      · simp only [ack_sweep, hk, if_true, Bool.false_eq_true, if_false]
        simpa using ih n
      · simp only [ack_sweep, hk, if_true, ack_calls, List.filterMap_cons, List.map_cons]
        have := ih (n + 1)
        simp only [if_true, ack_calls] at this
        rw [this]
    · rw [List.filter_cons_of_neg (by simpa using hk)]
      simp only [ack_sweep, hk, if_false]
      exact ih n

theorem process_ack_call_seqs (m : ReliabilityManager) (clock : Nat → Nat) (ack_seq : Nat)
    (missing_seqs : List Nat) :
    (ack_calls (m.process_ack clock ack_seq missing_seqs).2).map (fun c => c.1) =
      if m.has_ack_callback = true then
        (m.pending_packets_.filter (fun e => decide (e.1 ≤ ack_seq))).map Prod.fst
      else [] := by
  rw [process_ack_eq, retransmit_fold_ack_calls]
  exact ack_sweep_call_seqs _ _ _ _ _ 0

theorem process_ack_keys (m : ReliabilityManager) (clock : Nat → Nat) (ack_seq : Nat)
    (missing_seqs : List Nat) :
    map_keys (m.process_ack clock ack_seq missing_seqs).1.pending_packets_ =
      (m.pending_packets_.filter (fun e => decide (ack_seq < e.1))).map Prod.fst := by
  rw [process_ack_eq]
  exact retransmit_fold_proj Prod.fst (fun _ _ => rfl) missing_seqs _

theorem run_ack_seqs_nodup (calls : List ManagerCall) :
    ∀ s : ReliabilityManager × List Event,
      map_sorted s.1.pending_packets_ →
      ((ack_calls s.2).map (fun c => c.1)).Nodup →
      (∀ k ∈ (ack_calls s.2).map (fun c => c.1), k ∉ map_keys s.1.pending_packets_) →
      (added_seqs calls).Pairwise (fun a b => a < b) →
      (∀ x ∈ added_seqs calls, (∀ k ∈ map_keys s.1.pending_packets_, k < x) ∧
        ∀ k ∈ (ack_calls s.2).map (fun c => c.1), k < x) →
      ((ack_calls (calls.foldl ReliabilityManager.call s).2).map (fun c => c.1)).Nodup := by
  induction calls with
  | nil => intro s _ hnd _ _ _; exact hnd
  | cons c rest ih =>
    intro s hsorted hnd hdisj hpw hfut
    rw [List.foldl_cons]
    cases c with
    | add_pending_packet seq send_time =>
      simp only [added_seqs, List.pairwise_cons] at hpw
      have hseq := hfut seq (by simp [added_seqs])
      have hpend : (ReliabilityManager.call s
          (ManagerCall.add_pending_packet seq send_time)).1.pending_packets_ =
          s.1.pending_packets_ ++ [(seq, ⟨seq, send_time, 0⟩)] :=
        map_assign_append _ _ _ hseq.1
      have hkeys : map_keys (ReliabilityManager.call s
          (ManagerCall.add_pending_packet seq send_time)).1.pending_packets_ =
          map_keys s.1.pending_packets_ ++ [seq] := by
        rw [hpend]; simp [map_keys]
      apply ih
      · unfold map_sorted
        rw [hkeys, List.pairwise_append]
        refine ⟨hsorted, List.pairwise_singleton _ _, ?_⟩
        intro a ha b hb
        rw [List.mem_singleton] at hb
        rw [hb]
        exact hseq.1 a ha
      · exact hnd
      · intro k hk
        rw [hkeys, List.mem_append, List.mem_singleton]
        rintro (h | h)
        · exact hdisj k hk h
        · have := hseq.2 k hk
          omega
      · exact hpw.2
      · intro x hx
        have hx' := hfut x (by simp only [added_seqs, List.mem_cons]; exact Or.inr hx)
        refine ⟨?_, hx'.2⟩
        intro k hk
        rw [hkeys, List.mem_append, List.mem_singleton] at hk
        rcases hk with h | h
        · exact hx'.1 k h
        · rw [h]; exact hpw.1 x hx
    | process_ack clock ack_seq missing_seqs =>
      simp only [added_seqs] at hpw hfut
      have hkeys := process_ack_keys s.1 clock ack_seq missing_seqs
      have hseqs := process_ack_call_seqs s.1 clock ack_seq missing_seqs
      have hsub_keys : ∀ k ∈ (s.1.pending_packets_.filter
          (fun e => decide (ack_seq < e.1))).map Prod.fst,
          k ∈ map_keys s.1.pending_packets_ ∧ ack_seq < k := by
        intro k hk
        obtain ⟨e, he, rfl⟩ := List.mem_map.mp hk
        have := List.mem_filter.mp he
        exact ⟨List.mem_map.mpr ⟨e, this.1, rfl⟩, by simpa using this.2⟩
      have hsub_new : ∀ k ∈ (ack_calls (s.1.process_ack clock ack_seq missing_seqs).2).map
          (fun c => c.1), k ∈ map_keys s.1.pending_packets_ ∧ k ≤ ack_seq := by
        intro k hk
        rw [hseqs] at hk
        split at hk
        · obtain ⟨e, he, rfl⟩ := List.mem_map.mp hk
          have := List.mem_filter.mp he
          exact ⟨List.mem_map.mpr ⟨e, this.1, rfl⟩, by simpa using this.2⟩
        · cases hk
      have hnew_nodup : ((ack_calls (s.1.process_ack clock ack_seq missing_seqs).2).map
          (fun c => c.1)).Nodup := by
        rw [hseqs]
        split
        · have hsub : ((s.1.pending_packets_.filter
              (fun e => decide (e.1 ≤ ack_seq))).map Prod.fst).Sublist
              (map_keys s.1.pending_packets_) :=
            List.Sublist.map _ (List.filter_sublist _)
          exact (List.Pairwise.sublist hsub hsorted).imp (fun h => Nat.ne_of_lt h)
        · exact List.nodup_nil
      apply ih
      · unfold map_sorted
        show (map_keys (s.1.process_ack clock ack_seq missing_seqs).1.pending_packets_).Pairwise _
        rw [hkeys]
        exact List.Pairwise.sublist (List.Sublist.map _ (List.filter_sublist _)) hsorted
      · show ((ack_calls (s.2 ++ (s.1.process_ack clock ack_seq missing_seqs).2)).map
          (fun c => c.1)).Nodup
        rw [ack_calls_append, List.map_append, List.nodup_append]
        refine ⟨hnd, hnew_nodup, ?_⟩
        intro k hk hk2
        exact hdisj k hk (hsub_new k hk2).1
      · intro k hk
        show k ∉ map_keys (s.1.process_ack clock ack_seq missing_seqs).1.pending_packets_
        have hk' : k ∈ (ack_calls (s.2 ++ (s.1.process_ack clock ack_seq missing_seqs).2)).map
            (fun c => c.1) := hk
        rw [ack_calls_append, List.map_append, List.mem_append] at hk'
        rw [hkeys]
        intro hmem
        have hm := hsub_keys k hmem
        rcases hk' with h | h
        · exact hdisj k h hm.1
        · have := (hsub_new k h).2
          omega
      · exact hpw
      · intro x hx
        have hx' := hfut x hx
        constructor
        · intro k hk
          have hk' : k ∈ map_keys (s.1.process_ack clock ack_seq missing_seqs).1.pending_packets_ :=
            hk
          rw [hkeys] at hk'
          exact hx'.1 k (hsub_keys k hk').1
        · intro k hk
          have hk' : k ∈ (ack_calls (s.2 ++ (s.1.process_ack clock ack_seq missing_seqs).2)).map
              (fun c => c.1) := hk
          rw [ack_calls_append, List.map_append, List.mem_append] at hk'
          rcases hk' with h | h
          · exact hx'.2 k h
          · exact hx'.1 k (hsub_new k h).1

/-- C11. At-most-once ACK event: on a fresh manager, for every finite sequence of
`add_pending_packet` and `process_ack` calls in which the sequence numbers passed to
`add_pending_packet` are strictly increasing, the ack callback is invoked at most once
for each sequence number `k` over the whole execution. -/
theorem ack_callback_at_most_once (retransmit_cb ack_cb : Bool) (calls : List ManagerCall)
    (hinc : (added_seqs calls).Pairwise (fun a b => a < b)) (k : Nat) :
    ((ack_calls ((ReliabilityManager.new retransmit_cb ack_cb).run calls).2).map
      (fun c => c.1)).count k ≤ 1 := by
  have hnd := run_ack_seqs_nodup calls (ReliabilityManager.new retransmit_cb ack_cb, [])
    (by simp [map_sorted, map_keys, ReliabilityManager.new])
    (by simp [ack_calls])
    (by intro k hk; simp [ack_calls] at hk)
    hinc
    (by
      intro x _
      constructor
      · intro k hk; simp [map_keys, ReliabilityManager.new] at hk
      · intro k hk; simp [ack_calls] at hk)
  exact List.nodup_iff_count_le_one.mp hnd k

theorem ack_callback_at_most_once_witness :
    ((ack_calls ((ReliabilityManager.new true true).run
        [ManagerCall.add_pending_packet 1 101, ManagerCall.add_pending_packet 2 102,
         ManagerCall.process_ack (fun n => 500 + n) 1 [2],
         ManagerCall.add_pending_packet 3 103,
         ManagerCall.process_ack (fun n => 600 + n) 1 [],
         ManagerCall.process_ack (fun n => 700 + n) 3 []]).2).map
      (fun c => c.1)).count 1 ≤ 1 :=
  ack_callback_at_most_once true true _ (by simp [added_seqs]) 1

/-! ### The receiver watermark -/

theorem map_find_isSome_mem_keys {V : Type} (m : List (Nat × V)) (k : Nat)
    (h : (map_find m k).isSome = true) : k ∈ map_keys m := by
  obtain ⟨v, hv⟩ := Option.isSome_iff_exists.mp h
  exact List.mem_map.mpr ⟨(k, v), map_find_some_mem m k v hv, rfl⟩

theorem map_find_none_of_not_mem_keys {V : Type} (m : List (Nat × V)) (k : Nat)
    (h : k ∉ map_keys m) : map_find m k = none := by
  cases hf : map_find m k with
  | none => rfl
  | some v => exact absurd (map_find_isSome_mem_keys m k (by rw [hf]; rfl)) h

theorem map_find_cons {V : Type} (m : List (Nat × V)) (seq : Nat) (v : V) (k : Nat) :
    map_find ((seq, v) :: m) k = if seq = k then some v else map_find m k := rfl

/-- When the watermark loop ends, the slot after the returned watermark is empty. -/
theorem advance_contiguous_exit (received : List (Nat × Nat)) :
    ∀ (fuel h r : Nat), advance_contiguous received fuel h = some r →
      (map_find received ((r + 1) % U64)).isSome = false := by
  intro fuel
  induction fuel with
  | zero => intro h r hr; simp [advance_contiguous] at hr
  | succ fuel ih =>
    intro h r hr
    simp only [advance_contiguous] at hr
    by_cases hs : (map_find received ((h + 1) % U64)).isSome = true
    · rw [if_pos hs] at hr
      exact ih _ r hr
    · rw [if_neg hs, Option.some.injEq] at hr
      rw [← hr]
      simpa using hs

/-- The watermark loop keeps "every sequence from 1 to the watermark is received"
and keeps the watermark a 64-bit value. -/
theorem advance_contiguous_prefix (received : List (Nat × Nat)) :
    ∀ (fuel h r : Nat), advance_contiguous received fuel h = some r → h < 2 ^ 64 →
      (∀ k, 1 ≤ k → k ≤ h → (map_find received k).isSome = true) →
      r < 2 ^ 64 ∧ ∀ k, 1 ≤ k → k ≤ r → (map_find received k).isSome = true := by
  intro fuel
  induction fuel with
  | zero => intro h r hr; simp [advance_contiguous] at hr
  | succ fuel ih =>
    intro h r hr hh hpre
    simp only [advance_contiguous] at hr
    by_cases hs : (map_find received ((h + 1) % U64)).isSome = true
    · rw [if_pos hs] at hr
      apply ih _ r hr (by unfold U64; omega)
      intro k hk1 hk2
      by_cases hw : h + 1 < 2 ^ 64
      · have hmod : (h + 1) % U64 = h + 1 := Nat.mod_eq_of_lt (by unfold U64; omega)
        rw [hmod] at hk2 hs
        by_cases hk : k = h + 1
        · rw [hk]; exact hs
        · exact hpre k hk1 (by omega)
      · have hmod : (h + 1) % U64 = 0 := by unfold U64; omega
        rw [hmod] at hk2
        omega
    · rw [if_neg hs, Option.some.injEq] at hr
      rw [← hr]
      exact ⟨hh, hpre⟩

/-- Without sequence `2^64 - 1` in the received set the watermark loop cannot wrap:
the watermark does not decrease and stays below `2^64 - 1`. -/
theorem advance_contiguous_mono (received : List (Nat × Nat))
    (hmax : map_find received (2 ^ 64 - 1) = none) :
    ∀ (fuel h r : Nat), advance_contiguous received fuel h = some r → h < 2 ^ 64 - 1 →
      h ≤ r ∧ r < 2 ^ 64 - 1 := by
  intro fuel
  induction fuel with
  | zero => intro h r hr; simp [advance_contiguous] at hr
  | succ fuel ih =>
    intro h r hr hh
    simp only [advance_contiguous] at hr
    have hmod : (h + 1) % U64 = h + 1 := Nat.mod_eq_of_lt (by unfold U64; omega)
    by_cases hs : (map_find received ((h + 1) % U64)).isSome = true
    · rw [if_pos hs] at hr
      rw [hmod] at hr hs
      have hne : h + 1 ≠ 2 ^ 64 - 1 := by
        intro he
        rw [he, hmax] at hs
        exact absurd hs (by simp)
      have := ih _ r hr (by omega)
      omega
    · rw [if_neg hs, Option.some.injEq] at hr
      omega

/-- If the watermark loop is still running after `fuel` iterations, each of the `fuel`
slots it has looked at holds a received sequence. -/
theorem advance_contiguous_none (received : List (Nat × Nat)) :
    ∀ (fuel h : Nat), advance_contiguous received fuel h = none →
      ∀ j, j < fuel → (map_find received ((h + 1 + j) % U64)).isSome = true := by
  intro fuel
  induction fuel with
  | zero => intro h _ j hj; omega
  | succ fuel ih =>
    intro h hnone j hj
    simp only [advance_contiguous] at hnone
    by_cases hs : (map_find received ((h + 1) % U64)).isSome = true
    · rw [if_pos hs] at hnone
      cases j with
      | zero => simpa using hs
      | succ j =>
        have := ih _ hnone j (by omega)
        have he : ((h + 1) % U64 + 1 + j) % U64 = (h + 1 + (j + 1)) % U64 := by
          unfold U64; omega
        rw [he] at this
        exact this
    · rw [if_neg hs] at hnone
      exact Option.noConfusion hnone

/-- The watermark loop ends within `received.length + 1` iterations when the received
set holds fewer than `2^64` entries. -/
theorem advance_contiguous_returns (received : List (Nat × Nat)) (fuel h : Nat)
    (hlen : received.length < 2 ^ 64) (hfuel : received.length < fuel) :
    ∃ r, advance_contiguous received fuel h = some r := by
  cases hadv : advance_contiguous received fuel h with
  | some r => exact ⟨r, rfl⟩
  | none =>
    exfalso
    have hvis := advance_contiguous_none received fuel h hadv
    have hnd : ((List.range (received.length + 1)).map
        (fun j => (h + 1 + j) % U64)).Nodup := by
      apply List.Nodup.map_on _ (List.nodup_range _)
      intro i hi j hj hij
      have hi' := List.mem_range.mp hi
      have hj' := List.mem_range.mp hj
      simp only [U64] at hij
      omega
    have hsub : (List.range (received.length + 1)).map (fun j => (h + 1 + j) % U64) ⊆
        map_keys received := by
      intro x hx
      obtain ⟨j, hj, rfl⟩ := List.mem_map.mp hx
      exact map_find_isSome_mem_keys _ _ (hvis j (by have := List.mem_range.mp hj; omega))
    have hle := (List.subperm_of_subset hnd hsub).length_le
    simp [map_keys] at hle

theorem add_received_packet_dup (a : AckManager) (fuel seq recv_time : Nat)
    (h : (map_find a.received_packets_ seq).isSome = true) :
    a.add_received_packet fuel seq recv_time = some (a, false) := by
  simp [AckManager.add_received_packet, h]

theorem add_received_packet_new (a : AckManager) (fuel seq recv_time : Nat)
    (h : (map_find a.received_packets_ seq).isSome = false) :
    a.add_received_packet fuel seq recv_time =
      (advance_contiguous ((seq, recv_time) :: a.received_packets_) fuel
        a.highest_contiguous_).map
        (fun w => ({ a with
                     received_packets_ := (seq, recv_time) :: a.received_packets_
                     packets_since_ack_ := (a.packets_since_ack_ + 1) % U64
                     highest_contiguous_ := w }, true)) := by
  simp only [AckManager.add_received_packet, h, Bool.false_eq_true, if_false]
  cases advance_contiguous ((seq, recv_time) :: a.received_packets_) fuel
    a.highest_contiguous_ <;> rfl

/-- The invariant of a receiver that started fresh: the watermark and the received
sequences are 64-bit values, every sequence from 1 to the watermark is received, and
the slot after the watermark is empty. -/
theorem add_received_packet_inv (a : AckManager) (fuel seq recv_time : Nat)
    (r : AckManager × Bool) (hr : a.add_received_packet fuel seq recv_time = some r)
    (hseq : seq < 2 ^ 64) (hH : a.highest_contiguous_ < 2 ^ 64)
    (hkeys : ∀ k ∈ map_keys a.received_packets_, k < 2 ^ 64)
    (hpre : ∀ k, 1 ≤ k → k ≤ a.highest_contiguous_ →
      (map_find a.received_packets_ k).isSome = true)
    (hnext : (map_find a.received_packets_ ((a.highest_contiguous_ + 1) % U64)).isSome =
      false) :
    r.1.highest_contiguous_ < 2 ^ 64 ∧
    (∀ k ∈ map_keys r.1.received_packets_, k < 2 ^ 64) ∧
    (∀ k, 1 ≤ k → k ≤ r.1.highest_contiguous_ →
      (map_find r.1.received_packets_ k).isSome = true) ∧
    (map_find r.1.received_packets_ ((r.1.highest_contiguous_ + 1) % U64)).isSome = false := by
  by_cases hdup : (map_find a.received_packets_ seq).isSome = true
  · rw [add_received_packet_dup a fuel seq recv_time hdup, Option.some.injEq] at hr
    rw [← hr]
    exact ⟨hH, hkeys, hpre, hnext⟩
  · have hnew : (map_find a.received_packets_ seq).isSome = false := by simpa using hdup
    rw [add_received_packet_new a fuel seq recv_time hnew] at hr
    cases hadv : advance_contiguous ((seq, recv_time) :: a.received_packets_) fuel
        a.highest_contiguous_ with
    | none => rw [hadv] at hr; exact Option.noConfusion hr
    | some w =>
      rw [hadv, Option.map_some', Option.some.injEq] at hr
      rw [← hr]
      simp only
      have hpre2 : ∀ k, 1 ≤ k → k ≤ a.highest_contiguous_ →
          (map_find ((seq, recv_time) :: a.received_packets_) k).isSome = true := by
        intro k hk1 hk2
        rw [map_find_cons]
        split
        · rfl
        · exact hpre k hk1 hk2
      obtain ⟨hw, hprew⟩ := advance_contiguous_prefix _ fuel _ w hadv hH hpre2
      refine ⟨hw, ?_, hprew, advance_contiguous_exit _ fuel _ w hadv⟩
      intro k hk
      simp only [map_keys, List.map_cons, List.mem_cons] at hk
      rcases hk with rfl | hk
      · exact hseq
      · exact hkeys k hk

theorem add_received_packet_length (a : AckManager) (fuel seq recv_time : Nat)
    (r : AckManager × Bool) (hr : a.add_received_packet fuel seq recv_time = some r) :
    r.1.received_packets_.length ≤ a.received_packets_.length + 1 := by
  by_cases hdup : (map_find a.received_packets_ seq).isSome = true
  · rw [add_received_packet_dup a fuel seq recv_time hdup, Option.some.injEq] at hr
    rw [← hr]
    exact Nat.le_succ _
  · have hnew : (map_find a.received_packets_ seq).isSome = false := by simpa using hdup
    rw [add_received_packet_new a fuel seq recv_time hnew] at hr
    cases hadv : advance_contiguous ((seq, recv_time) :: a.received_packets_) fuel
        a.highest_contiguous_ with
    | none => rw [hadv] at hr; exact Option.noConfusion hr
    | some w =>
      rw [hadv, Option.map_some', Option.some.injEq] at hr
      rw [← hr]
      simp

theorem add_received_packet_returns (a : AckManager) (fuel seq recv_time : Nat)
    (hlen : a.received_packets_.length + 1 < 2 ^ 64)
    (hfuel : a.received_packets_.length + 1 < fuel) :
    ∃ r, a.add_received_packet fuel seq recv_time = some r := by
  by_cases hdup : (map_find a.received_packets_ seq).isSome = true
  · exact ⟨_, add_received_packet_dup a fuel seq recv_time hdup⟩
  · have hnew : (map_find a.received_packets_ seq).isSome = false := by simpa using hdup
    obtain ⟨w, hw⟩ := advance_contiguous_returns ((seq, recv_time) :: a.received_packets_)
      fuel a.highest_contiguous_ (by simpa using hlen) (by simpa using hfuel)
    rw [add_received_packet_new a fuel seq recv_time hnew, hw]
    exact ⟨_, rfl⟩

theorem add_received_packets_inv (calls : List (Nat × Nat)) (fuel : Nat) :
    ∀ (a r : AckManager), a.add_received_packets fuel calls = some r →
      (∀ c ∈ calls, c.1 < 2 ^ 64) → a.highest_contiguous_ < 2 ^ 64 →
      (∀ k ∈ map_keys a.received_packets_, k < 2 ^ 64) →
      (∀ k, 1 ≤ k → k ≤ a.highest_contiguous_ →
        (map_find a.received_packets_ k).isSome = true) →
      (map_find a.received_packets_ ((a.highest_contiguous_ + 1) % U64)).isSome = false →
      r.highest_contiguous_ < 2 ^ 64 ∧
      (∀ k ∈ map_keys r.received_packets_, k < 2 ^ 64) ∧
      (∀ k, 1 ≤ k → k ≤ r.highest_contiguous_ →
        (map_find r.received_packets_ k).isSome = true) ∧
      (map_find r.received_packets_ ((r.highest_contiguous_ + 1) % U64)).isSome = false := by
  induction calls with
  | nil =>
    intro a r hr _ hH hkeys hpre hnext
    simp only [AckManager.add_received_packets, Option.some.injEq] at hr
    rw [← hr]
    exact ⟨hH, hkeys, hpre, hnext⟩
  | cons c rest ih =>
    intro a r hr hcalls hH hkeys hpre hnext
    obtain ⟨seq, recv_time⟩ := c
    simp only [AckManager.add_received_packets] at hr
    cases hstep : a.add_received_packet fuel seq recv_time with
    | none => rw [hstep] at hr; exact Option.noConfusion hr
    | some r1 =>
      rw [hstep] at hr
      obtain ⟨h1, h2, h3, h4⟩ := add_received_packet_inv a fuel seq recv_time r1 hstep
        (hcalls (seq, recv_time) (List.mem_cons_self _ _)) hH hkeys hpre hnext
      exact ih r1.1 r hr (fun c hc => hcalls c (List.mem_cons_of_mem _ hc)) h1 h2 h3 h4

theorem add_received_packets_returns (calls : List (Nat × Nat)) (fuel : Nat) :
    ∀ a : AckManager, a.received_packets_.length + calls.length < 2 ^ 64 →
      a.received_packets_.length + calls.length < fuel →
      ∃ r, a.add_received_packets fuel calls = some r := by
  induction calls with
  | nil => intro a _ _; exact ⟨a, rfl⟩
  | cons c rest ih =>
    intro a hlen hfuel
    obtain ⟨seq, recv_time⟩ := c
    simp only [List.length_cons] at hlen hfuel
    obtain ⟨r1, hr1⟩ := add_received_packet_returns a fuel seq recv_time (by omega) (by omega)
    have hl := add_received_packet_length a fuel seq recv_time r1 hr1
    obtain ⟨r, hr⟩ := ih r1.1 (by omega) (by omega)
    refine ⟨r, ?_⟩
    simp only [AckManager.add_received_packets, hr1]
    exact hr

/-- C12. Contiguous watermark: starting from a fresh `AckManager`, after any finite
sequence of `add_received_packet` calls (with 64-bit sequence numbers) every `k` with
`1 ≤ k ≤ H` is in the received set and `H + 1` is not. The calls do return: fewer than
`2^64` calls all end when the watermark loop is given more iterations than there are
calls. -/
theorem watermark_contiguous (window_size ack_period : Int) (fuel : Nat)
    (calls : List (Nat × Nat)) (hcalls : ∀ c ∈ calls, c.1 < 2 ^ 64) :
    (∀ a, (AckManager.new window_size ack_period).add_received_packets fuel calls = some a →
      (∀ k, 1 ≤ k → k ≤ a.highest_contiguous_ → a.is_duplicate k = true) ∧
      a.is_duplicate (a.highest_contiguous_ + 1) = false) ∧
    (calls.length < 2 ^ 64 → calls.length < fuel →
      ∃ a, (AckManager.new window_size ack_period).add_received_packets fuel calls =
        some a) := by
  constructor
  · intro a ha
    obtain ⟨h1, h2, h3, h4⟩ := add_received_packets_inv calls fuel
      (AckManager.new window_size ack_period) a ha hcalls
      (by simp [AckManager.new]) (by simp [AckManager.new, map_keys])
      (by intro k hk1 hk2; simp only [AckManager.new] at hk2; omega)
      (by simp [AckManager.new, map_find])
    refine ⟨h3, ?_⟩
    unfold AckManager.is_duplicate
    by_cases hw : a.highest_contiguous_ + 1 < 2 ^ 64
    · have hmod : (a.highest_contiguous_ + 1) % U64 = a.highest_contiguous_ + 1 :=
        Nat.mod_eq_of_lt (by unfold U64; omega)
      rw [hmod] at h4
      exact h4
    · rw [map_find_none_of_not_mem_keys _ _ (fun hmem => hw (h2 _ hmem))]
      rfl
  · intro hlen hfuel
    exact add_received_packets_returns calls fuel _ (by simpa [AckManager.new] using hlen)
      (by simpa [AckManager.new] using hfuel)

theorem watermark_contiguous_witness :
    (AckManager.new 256 1).add_received_packets 8 [(2, 10), (1, 11), (5, 12), (3, 13)] =
        some ⟨[(3, 13), (5, 12), (1, 11), (2, 10)], 3, 256, 1, 4⟩ ∧
    ((∀ k, 1 ≤ k → k ≤ 3 →
        (AckManager.mk [(3, 13), (5, 12), (1, 11), (2, 10)] 3 256 1 4).is_duplicate k = true) ∧
      (AckManager.mk [(3, 13), (5, 12), (1, 11), (2, 10)] 3 256 1 4).is_duplicate (3 + 1) =
        false) :=
  ⟨by decide,
    (watermark_contiguous 256 1 8 [(2, 10), (1, 11), (5, 12), (3, 13)] (by decide)).1
      ⟨[(3, 13), (5, 12), (1, 11), (2, 10)], 3, 256, 1, 4⟩ (by decide)⟩

/-- The watermark loop does not pass a slot `s0` above the watermark whose sequence
(`s0` itself, or `0` for `s0 = 2^64`) is not received: the watermark does not decrease. -/
theorem advance_contiguous_below (received : List (Nat × Nat)) (s0 : Nat)
    (hs0 : s0 ≤ 2 ^ 64) (habs : (map_find received (s0 % U64)).isSome = false) :
    ∀ (fuel h r : Nat), advance_contiguous received fuel h = some r → h < s0 →
      h ≤ r ∧ r < s0 := by
  intro fuel
  induction fuel with
  | zero => intro h r hr; simp [advance_contiguous] at hr
  | succ fuel ih =>
    intro h r hr hh
    simp only [advance_contiguous] at hr
    by_cases hs : (map_find received ((h + 1) % U64)).isSome = true
    · rw [if_pos hs] at hr
      have hne : h + 1 ≠ s0 := by
        intro he
        rw [he, habs] at hs
        exact absurd hs (by simp)
      have hmod : (h + 1) % U64 = h + 1 := Nat.mod_eq_of_lt (by unfold U64; omega)
      rw [hmod] at hr
      have := ih _ r hr (by omega)
      omega
    · rw [if_neg hs, Option.some.injEq] at hr
      omega

theorem add_received_packet_mono_step (a : AckManager) (fuel seq recv_time s0 : Nat)
    (r : AckManager × Bool) (hr : a.add_received_packet fuel seq recv_time = some r)
    (h1 : a.highest_contiguous_ < s0) (h2 : s0 ≤ 2 ^ 64) (h3 : s0 % U64 ≠ seq)
    (h4 : (map_find a.received_packets_ (s0 % U64)).isSome = false) :
    a.highest_contiguous_ ≤ r.1.highest_contiguous_ ∧ r.1.highest_contiguous_ < s0 ∧
    (map_find r.1.received_packets_ (s0 % U64)).isSome = false := by
  by_cases hdup : (map_find a.received_packets_ seq).isSome = true
  · rw [add_received_packet_dup a fuel seq recv_time hdup, Option.some.injEq] at hr
    rw [← hr]
    exact ⟨Nat.le_refl _, h1, h4⟩
  · have hnew : (map_find a.received_packets_ seq).isSome = false := by simpa using hdup
    rw [add_received_packet_new a fuel seq recv_time hnew] at hr
    cases hadv : advance_contiguous ((seq, recv_time) :: a.received_packets_) fuel
        a.highest_contiguous_ with
    | none => rw [hadv] at hr; exact Option.noConfusion hr
    | some w =>
      rw [hadv, Option.map_some', Option.some.injEq] at hr
      rw [← hr]
      simp only
      have habs : (map_find ((seq, recv_time) :: a.received_packets_) (s0 % U64)).isSome =
          false := by
        rw [map_find_cons, if_neg (fun e => h3 e.symm)]
        exact h4
      obtain ⟨hle, hlt⟩ := advance_contiguous_below _ s0 h2 habs fuel _ w hadv h1
      exact ⟨hle, hlt, habs⟩

theorem add_received_packets_mono (calls : List (Nat × Nat)) (fuel : Nat) :
    ∀ (a r : AckManager), a.add_received_packets fuel calls = some r →
      (∀ c ∈ calls, c.1 ≠ 2 ^ 64 - 1) → a.highest_contiguous_ < 2 ^ 64 - 1 →
      (map_find a.received_packets_ (2 ^ 64 - 1)).isSome = false →
      a.highest_contiguous_ ≤ r.highest_contiguous_ ∧ r.highest_contiguous_ < 2 ^ 64 - 1 ∧
      (map_find r.received_packets_ (2 ^ 64 - 1)).isSome = false := by
  induction calls with
  | nil =>
    intro a r hr _ hH hmax
    simp only [AckManager.add_received_packets, Option.some.injEq] at hr
    rw [← hr]
    exact ⟨Nat.le_refl _, hH, hmax⟩
  | cons c rest ih =>
    intro a r hr hcalls hH hmax
    obtain ⟨seq, recv_time⟩ := c
    simp only [AckManager.add_received_packets] at hr
    cases hstep : a.add_received_packet fuel seq recv_time with
    | none => rw [hstep] at hr; exact Option.noConfusion hr
    | some r1 =>
      rw [hstep] at hr
      have hmod : (2 ^ 64 - 1) % U64 = 2 ^ 64 - 1 := by unfold U64; omega
      obtain ⟨g1, g2, g3⟩ := add_received_packet_mono_step a fuel seq recv_time (2 ^ 64 - 1)
        r1 hstep hH (by omega)
        (by rw [hmod]; exact fun e => hcalls (seq, recv_time) (List.mem_cons_self _ _) e.symm)
        (by rw [hmod]; exact hmax)
      rw [hmod] at g3
      obtain ⟨k1, k2, k3⟩ := ih r1.1 r hr (fun c hc => hcalls c (List.mem_cons_of_mem _ hc))
        g2 g3
      exact ⟨Nat.le_trans g1 k1, k2, k3⟩

theorem add_received_packets_append (calls1 calls2 : List (Nat × Nat)) (fuel : Nat) :
    ∀ a : AckManager, a.add_received_packets fuel (calls1 ++ calls2) =
      (a.add_received_packets fuel calls1).bind
        (fun r => r.add_received_packets fuel calls2) := by
  induction calls1 with
  | nil => intro a; rfl
  | cons c rest ih =>
    intro a
    obtain ⟨seq, recv_time⟩ := c
    simp only [List.cons_append, AckManager.add_received_packets]
    cases a.add_received_packet fuel seq recv_time with
    | none => rfl
    | some r1 => exact ih r1.1

/-- Counterexample to C13 as stated: in the state with watermark `2^64 - 1` (whose
received set still holds `2^64 - 1`), `add_received_packet(0, t)` makes the loop step
from `2^64 - 1` to its 64-bit successor `0`, and the watermark drops to `0`. -/
theorem watermark_wrap_counterexample :
    (AckManager.mk [(2 ^ 64 - 1, 5)] (2 ^ 64 - 1) 256 1 0).add_received_packet 3 0 7 =
      some (⟨[(0, 7), (2 ^ 64 - 1, 5)], 0, 256, 1, 1⟩, true) ∧
    ¬ ((AckManager.mk [(2 ^ 64 - 1, 5)] (2 ^ 64 - 1) 256 1 0).highest_contiguous_ ≤
      (AckManager.mk [(0, 7), (2 ^ 64 - 1, 5)] 0 256 1 1).highest_contiguous_) := by
  decide!

/-- C13. Monotone watermark, amended: when some slot `s0` above the watermark stays
empty (a sequence `s0` with `H < s0 ≤ 2^64 - 1`, or `s0 = 2^64` standing for sequence
`0`, that is neither `seq` nor in the received set), `add_received_packet(seq, t)` leaves
a watermark `≥` the one before; the call returns when the received set has fewer than
`2^64 - 1` entries; hence, from a state with `H < 2^64 - 1` that has not received
`2^64 - 1`, the watermark is non-decreasing across any sequence of calls that never
delivers `2^64 - 1`. -/
theorem watermark_monotone (a : AckManager) (seq recv_time s0 : Nat)
    (h1 : a.highest_contiguous_ < s0) (h2 : s0 ≤ 2 ^ 64) (h3 : s0 % 2 ^ 64 ≠ seq)
    (h4 : a.is_duplicate (s0 % 2 ^ 64) = false) :
    (∀ fuel r, a.add_received_packet fuel seq recv_time = some r →
      a.highest_contiguous_ ≤ r.1.highest_contiguous_) ∧
    (a.received_packets_.length + 1 < 2 ^ 64 → ∀ fuel, a.received_packets_.length + 1 < fuel →
      ∃ r, a.add_received_packet fuel seq recv_time = some r) ∧
    (a.highest_contiguous_ < 2 ^ 64 - 1 → a.is_duplicate (2 ^ 64 - 1) = false →
      ∀ (calls1 calls2 : List (Nat × Nat)) (fuel : Nat) (r1 r2 : AckManager),
        (∀ c ∈ calls1 ++ calls2, c.1 ≠ 2 ^ 64 - 1) →
        a.add_received_packets fuel calls1 = some r1 →
        a.add_received_packets fuel (calls1 ++ calls2) = some r2 →
        a.highest_contiguous_ ≤ r1.highest_contiguous_ ∧
        r1.highest_contiguous_ ≤ r2.highest_contiguous_) := by
  refine ⟨?_, ?_, ?_⟩
  · intro fuel r hr
    exact (add_received_packet_mono_step a fuel seq recv_time s0 r hr h1 h2 h3 h4).1
  · intro hlen fuel hfuel
    exact add_received_packet_returns a fuel seq recv_time hlen hfuel
  · intro hH hmax calls1 calls2 fuel r1 r2 hcalls hr1 hr2
    have hc1 : ∀ c ∈ calls1, c.1 ≠ 2 ^ 64 - 1 :=
      fun c hc => hcalls c (List.mem_append_left _ hc)
    have hc2 : ∀ c ∈ calls2, c.1 ≠ 2 ^ 64 - 1 :=
      fun c hc => hcalls c (List.mem_append_right _ hc)
    obtain ⟨g1, g2, g3⟩ := add_received_packets_mono calls1 fuel a r1 hr1 hc1 hH hmax
    rw [add_received_packets_append, hr1] at hr2
    exact ⟨g1, (add_received_packets_mono calls2 fuel r1 r2 hr2 hc2 g2 g3).1⟩

theorem watermark_monotone_witness :
    (AckManager.mk [(3, 13), (1, 11)] 1 256 1 2).add_received_packet 4 2 12 =
        some (⟨[(2, 12), (3, 13), (1, 11)], 3, 256, 1, 3⟩, true) ∧
    (AckManager.mk [(3, 13), (1, 11)] 1 256 1 2).highest_contiguous_ ≤
      (AckManager.mk [(2, 12), (3, 13), (1, 11)] 3 256 1 3).highest_contiguous_ :=
  ⟨by decide,
    (watermark_monotone (AckManager.mk [(3, 13), (1, 11)] 1 256 1 2) 2 12 4
      (by decide) (by norm_num) (by norm_num) (by decide!)).1 4
      (⟨[(2, 12), (3, 13), (1, 11)], 3, 256, 1, 3⟩, true) (by decide)⟩

/-- Counterexample to C14 as stated: on `AckManager(256, -1)`, `force_ack()` stores
`ack_period_ = -1` into the 64-bit counter, which becomes `2^64 - 1`; the next new
sequence is reported as new but `packets_since_ack_++` wraps the counter to `0` instead
of growing it by 1. -/
theorem packets_since_ack_wrap_counterexample :
    ((AckManager.new 256 (-1)).force_ack).packets_since_ack_ = 2 ^ 64 - 1 ∧
    ((AckManager.new 256 (-1)).force_ack).add_received_packet 2 7 100 =
      some (⟨[(7, 100)], 0, 256, -1, 0⟩, true) ∧
    ¬ ((AckManager.mk [(7, 100)] 0 256 (-1) 0).packets_since_ack_ =
      ((AckManager.new 256 (-1)).force_ack).packets_since_ack_ + 1) := by
  decide!

/-- C14. Receiver dedup, amended: `add_received_packet(seq, t)` returns `false` and
changes nothing when `seq` is already in the received set; otherwise it returns `true`
(it does return when the received set has fewer than `2^64 - 1` entries), the received
count grows by exactly 1 and `packets_since_ack` becomes `(old + 1) mod 2^64`, that is
it grows by exactly 1 unless it was `2^64 - 1`; a second delivery of the same `seq`
returns `false` and changes nothing. Scenario C: `seq = 7` delivered twice to a fresh
receiver returns `true` then `false` and the received count goes from 0 to 1. -/
theorem add_received_packet_dedup (a : AckManager) (seq recv_time : Nat) :
    ((a.is_duplicate seq = true →
        ∀ fuel, a.add_received_packet fuel seq recv_time = some (a, false)) ∧
      (a.is_duplicate seq = false →
        (∀ fuel r, a.add_received_packet fuel seq recv_time = some r →
          r.2 = true ∧
          r.1.get_received_count = a.get_received_count + 1 ∧
          r.1.packets_since_ack_ = (a.packets_since_ack_ + 1) % 2 ^ 64 ∧
          (a.packets_since_ack_ < 2 ^ 64 - 1 →
            r.1.packets_since_ack_ = a.packets_since_ack_ + 1) ∧
          ∀ fuel2 recv_time2,
            r.1.add_received_packet fuel2 seq recv_time2 = some (r.1, false)) ∧
        (a.get_received_count + 1 < 2 ^ 64 → ∀ fuel, a.get_received_count + 1 < fuel →
          ∃ r, a.add_received_packet fuel seq recv_time = some r))) ∧
    ((AckManager.new DEFAULT_WINDOW_SIZE DEFAULT_ACK_PERIOD).add_received_packet 2 7 100 =
        some (⟨[(7, 100)], 0, 256, 1, 1⟩, true) ∧
      (AckManager.mk [(7, 100)] 0 256 1 1).add_received_packet 2 7 200 =
        some (⟨[(7, 100)], 0, 256, 1, 1⟩, false) ∧
      (AckManager.new DEFAULT_WINDOW_SIZE DEFAULT_ACK_PERIOD).get_received_count = 0 ∧
      (AckManager.mk [(7, 100)] 0 256 1 1).get_received_count = 1) := by
  refine ⟨⟨?_, ?_⟩, by decide!⟩
  · intro hdup fuel
    exact add_received_packet_dup a fuel seq recv_time hdup
  · intro hnew
    refine ⟨?_, ?_⟩
    · intro fuel r hr
      rw [add_received_packet_new a fuel seq recv_time hnew] at hr
      cases hadv : advance_contiguous ((seq, recv_time) :: a.received_packets_) fuel
          a.highest_contiguous_ with
      | none => rw [hadv] at hr; exact Option.noConfusion hr
      | some w =>
        rw [hadv, Option.map_some', Option.some.injEq] at hr
        rw [← hr]
        refine ⟨rfl, by simp [AckManager.get_received_count], rfl, ?_, ?_⟩
        · intro hlt
          exact Nat.mod_eq_of_lt (by unfold U64; omega)
        · intro fuel2 recv_time2
          exact add_received_packet_dup _ fuel2 seq recv_time2 (by simp [map_find])
    · intro hlen fuel hfuel
      exact add_received_packet_returns a fuel seq recv_time hlen hfuel

/-! ### Congestion controller -/

theorem call_bounds (c : CongestionController) (k : ControllerCall)
    (hmax : c.max_cwnd_ < 2 ^ 63) (hlo : c.min_cwnd_ ≤ c.cwnd_) (hhi : c.cwnd_ ≤ c.max_cwnd_) :
    (c.call k).min_cwnd_ = c.min_cwnd_ ∧ (c.call k).max_cwnd_ = c.max_cwnd_ ∧
    (c.call k).min_cwnd_ ≤ (c.call k).cwnd_ ∧ (c.call k).cwnd_ ≤ (c.call k).max_cwnd_ := by
  cases k with
  | packet_sent => exact ⟨rfl, rfl, hlo, hhi⟩
  | packet_acked =>
    by_cases h : c.inflight_ > 0 <;>
      simp [CongestionController.call, CongestionController.packet_acked, h, hlo, hhi]
  | packet_lost =>
    by_cases h : c.inflight_ > 0 <;>
      simp [CongestionController.call, CongestionController.packet_lost, h, hlo, hhi]
  | on_ack_received has_loss =>
    cases has_loss
    · refine ⟨rfl, rfl, ?_, ?_⟩ <;>
        simp only [CongestionController.call, CongestionController.on_ack_received,
          CongestionController.increase_cwnd, U64, Bool.false_eq_true, if_false] <;>
        split <;> omega
    · refine ⟨rfl, rfl, ?_, ?_⟩ <;>
        simp only [CongestionController.call, CongestionController.on_ack_received,
          CongestionController.decrease_cwnd_on_loss, if_true] <;>
        omega
  | on_duplicate_ack =>
    refine ⟨rfl, rfl, ?_, ?_⟩ <;>
      simp only [CongestionController.call, CongestionController.on_duplicate_ack,
        CongestionController.decrease_cwnd_on_loss] <;>
      omega
  | on_timeout =>
    refine ⟨rfl, rfl, ?_, ?_⟩ <;>
      simp only [CongestionController.call, CongestionController.on_timeout,
        CongestionController.decrease_cwnd_on_loss, CongestionController.enter_slow_start] <;>
      omega

theorem run_bounds (calls : List ControllerCall) :
    ∀ c : CongestionController, c.max_cwnd_ < 2 ^ 63 → c.min_cwnd_ ≤ c.cwnd_ →
      c.cwnd_ ≤ c.max_cwnd_ →
      (c.run calls).min_cwnd_ = c.min_cwnd_ ∧ (c.run calls).max_cwnd_ = c.max_cwnd_ ∧
      c.min_cwnd_ ≤ (c.run calls).cwnd_ ∧ (c.run calls).cwnd_ ≤ c.max_cwnd_ := by
  induction calls with
  | nil => intro c _ hlo hhi; exact ⟨rfl, rfl, hlo, hhi⟩
  | cons k rest ih =>
    intro c hmax hlo hhi
    obtain ⟨h1, h2, h3, h4⟩ := call_bounds c k hmax hlo hhi
    obtain ⟨g1, g2, g3, g4⟩ := ih (c.call k) (by rw [h2]; exact hmax) h3 h4
    simp only [CongestionController.run, List.foldl_cons] at *
    exact ⟨g1.trans h1, g2.trans h2, by rw [← h1]; exact g3, by rw [← h2]; exact g4⟩

/-- Counterexample to C15 as stated: with `initial_cwnd = 2^63`,
`initial_ssthresh = 2^64 - 1`, `min_cwnd = 10`, `max_cwnd = 2^64 - 1` the parameters
satisfy `min_cwnd ≤ initial_cwnd ≤ max_cwnd`, and one `on_ack_received(false)` computes
`current_cwnd * 2 = 0` in 64-bit arithmetic, leaving `cwnd = 0 < min_cwnd`. -/
theorem cwnd_bounds_overflow_counterexample :
    (10 ≤ 2 ^ 63 ∧ 2 ^ 63 ≤ 2 ^ 64 - 1) ∧
    ((CongestionController.new (2 ^ 63) (2 ^ 64 - 1) 10 (2 ^ 64 - 1)).run
      [ControllerCall.on_ack_received false]).cwnd_ = 0 ∧
    ¬ (10 ≤ ((CongestionController.new (2 ^ 63) (2 ^ 64 - 1) 10 (2 ^ 64 - 1)).run
      [ControllerCall.on_ack_received false]).cwnd_) := by
  decide!

/-- C15. cwnd bounds, amended: for a controller constructed with
`min_cwnd ≤ initial_cwnd ≤ max_cwnd < 2^63` (any initial ssthresh), after every finite
sequence of `packet_sent`, `packet_acked`, `packet_lost`, `on_ack_received(false)`,
`on_ack_received(true)`, `on_duplicate_ack` and `on_timeout` calls,
`min_cwnd ≤ cwnd ≤ max_cwnd`. -/
theorem cwnd_bounds_general (initial_cwnd initial_ssthresh min_cwnd max_cwnd : Nat)
    (calls : List ControllerCall)
    (hmin : min_cwnd ≤ initial_cwnd) (hmax : initial_cwnd ≤ max_cwnd)
    (h63 : max_cwnd < 2 ^ 63) :
    min_cwnd ≤ ((CongestionController.new initial_cwnd initial_ssthresh min_cwnd
        max_cwnd).run calls).cwnd_ ∧
    ((CongestionController.new initial_cwnd initial_ssthresh min_cwnd
        max_cwnd).run calls).cwnd_ ≤ max_cwnd := by
  have h := run_bounds calls
    (CongestionController.new initial_cwnd initial_ssthresh min_cwnd max_cwnd) h63 hmin hmax
  exact ⟨h.2.2.1, h.2.2.2⟩

theorem cwnd_bounds_general_witness :
    20 ≤ ((CongestionController.new 30 25 20 70).run
        [ControllerCall.on_ack_received false, ControllerCall.on_ack_received false,
         ControllerCall.packet_sent, ControllerCall.on_timeout,
         ControllerCall.on_ack_received false]).cwnd_ ∧
    ((CongestionController.new 30 25 20 70).run
        [ControllerCall.on_ack_received false, ControllerCall.on_ack_received false,
         ControllerCall.packet_sent, ControllerCall.on_timeout,
         ControllerCall.on_ack_received false]).cwnd_ ≤ 70 :=
  cwnd_bounds_general 30 25 20 70 _ (by norm_num) (by norm_num) (by norm_num)

/-- C16. cwnd bounds, default configuration: a default-constructed controller starts
with `cwnd = 1000`, `ssthresh = 5000`, `inflight = 0`, `min_cwnd = 10`, `max_cwnd = 10000`,
and after every finite sequence of event calls `10 ≤ cwnd ≤ 10000`. -/
theorem cwnd_bounds_default :
    CongestionController.default = ⟨1000, 5000, 0, 10, 10000⟩ ∧
    ∀ calls : List ControllerCall,
      10 ≤ (CongestionController.default.run calls).cwnd_ ∧
      (CongestionController.default.run calls).cwnd_ ≤ 10000 := by
  refine ⟨rfl, fun calls => ?_⟩
  have h := run_bounds calls CongestionController.default (by decide!) (by decide!)
    (by decide!)
  exact ⟨h.2.2.1, h.2.2.2⟩

/-- C17. Window increase: when `cwnd < 2^63`, `on_ack_received(false)` sets `cwnd` to
`min(2 * cwnd, max_cwnd)` if `cwnd < ssthresh` and to `min(cwnd + 1, max_cwnd)` otherwise,
and leaves `ssthresh` and `inflight` unchanged. -/
theorem on_ack_received_increase (c : CongestionController) (h63 : c.cwnd_ < 2 ^ 63) :
    (c.on_ack_received false).cwnd_ =
      (if c.cwnd_ < c.ssthresh_ then min (2 * c.cwnd_) c.max_cwnd_
       else min (c.cwnd_ + 1) c.max_cwnd_) ∧
    (c.on_ack_received false).ssthresh_ = c.ssthresh_ ∧
    (c.on_ack_received false).inflight_ = c.inflight_ := by
  have h2 : (c.cwnd_ * 2) % U64 = 2 * c.cwnd_ := by
    rw [Nat.mod_eq_of_lt (by unfold U64; omega)]; omega
  have h1 : (c.cwnd_ + 1) % U64 = c.cwnd_ + 1 := Nat.mod_eq_of_lt (by unfold U64; omega)
  refine ⟨?_, rfl, rfl⟩
  simp only [CongestionController.on_ack_received, CongestionController.increase_cwnd, h1, h2,
    Bool.false_eq_true, if_false]

theorem on_ack_received_increase_witness :
    ((CongestionController.default).on_ack_received false).cwnd_ =
      (if (1000 : Nat) < 5000 then min (2 * 1000) 10000 else min (1000 + 1) 10000) ∧
    ((CongestionController.default).on_ack_received false).ssthresh_ = 5000 ∧
    ((CongestionController.default).on_ack_received false).inflight_ = 0 :=
  on_ack_received_increase CongestionController.default (by decide!)

/-- C18. Multiplicative decrease: with previous window `c`, `on_ack_received(true)` sets
`cwnd` and `ssthresh` to `max(c / 2, min_cwnd)` and leaves `inflight` unchanged, and
`on_duplicate_ack` produces the identical state. -/
theorem multiplicative_decrease (c : CongestionController) :
    (c.on_ack_received true).cwnd_ = max (c.cwnd_ / 2) c.min_cwnd_ ∧
    (c.on_ack_received true).ssthresh_ = max (c.cwnd_ / 2) c.min_cwnd_ ∧
    (c.on_ack_received true).inflight_ = c.inflight_ ∧
    c.on_duplicate_ack = c.on_ack_received true :=
  ⟨rfl, rfl, rfl, rfl⟩

theorem on_timeout_fields (c : CongestionController) :
    (c.on_timeout).cwnd_ = c.min_cwnd_ ∧
      (c.on_timeout).ssthresh_ = max (c.cwnd_ / 2) c.min_cwnd_ ∧
      (c.on_timeout).inflight_ = c.inflight_ := ⟨rfl, rfl, rfl⟩

/-- C19. Timeout: with previous window `c`, `on_timeout` leaves `cwnd = min_cwnd`,
`ssthresh = max(c / 2, min_cwnd)` and `inflight` unchanged. Scenario E: `cwnd = 4000`,
`min_cwnd = 10` gives `cwnd = 10` and `ssthresh = 2000`. -/
theorem on_timeout_resets (c : CongestionController) :
    ((c.on_timeout).cwnd_ = c.min_cwnd_ ∧
      (c.on_timeout).ssthresh_ = max (c.cwnd_ / 2) c.min_cwnd_ ∧
      (c.on_timeout).inflight_ = c.inflight_) ∧
    ∀ ssthresh inflight max_cwnd : Nat,
      ((CongestionController.mk 4000 ssthresh inflight 10 max_cwnd).on_timeout).cwnd_ = 10 ∧
      ((CongestionController.mk 4000 ssthresh inflight 10 max_cwnd).on_timeout).ssthresh_ =
        2000 := by
  refine ⟨on_timeout_fields c, fun ssthresh inflight max_cwnd => ?_⟩
  have h := on_timeout_fields (CongestionController.mk 4000 ssthresh inflight 10 max_cwnd)
  rw [h.1, h.2.1]
  exact ⟨rfl, by norm_num⟩

/-- Counterexample to C20 as stated: from `cwnd = 1000`, `ssthresh = 5000`,
`min_cwnd = 10`, `max_cwnd = 10000`, after 20 calls of `on_ack_received(false)` the window
is not `10000`, and after the following `on_ack_received(true)` it is not `5000`. -/
theorem scenario_D_counterexample :
    ¬ (((CongestionController.new 1000 5000 10 10000).run
        (List.replicate 20 (ControllerCall.on_ack_received false))).cwnd_ = 10000) ∧
    ¬ ((((CongestionController.new 1000 5000 10 10000).run
        (List.replicate 20 (ControllerCall.on_ack_received false))).on_ack_received
          true).cwnd_ = 5000) := by
  decide

/-- C20. Scenario D, amended: from `cwnd = 1000`, `ssthresh = 5000`, `min_cwnd = 10`,
`max_cwnd = 10000`, three calls of `on_ack_received(false)` double the window to `8000`;
from there on it is above `ssthresh` and grows by one per call, so after 20 calls
`cwnd = 8017`, and `max_cwnd` is not reached at any point of the 20 calls; one following
`on_ack_received(true)` leaves `cwnd = 4008` and `ssthresh = 4008`. -/
theorem scenario_D :
    ((CongestionController.new 1000 5000 10 10000).run
        (List.replicate 3 (ControllerCall.on_ack_received false))).cwnd_ = 8000 ∧
    ((CongestionController.new 1000 5000 10 10000).run
        (List.replicate 20 (ControllerCall.on_ack_received false))).cwnd_ = 8017 ∧
    (∀ n, n ≤ 20 → ((CongestionController.new 1000 5000 10 10000).run
        (List.replicate n (ControllerCall.on_ack_received false))).cwnd_ < 10000) ∧
    (((CongestionController.new 1000 5000 10 10000).run
        (List.replicate 20 (ControllerCall.on_ack_received false))).on_ack_received
          true).cwnd_ = 4008 ∧
    (((CongestionController.new 1000 5000 10 10000).run
        (List.replicate 20 (ControllerCall.on_ack_received false))).on_ack_received
          true).ssthresh_ = 4008 := by
  refine ⟨by decide, by decide, ?_, by decide, by decide⟩
  intro n hn
  interval_cases n <;> decide

/-! ### The stats overlay -/

/-- What the overlay does to the window: `on_ack_received_with_stats(has_loss)` leaves
the base controller in the state that two successive calls of
`CongestionController::on_ack_received(has_loss)` produce. -/
theorem on_ack_received_with_stats_base (e : EnhancedCongestionController) (has_loss : Bool) :
    (e.on_ack_received_with_stats has_loss).base =
      (e.base.on_ack_received has_loss).on_ack_received has_loss := by
  cases has_loss <;> rfl

/-- C21. The stats overlay is not observational. On the controller that the sender
constructs, `EnhancedCongestionController(1000, 5000, true)`, one call of
`on_ack_received_with_stats(false)` leaves `cwnd = 4000` where one call of
`CongestionController::on_ack_received(false)` leaves `cwnd = 2000`; and one call of
`on_ack_received_with_stats(true)` leaves `cwnd = ssthresh = 250` where one call of
`CongestionController::on_ack_received(true)` leaves `cwnd = ssthresh = 500`. -/
theorem stats_overlay_applies_update_twice :
    ((EnhancedCongestionController.new 1000 5000 true 0).on_ack_received_with_stats
        false).base.cwnd_ = 4000 ∧
    ((EnhancedCongestionController.new 1000 5000 true 0).base.on_ack_received false).cwnd_ =
      2000 ∧
    ((EnhancedCongestionController.new 1000 5000 true 0).on_ack_received_with_stats
        true).base.cwnd_ = 250 ∧
    ((EnhancedCongestionController.new 1000 5000 true 0).on_ack_received_with_stats
        true).base.ssthresh_ = 250 ∧
    ((EnhancedCongestionController.new 1000 5000 true 0).base.on_ack_received true).cwnd_ =
      500 ∧
    ((EnhancedCongestionController.new 1000 5000 true 0).base.on_ack_received true).ssthresh_ =
      500 := by
  decide!

/-! ### Parser rejection -/

/-- C25. SACK parser rejection: `parse_ack_packet` returns false if and only if the
datagram is shorter than 10 bytes or shorter than `10 + bitmap_len`, where `bitmap_len` is
the big-endian 16-bit value at offsets 8..9; on every other datagram it returns true. -/
theorem parse_ack_packet_rejects_iff (data : List Nat) :
    (parse_ack_packet data = none ↔
      (data.length < 10 ∨ data.length < 10 + be16_read data 8)) ∧
    ((parse_ack_packet data).isSome = true ↔
      ¬ (data.length < 10 ∨ data.length < 10 + be16_read data 8)) := by
  have key : parse_ack_packet data = none ↔
      (data.length < 10 ∨ data.length < 10 + be16_read data 8) := by
    constructor
    · intro h
      by_contra hc
      have hacc : 10 + be16_read data 8 ≤ data.length := by omega
      rw [parse_ack_packet_of_length data hacc] at h
      exact Option.noConfusion h
    · intro h
      cases hp : parse_ack_packet data with
      | none => rfl
      | some r =>
        have := parse_ack_packet_accepts data r hp
        omega
  refine ⟨key, ?_⟩
  rw [← key]
  cases parse_ack_packet data <;> simp

/-- C26. Data parser rejection: `parse_data_packet` returns true if and only if the
datagram has at least 16 bytes; when it returns true, `seq` and `ts` are the big-endian
values of bytes 0..7 and 8..15, and every datagram with the same first 16 bytes yields the
same `seq` and `ts`. -/
theorem parse_data_packet_accepts_iff (data : List Nat) :
    ((parse_data_packet data).isSome = true ↔ 16 ≤ data.length) ∧
    (∀ seq ts, parse_data_packet data = some (seq, ts) →
      seq = be64_read data 0 ∧ ts = be64_read data 8 ∧
      ∀ data' : List Nat, data'.take 16 = data.take 16 →
        parse_data_packet data' = some (seq, ts)) := by
  constructor
  · by_cases h : 16 ≤ data.length
    · rw [parse_data_packet_of_length data h]
      simp [h]
    · simp [parse_data_packet, is_valid_packet_size, sizeof_PacketHeader, h]
  · intro seq ts hp
    have hlen : 16 ≤ data.length := by
      by_contra hc
      simp [parse_data_packet, is_valid_packet_size, sizeof_PacketHeader, hc] at hp
    rw [parse_data_packet_of_length data hlen, Option.some.injEq, Prod.mk.injEq] at hp
    refine ⟨hp.1.symm, hp.2.symm, ?_⟩
    intro data' htake
    have hlen' : 16 ≤ data'.length := by
      have := congrArg List.length htake
      simp only [List.length_take] at this
      omega
    have hget : ∀ k, k < 16 → data'.getD k 0 = data.getD k 0 :=
      fun k hk => getD_eq_of_take_eq data data' 16 k htake hk
    rw [parse_data_packet_of_length data' hlen', ← hp.1, ← hp.2]
    unfold be64_read
    rw [hget 0 (by omega), hget (0 + 1) (by omega), hget (0 + 2) (by omega),
      hget (0 + 3) (by omega), hget (0 + 4) (by omega), hget (0 + 5) (by omega),
      hget (0 + 6) (by omega), hget (0 + 7) (by omega), hget 8 (by omega),
      hget (8 + 1) (by omega), hget (8 + 2) (by omega), hget (8 + 3) (by omega),
      hget (8 + 4) (by omega), hget (8 + 5) (by omega), hget (8 + 6) (by omega),
      hget (8 + 7) (by omega)]

/-- C27. A malformed SACK is dropped: on a datagram that `parse_ack_packet` rejects
(shorter than 10 bytes, or shorter than 10 plus the declared `bitmap_len`),
`process_ack_packet` leaves the sender unchanged, so the pending table keeps its keys, send
timestamps and retransmit counts, and no callback is invoked. -/
theorem malformed_sack_is_dropped (s : SenderReliability) (clock : Nat → Nat)
    (data : List Nat)
    (hrej : data.length < 10 ∨ data.length < 10 + be16_read data 8) :
    parse_ack_packet data = none ∧
    s.process_ack_packet clock data = (s, []) := by
  have hnone : parse_ack_packet data = none := by
    cases hp : parse_ack_packet data with
    | none => rfl
    | some r =>
      have := parse_ack_packet_accepts data r hp
      omega
  refine ⟨hnone, ?_⟩
  unfold SenderReliability.process_ack_packet
  rw [hnone]

theorem malformed_sack_is_dropped_witness :
    parse_ack_packet [0, 0, 0, 0, 0, 0, 0, 2, 0, 4, 0xFD] = none ∧
    scenario_B_sender.process_ack_packet (fun n => n) [0, 0, 0, 0, 0, 0, 0, 2, 0, 4, 0xFD] =
      (scenario_B_sender, []) :=
  malformed_sack_is_dropped scenario_B_sender (fun n => n)
    [0, 0, 0, 0, 0, 0, 0, 2, 0, 4, 0xFD] (Or.inr (by decide))

/-! ### The SACK builder -/

theorem int_to_u64_lt (x : Int) : int_to_u64 x < 2 ^ 64 := by
  unfold int_to_u64
  have h1 : 0 ≤ x % (2 : Int) ^ 64 := Int.emod_nonneg _ (by norm_num)
  have h2 : x % (2 : Int) ^ 64 < (2 : Int) ^ 64 := Int.emod_lt_of_pos _ (by norm_num)
  omega

theorem int_to_u64_of_nonneg (x : Int) (h0 : 0 ≤ x) (h1 : x < 2 ^ 64) :
    (int_to_u64 x : Int) = x := by
  unfold int_to_u64
  rw [Int.emod_eq_of_lt h0 h1]
  omega

theorem generate_ack_scan_diverges (received : List (Nat × Nat)) :
    ∀ (fuel seq : Nat) (acc : List Nat), seq < 2 ^ 64 →
      generate_ack_scan received (2 ^ 64 - 1) fuel seq acc = none := by
  intro fuel
  induction fuel with
  | zero => intro seq acc _; rfl
  | succ f ih =>
    intro seq acc hseq
    have hle : seq ≤ 2 ^ 64 - 1 := by omega
    simp only [generate_ack_scan, hle, if_true]
    exact ih _ _ (by unfold U64; omega)

theorem generate_ack_scan_exit (received : List (Nat × Nat)) (window_end fuel seq : Nat)
    (acc : List Nat) (h : window_end < seq) (hfuel : 0 < fuel) :
    generate_ack_scan received window_end fuel seq acc = some acc := by
  obtain ⟨f, rfl⟩ : ∃ f, fuel = f + 1 := ⟨fuel - 1, by omega⟩
  have hgt : ¬ seq ≤ window_end := by omega
  simp [generate_ack_scan, hgt]

theorem generate_ack_scan_returns (received : List (Nat × Nat)) (H Wu fuel : Nat)
    (hH : H < 2 ^ 64) (hW : Wu < 2 ^ 64) (hne : H + Wu ≠ 2 ^ 64 - 1) (hfuel : Wu < fuel) :
    ∃ M, generate_ack_scan received ((H + Wu) % U64) fuel ((H + 1) % U64) [] = some M := by
  by_cases h1 : H + Wu + 1 < 2 ^ 64
  · have e1 : (H + Wu) % U64 = H + Wu := Nat.mod_eq_of_lt (by unfold U64; omega)
    have e2 : (H + 1) % U64 = H + 1 := Nat.mod_eq_of_lt (by unfold U64; omega)
    rw [e1, e2]
    exact ⟨_, generate_ack_scan_eq received (H + Wu) h1 Wu (H + 1) [] fuel (by omega) hfuel⟩
  · by_cases h2 : H + 1 < 2 ^ 64
    · have e1 : (H + Wu) % U64 = H + Wu - 2 ^ 64 := by unfold U64; omega
      have e2 : (H + 1) % U64 = H + 1 := Nat.mod_eq_of_lt (by unfold U64; omega)
      rw [e1, e2]
      exact ⟨_, generate_ack_scan_exit received _ fuel _ [] (by omega) (by omega)⟩
    · have e1 : (H + Wu) % U64 = Wu - 1 := by unfold U64; omega
      have e2 : (H + 1) % U64 = 0 := by unfold U64; omega
      rw [e1, e2]
      exact ⟨_, generate_ack_scan_eq received (Wu - 1) (by omega) Wu 0 [] fuel (by omega)
        hfuel⟩

theorem generate_ack_returns (a : AckManager) (fuel : Nat)
    (hH : a.highest_contiguous_ < 2 ^ 64)
    (hne : a.highest_contiguous_ + int_to_u64 a.window_size_ ≠ 2 ^ 64 - 1)
    (hfuel : int_to_u64 a.window_size_ < fuel) :
    ∃ M, a.generate_ack fuel =
      some ({ a with packets_since_ack_ := 0 },
        create_ack_packet a.highest_contiguous_ M (int_to_u64 a.window_size_)) := by
  obtain ⟨M, hM⟩ := generate_ack_scan_returns a.received_packets_ a.highest_contiguous_
    (int_to_u64 a.window_size_) fuel hH (int_to_u64_lt _) hne hfuel
  refine ⟨M, ?_⟩
  unfold AckManager.generate_ack
  simp only [hM]

/-- C22, counterexample. With watermark `H = 2^64 - 257` and window `W = 256` (so
`W ≥ 0` and `W / 8 ≤ 65535`), `H + W = 2^64 - 1`: the scan `seq <= window_end` of
`generate_ack` is true for every 64-bit `seq`, and `generate_ack` returns no frame however
many iterations it is given. -/
theorem generate_ack_window_wrap_counterexample :
    0 ≤ (AckManager.mk [] (2 ^ 64 - 257) 256 1 0).window_size_ ∧
    (AckManager.mk [] (2 ^ 64 - 257) 256 1 0).window_size_ / 8 ≤ 65535 ∧
    (AckManager.mk [] (2 ^ 64 - 257) 256 1 0).highest_contiguous_ < 2 ^ 64 ∧
    ∀ fuel, (AckManager.mk [] (2 ^ 64 - 257) 256 1 0).generate_ack fuel = none := by
  refine ⟨by decide!, by decide!, by decide!, ?_⟩
  intro fuel
  have e1 : ((2 ^ 64 - 257 : Nat) + int_to_u64 256) % U64 = 2 ^ 64 - 1 := by decide!
  unfold AckManager.generate_ack
  simp only [e1]
  rw [generate_ack_scan_diverges [] fuel ((2 ^ 64 - 257 + 1) % U64) []
    (Nat.mod_lt _ (by decide!))]

/-- C22. Postcondition of `generate_ack`: for every `AckManager` state with a 64-bit
watermark `H` and window `W` with `W ≥ 0`, `W / 8 ≤ 65535` and `H + W ≠ 2^64 - 1`,
`generate_ack` returns (given more than `W` iterations) a frame of exactly `10 + W / 8`
bytes whose bytes 0..7 hold `H` and whose bytes 8..9 hold `W / 8`, both big-endian; the
state it leaves has `packets_since_ack_ = 0` and the same watermark and received set. For
`W = 256` the bitmap length is 32. -/
theorem generate_ack_postcondition (a : AckManager) (fuel : Nat)
    (hW0 : 0 ≤ a.window_size_) (hW1 : a.window_size_ / 8 ≤ 65535)
    (hH : a.highest_contiguous_ < 2 ^ 64)
    (hne : a.highest_contiguous_ + int_to_u64 a.window_size_ ≠ 2 ^ 64 - 1)
    (hfuel : int_to_u64 a.window_size_ < fuel) :
    (int_to_u64 a.window_size_ : Int) = a.window_size_ ∧
    ∃ r, a.generate_ack fuel = some r ∧
      r.2.size = 10 + int_to_u64 a.window_size_ / 8 ∧
      be64_read r.2.data_ 0 = a.highest_contiguous_ ∧
      be16_read r.2.data_ 8 = int_to_u64 a.window_size_ / 8 ∧
      r.1 = { a with packets_since_ack_ := 0 } ∧
      r.1.packets_since_ack_ = 0 ∧
      r.1.highest_contiguous_ = a.highest_contiguous_ ∧
      r.1.received_packets_ = a.received_packets_ ∧
      (a.window_size_ = 256 → be16_read r.2.data_ 8 = 32) := by
  have hWu : (int_to_u64 a.window_size_ : Int) = a.window_size_ :=
    int_to_u64_of_nonneg _ hW0 (by omega)
  obtain ⟨M, hM⟩ := generate_ack_returns a fuel hH hne hfuel
  have hlen : int_to_u64 a.window_size_ / 8 % 2 ^ 16 = int_to_u64 a.window_size_ / 8 := by
    apply Nat.mod_eq_of_lt
    omega
  refine ⟨hWu, _, hM, ?_, ?_, ?_, rfl, rfl, rfl, rfl, ?_⟩
  · exact create_ack_packet_length _ _ _
  · exact create_ack_packet_ack_seq _ _ _ hH
  · rw [create_ack_packet_bitmap_len, hlen]
  · intro h256
    simp only
    rw [create_ack_packet_bitmap_len, hlen]
    omega

theorem generate_ack_postcondition_witness :
    ∃ r, (AckManager.mk [(1, 10), (3, 30)] 1 256 1 2).generate_ack 257 = some r ∧
      r.2.size = 10 + int_to_u64 256 / 8 ∧ be16_read r.2.data_ 8 = 32 := by
  obtain ⟨_, r, h1, h2, _, _, _, _, _, _, h3⟩ :=
    generate_ack_postcondition (AckManager.mk [(1, 10), (3, 30)] 1 256 1 2) 257
      (by decide) (by decide) (by decide!) (by decide!) (by decide!)
  exact ⟨r, h1, h2, h3 rfl⟩

/-! ### The SACK window -/

theorem watermark_le_length (received : List (Nat × Nat)) (H : Nat)
    (hpre : ∀ k, 1 ≤ k → k ≤ H → (map_find received k).isSome = true) :
    H ≤ received.length := by
  have hsub : List.range' 1 H ⊆ map_keys received := by
    intro x hx
    have hx' := List.mem_range'_1.mp hx
    exact map_find_isSome_mem_keys _ _ (hpre x hx'.1 (by omega))
  have hle := (List.subperm_of_subset (List.nodup_range' 1 H) hsub).length_le
  simpa [map_keys] using hle

theorem map_find_isSome_of_mem_keys {V : Type} (m : List (Nat × V)) (k : Nat)
    (h : k ∈ map_keys m) : (map_find m k).isSome = true := by
  induction m with
  | nil => exact absurd h (List.not_mem_nil _)
  | cons e m ih =>
    obtain ⟨k1, v⟩ := e
    rw [map_find_cons]
    by_cases hk : k1 = k
    · rw [if_pos hk]; rfl
    · rw [if_neg hk]
      simp only [map_keys, List.map_cons, List.mem_cons] at h
      rcases h with h | h
      · exact absurd h.symm hk
      · exact ih h

theorem send_ack_if_needed_quiet (r : ReceiverReliability) (fuel : Nat)
    (h : r.ack_mgr_.packets_since_ack_ < int_to_u64 r.ack_mgr_.ack_period_) :
    r.send_ack_if_needed fuel = some (r, []) := by
  have hno : r.ack_mgr_.should_send_ack = false := by
    unfold AckManager.should_send_ack
    exact decide_eq_false (by omega)
  simp [ReceiverReliability.send_ack_if_needed, hno]

theorem send_ack_if_needed_fires (r : ReceiverReliability) (fuel : Nat)
    (hdue : int_to_u64 r.ack_mgr_.ack_period_ ≤ r.ack_mgr_.packets_since_ack_)
    (haddr : r.sender_addr_set_ = true)
    (hH : r.ack_mgr_.highest_contiguous_ < 2 ^ 64)
    (hne : r.ack_mgr_.highest_contiguous_ + int_to_u64 r.ack_mgr_.window_size_ ≠ 2 ^ 64 - 1)
    (hfuel : int_to_u64 r.ack_mgr_.window_size_ < fuel) :
    ∃ M, r.send_ack_if_needed fuel =
      some ({ r with ack_mgr_ := { r.ack_mgr_ with packets_since_ack_ := 0 } },
        [⟨(create_ack_packet r.ack_mgr_.highest_contiguous_ M
            (int_to_u64 r.ack_mgr_.window_size_)).data_, r.sender_addr_⟩]) := by
  obtain ⟨M, hM⟩ := generate_ack_returns r.ack_mgr_ fuel hH hne hfuel
  have hyes : r.ack_mgr_.should_send_ack = true := by
    unfold AckManager.should_send_ack
    exact decide_eq_true hdue
  refine ⟨M, ?_⟩
  simp [ReceiverReliability.send_ack_if_needed, hyes, haddr, ReceiverReliability.send_ack, hM]

/-- A datagram that does not parse is ignored by the receive loop. -/
theorem receive_one_unparsed (r : ReceiverReliability) (fuel now : Nat) (data : List Nat)
    (sender : Nat) (hparse : parse_data_packet data = none) :
    receive_one r fuel now data sender = some (r, false, []) := by
  simp [receive_one, hparse]

/-- A duplicate datagram changes nothing and emits nothing when no SACK is due. -/
theorem receive_one_duplicate (r : ReceiverReliability) (fuel now : Nat) (data : List Nat)
    (sender seq ts : Nat) (hparse : parse_data_packet data = some (seq, ts))
    (hdup : (map_find r.ack_mgr_.received_packets_ seq).isSome = true)
    (haddr : r.sender_addr_set_ = true)
    (hpsa : r.ack_mgr_.packets_since_ack_ < int_to_u64 r.ack_mgr_.ack_period_) :
    receive_one r fuel now data sender = some (r, false, []) := by
  obtain ⟨a, addr, set⟩ := r
  simp only at haddr hdup hpsa
  subst haddr
  have hq := send_ack_if_needed_quiet ⟨a, addr, true⟩ fuel hpsa
  have hproc : (ReceiverReliability.mk a addr true).process_data_packet fuel now data sender =
      some (⟨a, addr, true⟩, false, []) := by
    simp only [ReceiverReliability.process_data_packet, hparse, if_true,
      add_received_packet_dup a fuel seq now hdup, hq]
  simp only [receive_one, hparse, hproc, hq, List.append_nil]

/-- A datagram with a new sequence: the sequence is stored, and one SACK is emitted
exactly when the counter reaches the period. -/
theorem receive_one_new (r : ReceiverReliability) (fuel now : Nat) (data : List Nat)
    (sender seq ts : Nat) (hparse : parse_data_packet data = some (seq, ts))
    (hnew : (map_find r.ack_mgr_.received_packets_ seq).isSome = false)
    (haddr : r.sender_addr_set_ = true)
    (hpsa : r.ack_mgr_.packets_since_ack_ < int_to_u64 r.ack_mgr_.ack_period_)
    (hH : r.ack_mgr_.highest_contiguous_ < 2 ^ 64)
    (hpre : ∀ k, 1 ≤ k → k ≤ r.ack_mgr_.highest_contiguous_ →
      (map_find r.ack_mgr_.received_packets_ k).isSome = true)
    (hlen : r.ack_mgr_.received_packets_.length + int_to_u64 r.ack_mgr_.window_size_ + 2
      < 2 ^ 64)
    (hfuel : r.ack_mgr_.received_packets_.length + int_to_u64 r.ack_mgr_.window_size_ + 2
      < fuel) :
    ∃ res, receive_one r fuel now data sender = some res ∧ res.2.1 = true ∧
      res.1.sender_addr_set_ = true ∧
      res.1.ack_mgr_.ack_period_ = r.ack_mgr_.ack_period_ ∧
      res.1.ack_mgr_.window_size_ = r.ack_mgr_.window_size_ ∧
      res.1.ack_mgr_.received_packets_ = (seq, now) :: r.ack_mgr_.received_packets_ ∧
      res.1.ack_mgr_.highest_contiguous_ < 2 ^ 64 ∧
      (∀ k, 1 ≤ k → k ≤ res.1.ack_mgr_.highest_contiguous_ →
        (map_find res.1.ack_mgr_.received_packets_ k).isSome = true) ∧
      (r.ack_mgr_.packets_since_ack_ + 1 = int_to_u64 r.ack_mgr_.ack_period_ →
        res.2.2.length = 1 ∧ res.1.ack_mgr_.packets_since_ack_ = 0) ∧
      (r.ack_mgr_.packets_since_ack_ + 1 ≠ int_to_u64 r.ack_mgr_.ack_period_ →
        res.2.2 = [] ∧
        res.1.ack_mgr_.packets_since_ack_ = r.ack_mgr_.packets_since_ack_ + 1) := by
  obtain ⟨⟨R, H, W, P, c⟩, addr, set⟩ := r
  simp only at haddr hnew hpsa hH hpre hlen hfuel
  subst haddr
  simp only
  have hp64 := int_to_u64_lt P
  obtain ⟨w, hw⟩ := advance_contiguous_returns ((seq, now) :: R) fuel H
    (by simp only [List.length_cons]; omega) (by simp only [List.length_cons]; omega)
  have hpre2 : ∀ k, 1 ≤ k → k ≤ H → (map_find ((seq, now) :: R) k).isSome = true := by
    intro k hk1 hk2
    rw [map_find_cons]
    split
    · rfl
    · exact hpre k hk1 hk2
  obtain ⟨hw64, hprew⟩ := advance_contiguous_prefix _ fuel _ w hw hH hpre2
  have hwlen := watermark_le_length _ w hprew
  simp only [List.length_cons] at hwlen
  have hmod : (c + 1) % U64 = c + 1 := Nat.mod_eq_of_lt (by unfold U64; omega)
  have hadd : (AckManager.mk R H W P c).add_received_packet fuel seq now =
      some (⟨(seq, now) :: R, w, W, P, c + 1⟩, true) := by
    rw [add_received_packet_new _ fuel seq now hnew]
    simp only [hw, hmod, Option.map_some']
  by_cases hdue : c + 1 = int_to_u64 P
  · obtain ⟨M, hM⟩ := send_ack_if_needed_fires
      ⟨⟨(seq, now) :: R, w, W, P, c + 1⟩, addr, true⟩ fuel
      (by simp only; omega) rfl hw64 (by simp only; omega) (by simp only; omega)
    simp only at hM
    have hquiet := send_ack_if_needed_quiet
      ⟨⟨(seq, now) :: R, w, W, P, 0⟩, addr, true⟩ fuel (by simp only; omega)
    have hproc : (ReceiverReliability.mk ⟨R, H, W, P, c⟩ addr true).process_data_packet fuel
        now data sender =
        some (⟨⟨(seq, now) :: R, w, W, P, 0⟩, addr, true⟩, true,
          [⟨(create_ack_packet w M (int_to_u64 W)).data_, addr⟩]) := by
      simp only [ReceiverReliability.process_data_packet, hparse, if_true, hadd, hM]
    refine ⟨(⟨⟨(seq, now) :: R, w, W, P, 0⟩, addr, true⟩, true,
        [⟨(create_ack_packet w M (int_to_u64 W)).data_, addr⟩]),
      by simp only [receive_one, hparse, hproc, hquiet]; rfl, rfl, rfl, rfl, rfl,
      rfl, hw64, hprew, fun _ => ⟨rfl, rfl⟩, fun hn => absurd hdue hn⟩
  · have hquiet := send_ack_if_needed_quiet
      ⟨⟨(seq, now) :: R, w, W, P, c + 1⟩, addr, true⟩ fuel (by simp only; omega)
    have hproc : (ReceiverReliability.mk ⟨R, H, W, P, c⟩ addr true).process_data_packet fuel
        now data sender =
        some (⟨⟨(seq, now) :: R, w, W, P, c + 1⟩, addr, true⟩, true, []) := by
      simp only [ReceiverReliability.process_data_packet, hparse, if_true, hadd, hquiet]
    refine ⟨(⟨⟨(seq, now) :: R, w, W, P, c + 1⟩, addr, true⟩, true, []),
      by simp only [receive_one, hparse, hproc, hquiet]; rfl, rfl, rfl, rfl, rfl,
      rfl, hw64, hprew, fun hy => absurd hy hdue, fun _ => ⟨rfl, rfl⟩⟩

theorem receive_all_cadence (fuel : Nat) (datagrams : List (Nat × List Nat × Nat)) :
    ∀ r : ReceiverReliability,
      r.sender_addr_set_ = true →
      r.ack_mgr_.packets_since_ack_ < int_to_u64 r.ack_mgr_.ack_period_ →
      r.ack_mgr_.highest_contiguous_ < 2 ^ 64 →
      (∀ k, 1 ≤ k → k ≤ r.ack_mgr_.highest_contiguous_ →
        (map_find r.ack_mgr_.received_packets_ k).isSome = true) →
      r.ack_mgr_.received_packets_.length + datagrams.length +
        int_to_u64 r.ack_mgr_.window_size_ + 1 < 2 ^ 64 →
      r.ack_mgr_.received_packets_.length + datagrams.length +
        int_to_u64 r.ack_mgr_.window_size_ + 1 < fuel →
      ∃ res, receive_all fuel r datagrams = some res ∧
        res.2.map (fun o => o.1) =
          delivers_new (map_keys r.ack_mgr_.received_packets_) datagrams ∧
        res.2.map (fun o => o.2.length) =
          cadence_spec (int_to_u64 r.ack_mgr_.ack_period_) r.ack_mgr_.packets_since_ack_
            (res.2.map (fun o => o.1)) ∧
        ∀ o ∈ res.2, o.1 = false → o.2 = [] := by
  induction datagrams with
  | nil =>
    intro r _ _ _ _ _ _
    exact ⟨(r, []), rfl, rfl, rfl, fun o ho => absurd ho (List.not_mem_nil _)⟩
  | cons d rest ih =>
    intro r haddr hpsa hH hpre hlen hfuel
    obtain ⟨now, data, sender⟩ := d
    simp only [List.length_cons] at hlen hfuel
    cases hparse : parse_data_packet data with
    | none =>
      have hstep := receive_one_unparsed r fuel now data sender hparse
      obtain ⟨res, hres, hflags, hcounts, hquiet⟩ := ih r haddr hpsa hH hpre (by omega)
        (by omega)
      refine ⟨(res.1, (false, []) :: res.2), ?_, ?_, ?_, ?_⟩
      · simp only [receive_all, hstep, hres]
      · simp only [List.map_cons, delivers_new, hparse, hflags]
      · simp only [List.map_cons, cadence_spec, List.length_nil, hcounts]
      · intro o ho hf
        rcases List.mem_cons.mp ho with rfl | ho
        · rfl
        · exact hquiet o ho hf
    | some st =>
      obtain ⟨seq, ts⟩ := st
      by_cases hdup : (map_find r.ack_mgr_.received_packets_ seq).isSome = true
      · have hstep := receive_one_duplicate r fuel now data sender seq ts hparse hdup haddr
          hpsa
        have hmem : seq ∈ map_keys r.ack_mgr_.received_packets_ :=
          map_find_isSome_mem_keys _ _ hdup
        obtain ⟨res, hres, hflags, hcounts, hquiet⟩ := ih r haddr hpsa hH hpre (by omega)
          (by omega)
        refine ⟨(res.1, (false, []) :: res.2), ?_, ?_, ?_, ?_⟩
        · simp only [receive_all, hstep, hres]
        · simp only [List.map_cons, delivers_new, hparse, hmem, if_true, hflags]
        · simp only [List.map_cons, cadence_spec, List.length_nil, hcounts]
        · intro o ho hf
          rcases List.mem_cons.mp ho with rfl | ho
          · rfl
          · exact hquiet o ho hf
      · have hnew : (map_find r.ack_mgr_.received_packets_ seq).isSome = false := by
          simpa using hdup
        have hnmem : seq ∉ map_keys r.ack_mgr_.received_packets_ :=
          fun hmem => hdup (map_find_isSome_of_mem_keys _ _ hmem)
        obtain ⟨step, hstep, hflag, haddr1, hper, hwin, hrecv, hH1, hpre1, hyes, hno⟩ :=
          receive_one_new r fuel now data sender seq ts hparse hnew haddr hpsa hH hpre
            (by omega) (by omega)
        have hp64 := int_to_u64_lt r.ack_mgr_.ack_period_
        have hpsa1 : step.1.ack_mgr_.packets_since_ack_ <
            int_to_u64 step.1.ack_mgr_.ack_period_ := by
          rw [hper]
          by_cases hdue : r.ack_mgr_.packets_since_ack_ + 1 =
              int_to_u64 r.ack_mgr_.ack_period_
          · rw [(hyes hdue).2]; omega
          · rw [(hno hdue).2]; omega
        obtain ⟨res, hres, hflags, hcounts, hquiet⟩ := ih step.1 haddr1 hpsa1 hH1 hpre1
          (by rw [hrecv, hwin]; simp only [List.length_cons]; omega)
          (by rw [hrecv, hwin]; simp only [List.length_cons]; omega)
        refine ⟨(res.1, (step.2.1, step.2.2) :: res.2), ?_, ?_, ?_, ?_⟩
        · simp only [receive_all, hstep, hres]
        · simp only [List.map_cons, delivers_new, hparse, hnmem, if_false, hflag]
          rw [hflags, hrecv]
          rfl
        · simp only [List.map_cons, hflag, cadence_spec]
          rw [hper] at hcounts
          by_cases hdue : r.ack_mgr_.packets_since_ack_ + 1 =
              int_to_u64 r.ack_mgr_.ack_period_
          · rw [if_pos hdue, (hyes hdue).1, hcounts, (hyes hdue).2]
          · rw [if_neg hdue, (hno hdue).1, hcounts, (hno hdue).2]
            rfl
        · intro o ho hf
          rcases List.mem_cons.mp ho with rfl | ho
          · simp only at hf
            rw [hflag] at hf
            exact absurd hf (by simp)
          · exact hquiet o ho hf

/-- C24. ACK cadence: run the receive loop (`process_data_packet` followed by
`send_ack_if_needed` per datagram) from a state with `ack_period_ = p ≥ 1`, the sender
address known, `packets_since_ack_ = 0` and every sequence from 1 to the watermark
received, on fewer datagrams than would fill the 64-bit sequence space. The loop returns;
a datagram is reported new exactly when it parses and its sequence was not received
before; the number of SACKs emitted per datagram is that of the specification: one on the
datagram that delivers the `p`-th new sequence since the previous SACK and none on any
other; and a datagram that delivers nothing new emits nothing. -/
theorem ack_cadence (r : ReceiverReliability) (fuel : Nat)
    (datagrams : List (Nat × List Nat × Nat))
    (hp1 : 1 ≤ r.ack_mgr_.ack_period_) (hp2 : r.ack_mgr_.ack_period_ < 2 ^ 31)
    (haddr : r.sender_addr_set_ = true)
    (hpsa : r.ack_mgr_.packets_since_ack_ = 0)
    (hH : r.ack_mgr_.highest_contiguous_ < 2 ^ 64)
    (hpre : ∀ k, 1 ≤ k → k ≤ r.ack_mgr_.highest_contiguous_ →
      r.ack_mgr_.is_duplicate k = true)
    (hlen : r.ack_mgr_.received_packets_.length + datagrams.length +
      int_to_u64 r.ack_mgr_.window_size_ + 1 < 2 ^ 64)
    (hfuel : r.ack_mgr_.received_packets_.length + datagrams.length +
      int_to_u64 r.ack_mgr_.window_size_ + 1 < fuel) :
    (int_to_u64 r.ack_mgr_.ack_period_ : Int) = r.ack_mgr_.ack_period_ ∧
    ∃ res, receive_all fuel r datagrams = some res ∧
      res.2.map (fun o => o.1) =
        delivers_new (map_keys r.ack_mgr_.received_packets_) datagrams ∧
      res.2.map (fun o => o.2.length) =
        cadence_spec (int_to_u64 r.ack_mgr_.ack_period_) 0 (res.2.map (fun o => o.1)) ∧
      ∀ o ∈ res.2, o.1 = false → o.2 = [] := by
  have hP : (int_to_u64 r.ack_mgr_.ack_period_ : Int) = r.ack_mgr_.ack_period_ :=
    int_to_u64_of_nonneg _ (by omega) (by omega)
  refine ⟨hP, ?_⟩
  have h := receive_all_cadence fuel datagrams r haddr (by rw [hpsa]; omega) hH hpre hlen
    hfuel
  rw [hpsa] at h
  exact h

theorem ack_cadence_witness :
    ∃ res, receive_all 300 ⟨AckManager.new 256 2, 7, true⟩
        [(100, [0, 0, 0, 0, 0, 0, 0, 1, 0, 0, 0, 0, 0, 0, 0, 5], 7),
         (101, [0, 0, 0, 0, 0, 0, 0, 1, 0, 0, 0, 0, 0, 0, 0, 5], 7),
         (102, [0, 0, 0, 0, 0, 0, 0, 9], 7),
         (103, [0, 0, 0, 0, 0, 0, 0, 3, 0, 0, 0, 0, 0, 0, 0, 6], 7)] = some res ∧
      res.2.map (fun o => o.1) = [true, false, false, true] ∧
      res.2.map (fun o => o.2.length) = [0, 0, 0, 1] := by
  obtain ⟨_, res, h1, h2, h3, _⟩ := ack_cadence ⟨AckManager.new 256 2, 7, true⟩ 300
    [(100, [0, 0, 0, 0, 0, 0, 0, 1, 0, 0, 0, 0, 0, 0, 0, 5], 7),
     (101, [0, 0, 0, 0, 0, 0, 0, 1, 0, 0, 0, 0, 0, 0, 0, 5], 7),
     (102, [0, 0, 0, 0, 0, 0, 0, 9], 7),
     (103, [0, 0, 0, 0, 0, 0, 0, 3, 0, 0, 0, 0, 0, 0, 0, 6], 7)]
    (by decide) (by decide) rfl rfl (by decide!)
    (fun k hk1 hk2 => absurd hk2 (by
      have : (AckManager.new 256 2).highest_contiguous_ = 0 := rfl
      simp only [this]
      omega))
    (by decide!) (by decide!)
  have hflags : delivers_new (map_keys (AckManager.new 256 2).received_packets_)
      [(100, [0, 0, 0, 0, 0, 0, 0, 1, 0, 0, 0, 0, 0, 0, 0, 5], 7),
       (101, [0, 0, 0, 0, 0, 0, 0, 1, 0, 0, 0, 0, 0, 0, 0, 5], 7),
       (102, [0, 0, 0, 0, 0, 0, 0, 9], 7),
       (103, [0, 0, 0, 0, 0, 0, 0, 3, 0, 0, 0, 0, 0, 0, 0, 6], 7)] =
      [true, false, false, true] := by decide!
  have hper : int_to_u64 (AckManager.new 256 2).ack_period_ = 2 := by decide!
  simp only at h2 h3
  rw [hflags] at h2
  rw [h2, hper] at h3
  exact ⟨res, h1, h2, h3⟩

/-! ### Sending -/

theorem map_find_assign {V : Type} (m : List (Nat × V)) (key : Nat) (v : V) (x : Nat) :
    map_find (map_assign m key v) x = if x = key then some v else map_find m x := by
  induction m with
  | nil =>
    by_cases hx : x = key
    · simp [map_assign, map_find, hx]
    · have hx' : ¬ key = x := fun e => hx e.symm
      simp [map_assign, map_find, hx, hx']
  | cons e m ih =>
    obtain ⟨k, w⟩ := e
    simp only [map_assign]
    by_cases h1 : key < k
    · simp only [h1, if_true, map_find]
      by_cases hx : x = key
      · simp [hx]
      · have hx' : ¬ key = x := fun e => hx e.symm
        simp [hx, hx']
    · simp only [h1, if_false]
      by_cases h2 : key = k
      · simp only [h2, if_true, map_find]
        by_cases hx : x = k
        · simp [hx]
        · have hx' : ¬ k = x := fun e => hx e.symm
          simp [hx, hx']
      · simp only [h2, if_false, map_find]
        by_cases hk : k = x
        · have hx : ¬ x = key := fun e => h2 (e.symm.trans hk.symm)
          simp [hk, hx]
        · simp only [hk, if_false]
          exact ih

/-- C28. Send and socket failure: for every `seq`, `ts` and socket write result `sent`,
when `sent > 0` `send_packet` returns true and the pending table is the old table with
the entry `(seq, ts, 0)` assigned at key `seq` (looking up `seq` gives that entry, every
other key is as before); when `sent ≤ 0` it returns false and nothing changes, and the
send loop then leaves the congestion controller (so `inflight`) and the statistics
untouched. When `sent > 0` the send loop performs `packet_sent` and the bytes-sent
update. -/
theorem send_packet_and_socket_result (l : SenderLoop) (sent : Int) (seq ts : Nat) :
    (0 < sent →
      (l.reliability.send_packet sent seq ts).2 = true ∧
      (l.reliability.send_packet sent seq ts).1.reliability_mgr_.pending_packets_ =
        map_assign l.reliability.reliability_mgr_.pending_packets_ seq ⟨seq, ts, 0⟩ ∧
      map_find (l.reliability.send_packet sent seq ts).1.reliability_mgr_.pending_packets_ seq =
        some ⟨seq, ts, 0⟩ ∧
      ∀ k, k ≠ seq →
        map_find (l.reliability.send_packet sent seq ts).1.reliability_mgr_.pending_packets_ k =
          map_find l.reliability.reliability_mgr_.pending_packets_ k) ∧
    (sent ≤ 0 →
      l.reliability.send_packet sent seq ts = (l.reliability, false) ∧
      l.send_one sent seq ts = l) ∧
    (0 < sent →
      (l.send_one sent seq ts).congestion_ctrl.base = l.congestion_ctrl.base.packet_sent ∧
      (l.send_one sent seq ts).stats = l.stats.add_packet_sent l.msg_size) := by
  refine ⟨?_, ?_, ?_⟩
  · intro h
    have hrun : l.reliability.send_packet sent seq ts =
        ({ l.reliability with
           reliability_mgr_ := l.reliability.reliability_mgr_.add_pending_packet seq ts },
          true) := by
      simp [SenderReliability.send_packet, h]
    rw [hrun]
    refine ⟨rfl, rfl, ?_, ?_⟩
    · simp only [ReliabilityManager.add_pending_packet]
      rw [map_find_assign, if_pos rfl]
    · intro k hk
      simp only [ReliabilityManager.add_pending_packet]
      rw [map_find_assign, if_neg hk]
  · intro h
    have hnot : ¬ sent > 0 := by omega
    have hrun : l.reliability.send_packet sent seq ts = (l.reliability, false) := by
      simp [SenderReliability.send_packet, hnot]
    refine ⟨hrun, ?_⟩
    unfold SenderLoop.send_one
    rw [hrun]
    simp
  · intro h
    have hrun : l.reliability.send_packet sent seq ts =
        ({ l.reliability with
           reliability_mgr_ := l.reliability.reliability_mgr_.add_pending_packet seq ts },
          true) := by
      simp [SenderReliability.send_packet, h]
    unfold SenderLoop.send_one
    rw [hrun]
    exact ⟨rfl, rfl⟩

/-! ### Retransmission frames -/

/-- C29. Retransmit callback payload: with a retransmit callback installed, the frames
passed to it during `process_ack(ack_seq, missing_seqs)` are, in list order, one frame per
element `s` of `missing_seqs` that has a pending entry after the cumulative sweep, and
none for any other sequence; the frame for `s` is
`create_data_packet s (send timestamp of the entry) MIN_MESSAGE_SIZE`, which is exactly 16
bytes long and on which `parse_data_packet` yields `s` and that timestamp (64-bit values);
the configured `packet_size_` of the sender does not enter. -/
theorem retransmit_callback_payload (m : ReliabilityManager) (clock : Nat → Nat)
    (ack_seq : Nat) (missing_seqs : List Nat) (hcb : m.has_retransmit_callback = true) :
    retransmit_calls (m.process_ack clock ack_seq missing_seqs).2 =
      missing_seqs.filterMap (fun s =>
        (map_find (m.pending_packets_.filter (fun e => decide (ack_seq < e.1))) s).map
          (fun p => create_data_packet s p.send_ts_ns MIN_MESSAGE_SIZE)) ∧
    (∀ s ts, s < 2 ^ 64 → ts < 2 ^ 64 →
      (create_data_packet s ts MIN_MESSAGE_SIZE).size = 16 ∧
      parse_data_packet (create_data_packet s ts MIN_MESSAGE_SIZE).data_ = some (s, ts)) ∧
    (∀ (sender : SenderReliability) (packet_size : Nat) (data : List Nat),
      ({ sender with packet_size_ := packet_size }.process_ack_packet clock data).2 =
        (sender.process_ack_packet clock data).2) := by
  refine ⟨?_, ?_, ?_⟩
  · rw [process_ack_eq, retransmit_fold_calls _ _ hcb, ack_sweep_retransmit_calls,
      List.nil_append]
  · intro s ts hs hts
    constructor
    · unfold Packet.size
      rw [create_data_packet_data]
      simp only [List.length_append, be64_bytes_length, List.length_replicate, MIN_MESSAGE_SIZE]
      decide
    · rw [create_data_packet_data,
        parse_data_packet_of_length _
          (by simp only [List.length_append, be64_bytes_length]; omega),
        be64_read_be64_bytes s hs, be64_read_skip8 _ _ (be64_bytes_length s),
        be64_read_be64_bytes ts hts]
  · intro sender packet_size data
    unfold SenderReliability.process_ack_packet
    cases parse_ack_packet data with
    | none => rfl
    | some r => rfl

theorem retransmit_callback_payload_witness :
    retransmit_calls ((ReliabilityManager.mk
        [(3, ⟨3, 30, 0⟩), (4, ⟨4, 40, 0⟩), (5, ⟨5, 50, 0⟩)]
        [(3, 30), (4, 40), (5, 50)] true true).process_ack (fun n => n) 3 [5, 9, 3, 4]).2 =
      [create_data_packet 5 50 16, create_data_packet 4 40 16] := by
  have h := (retransmit_callback_payload
    (ReliabilityManager.mk [(3, ⟨3, 30, 0⟩), (4, ⟨4, 40, 0⟩), (5, ⟨5, 50, 0⟩)]
      [(3, 30), (4, 40), (5, 50)] true true) (fun n => n) 3 [5, 9, 3, 4] rfl).1
  rw [h]
  decide

/-! ### In-flight accounting -/

theorem run_inflight (calls : List ControllerCall) :
    ∀ c : CongestionController,
      (∀ k ∈ calls, k = ControllerCall.packet_sent ∨ k = ControllerCall.packet_acked) →
      c.inflight_ + calls.length < 2 ^ 64 →
      (c.run calls).inflight_ = saturating_inflight c.inflight_ calls ∧
      (c.run calls).cwnd_ = c.cwnd_ ∧ (c.run calls).ssthresh_ = c.ssthresh_ := by
  induction calls with
  | nil => intro c _ _; exact ⟨rfl, rfl, rfl⟩
  | cons k rest ih =>
    intro c hk hlen
    simp only [List.length_cons] at hlen
    have hrest : ∀ k' ∈ rest,
        k' = ControllerCall.packet_sent ∨ k' = ControllerCall.packet_acked :=
      fun k' hk' => hk k' (List.mem_cons_of_mem _ hk')
    rcases hk k (List.mem_cons_self _ _) with rfl | rfl
    · have hstep : (c.call ControllerCall.packet_sent).inflight_ = c.inflight_ + 1 := by
        simp only [CongestionController.call, CongestionController.packet_sent]
        exact Nat.mod_eq_of_lt (by unfold U64; omega)
      obtain ⟨h1, h2, h3⟩ := ih (c.call ControllerCall.packet_sent) hrest
        (by rw [hstep]; omega)
      simp only [CongestionController.run, List.foldl_cons, saturating_inflight] at *
      rw [h1, hstep]
      exact ⟨rfl, h2, h3⟩
    · have hstep : (c.call ControllerCall.packet_acked).inflight_ =
          (if c.inflight_ > 0 then c.inflight_ - 1 else c.inflight_) ∧
          (c.call ControllerCall.packet_acked).cwnd_ = c.cwnd_ ∧
          (c.call ControllerCall.packet_acked).ssthresh_ = c.ssthresh_ := by
        simp only [CongestionController.call, CongestionController.packet_acked]
        split <;> exact ⟨rfl, rfl, rfl⟩
      obtain ⟨h1, h2, h3⟩ := ih (c.call ControllerCall.packet_acked) hrest
        (by rw [hstep.1]; split <;> omega)
      simp only [CongestionController.run, List.foldl_cons, saturating_inflight] at *
      rw [h1, hstep.1]
      exact ⟨rfl, h2.trans hstep.2.1, h3.trans hstep.2.2⟩

/-- C30. In-flight saturation: for a sequence of fewer than `2^64` `packet_sent` and
`packet_acked` calls starting from `inflight = 0`, after every prefix of the calls
`inflight` equals the saturating counter of the specification and `cwnd` and `ssthresh`
are those of the start; `packet_acked` at `inflight = 0` leaves `inflight = 0`; and
neither call changes `cwnd` or `ssthresh`. -/
theorem inflight_saturation (c : CongestionController) (calls : List ControllerCall)
    (hcalls : ∀ k ∈ calls, k = ControllerCall.packet_sent ∨ k = ControllerCall.packet_acked)
    (h0 : c.inflight_ = 0) (hlen : calls.length < 2 ^ 64) :
    (∀ n, (c.run (calls.take n)).inflight_ = saturating_inflight 0 (calls.take n) ∧
      (c.run (calls.take n)).cwnd_ = c.cwnd_ ∧
      (c.run (calls.take n)).ssthresh_ = c.ssthresh_) ∧
    (c.packet_acked).inflight_ = 0 ∧
    (c.packet_sent).cwnd_ = c.cwnd_ ∧ (c.packet_sent).ssthresh_ = c.ssthresh_ ∧
    (c.packet_acked).cwnd_ = c.cwnd_ ∧ (c.packet_acked).ssthresh_ = c.ssthresh_ := by
  refine ⟨?_, ?_, rfl, rfl, ?_, ?_⟩
  · intro n
    have h := run_inflight (calls.take n) c
      (fun k hk => hcalls k (List.mem_of_mem_take hk))
      (by
        rw [List.length_take]
        omega)
    rw [h0] at h
    exact h
  · simp [CongestionController.packet_acked, h0]
  · simp [CongestionController.packet_acked, h0]
  · simp [CongestionController.packet_acked, h0]

theorem inflight_saturation_witness :
    ((CongestionController.default).run
        [ControllerCall.packet_acked, ControllerCall.packet_sent, ControllerCall.packet_sent,
         ControllerCall.packet_acked, ControllerCall.packet_acked,
         ControllerCall.packet_acked]).inflight_ = 0 := by
  have h := (inflight_saturation CongestionController.default
    [ControllerCall.packet_acked, ControllerCall.packet_sent, ControllerCall.packet_sent,
     ControllerCall.packet_acked, ControllerCall.packet_acked, ControllerCall.packet_acked]
    (by decide) rfl (by simp)).1 6
  simpa [saturating_inflight] using h.1

/-! ### The ACK task and the window -/

theorem on_event_fold (evs : List Event) :
    ∀ l : SenderLoop,
      (evs.foldl SenderLoop.on_event l).congestion_ctrl.base.cwnd_ =
        l.congestion_ctrl.base.cwnd_ ∧
      (evs.foldl SenderLoop.on_event l).congestion_ctrl.base.ssthresh_ =
        l.congestion_ctrl.base.ssthresh_ ∧
      (evs.foldl SenderLoop.on_event l).congestion_ctrl.base.min_cwnd_ =
        l.congestion_ctrl.base.min_cwnd_ ∧
      (evs.foldl SenderLoop.on_event l).congestion_ctrl.base.max_cwnd_ =
        l.congestion_ctrl.base.max_cwnd_ := by
  induction evs with
  | nil => intro l; exact ⟨rfl, rfl, rfl, rfl⟩
  | cons e rest ih =>
    intro l
    rw [List.foldl_cons]
    obtain ⟨h1, h2, h3, h4⟩ := ih (l.on_event e)
    have hstep : (l.on_event e).congestion_ctrl.base.cwnd_ = l.congestion_ctrl.base.cwnd_ ∧
        (l.on_event e).congestion_ctrl.base.ssthresh_ = l.congestion_ctrl.base.ssthresh_ ∧
        (l.on_event e).congestion_ctrl.base.min_cwnd_ = l.congestion_ctrl.base.min_cwnd_ ∧
        (l.on_event e).congestion_ctrl.base.max_cwnd_ = l.congestion_ctrl.base.max_cwnd_ := by
      cases e with
      | ack seq st rt n =>
        simp only [SenderLoop.on_event, CongestionController.packet_acked]
        split <;> exact ⟨rfl, rfl, rfl, rfl⟩
      | retransmit p => exact ⟨rfl, rfl, rfl, rfl⟩
    exact ⟨h1.trans hstep.1, h2.trans hstep.2.1, h3.trans hstep.2.2.1, h4.trans hstep.2.2.2⟩

theorem increase_cwnd_window (c d : CongestionController) (h1 : c.cwnd_ = d.cwnd_)
    (h2 : c.ssthresh_ = d.ssthresh_) (h3 : c.max_cwnd_ = d.max_cwnd_) :
    (c.increase_cwnd).cwnd_ = (d.increase_cwnd).cwnd_ ∧
    (c.increase_cwnd).ssthresh_ = (d.increase_cwnd).ssthresh_ ∧
    (c.increase_cwnd).max_cwnd_ = (d.increase_cwnd).max_cwnd_ := by
  refine ⟨?_, h2, h3⟩
  simp only [CongestionController.increase_cwnd, h1, h2, h3]

/-- Whatever the datagram holds, one iteration of the ACK task leaves the window as two
successive `on_ack_received(false)` calls do: the multiplicative decrease is never
applied. -/
theorem ack_one_window (l : SenderLoop) (clock : Nat → Nat) (data : List Nat) :
    (l.ack_one clock data).congestion_ctrl.base.cwnd_ =
      ((l.congestion_ctrl.base.on_ack_received false).on_ack_received false).cwnd_ ∧
    (l.ack_one clock data).congestion_ctrl.base.ssthresh_ = l.congestion_ctrl.base.ssthresh_ := by
  have hfold := on_event_fold (l.reliability.process_ack_packet clock data).2
    { l with reliability := (l.reliability.process_ack_packet clock data).1 }
  obtain ⟨h1, h2, _, h4⟩ := hfold
  simp only at h1 h2 h4
  unfold SenderLoop.ack_one
  simp only
  rw [on_ack_received_with_stats_base]
  simp only [CongestionController.on_ack_received, Bool.false_eq_true, if_false]
  obtain ⟨g1, g2, g3⟩ := increase_cwnd_window _ l.congestion_ctrl.base h1 h2 h4
  obtain ⟨k1, k2, _⟩ := increase_cwnd_window _ _ g1 g2 g3
  refine ⟨k1, ?_⟩
  rw [k2]
  rfl

/-- C32. The ACK task never signals loss. The datagram below parses as a SACK frame with
`ack_seq = 3` and the non-empty missing list `4, ..., 11`; on the sender of scenario B with
the controller of udp_sender.cpp (`cwnd = 1000`, `ssthresh = 5000`), handling it leaves
`cwnd = 4000` and `ssthresh = 5000`, where the multiplicative decrease would leave
`cwnd = ssthresh = 500`. -/
theorem ack_task_never_signals_loss :
    parse_ack_packet [0, 0, 0, 0, 0, 0, 0, 3, 0, 1, 0] = some (3, [4, 5, 6, 7, 8, 9, 10, 11]) ∧
    ((SenderLoop.mk scenario_B_sender (EnhancedCongestionController.new 1000 5000 true 0)
        StatsCollector.new 64).ack_one (fun n => 3000 + n)
        [0, 0, 0, 0, 0, 0, 0, 3, 0, 1, 0]).congestion_ctrl.base.cwnd_ = 4000 ∧
    ((SenderLoop.mk scenario_B_sender (EnhancedCongestionController.new 1000 5000 true 0)
        StatsCollector.new 64).ack_one (fun n => 3000 + n)
        [0, 0, 0, 0, 0, 0, 0, 3, 0, 1, 0]).congestion_ctrl.base.ssthresh_ = 5000 ∧
    ((EnhancedCongestionController.new 1000 5000 true 0).base.on_ack_received true).cwnd_ =
      500 ∧
    ((EnhancedCongestionController.new 1000 5000 true 0).base.on_ack_received true).ssthresh_ =
      500 := by
  decide!

/-! ### The stats overlay, as the code has it -/

/-- C33. Double application in the stats overlay: for every controller state and every
`has_loss`, `on_ack_received_with_stats(has_loss)` leaves `cwnd`, `ssthresh` and `inflight`
equal to what two successive calls of `CongestionController::on_ack_received(has_loss)`
leave; `inflight` is the one of the starting state. -/
theorem stats_overlay_double_application (e : EnhancedCongestionController)
    (has_loss : Bool) :
    (e.on_ack_received_with_stats has_loss).base.cwnd_ =
      ((e.base.on_ack_received has_loss).on_ack_received has_loss).cwnd_ ∧
    (e.on_ack_received_with_stats has_loss).base.ssthresh_ =
      ((e.base.on_ack_received has_loss).on_ack_received has_loss).ssthresh_ ∧
    (e.on_ack_received_with_stats has_loss).base.inflight_ =
      ((e.base.on_ack_received has_loss).on_ack_received has_loss).inflight_ ∧
    (e.on_ack_received_with_stats has_loss).base.inflight_ = e.base.inflight_ := by
  rw [on_ack_received_with_stats_base]
  refine ⟨rfl, rfl, rfl, ?_⟩
  cases has_loss <;> rfl

/-! ### Loss and congestion avoidance -/

/-- C36, counterexample. With `min_cwnd = max_cwnd = cwnd = 2^64 - 1`,
`on_ack_received(true)` leaves `cwnd = ssthresh = 2^64 - 1`; the next
`on_ack_received(false)` takes the additive branch, where `current_cwnd + 1` wraps to 0 in
64-bit arithmetic, and `cwnd` becomes 0, not `min(cwnd + 1, max_cwnd) = 2^64 - 1`. -/
theorem additive_increase_wrap_counterexample :
    ((CongestionController.mk (2 ^ 64 - 1) 5000 0 (2 ^ 64 - 1) (2 ^ 64 - 1)).on_ack_received
        true).cwnd_ = 2 ^ 64 - 1 ∧
    ((CongestionController.mk (2 ^ 64 - 1) 5000 0 (2 ^ 64 - 1) (2 ^ 64 - 1)).on_ack_received
        true).ssthresh_ = 2 ^ 64 - 1 ∧
    (((CongestionController.mk (2 ^ 64 - 1) 5000 0 (2 ^ 64 - 1) (2 ^ 64 - 1)).on_ack_received
        true).on_ack_received false).cwnd_ = 0 ∧
    ¬ ((((CongestionController.mk (2 ^ 64 - 1) 5000 0 (2 ^ 64 - 1)
        (2 ^ 64 - 1)).on_ack_received true).on_ack_received false).cwnd_ =
      min (((CongestionController.mk (2 ^ 64 - 1) 5000 0 (2 ^ 64 - 1)
        (2 ^ 64 - 1)).on_ack_received true).cwnd_ + 1) (2 ^ 64 - 1)) := by
  decide!

/-- C36. Loss puts the controller in congestion avoidance, amended: for a controller
with a 64-bit `cwnd` and `min_cwnd < 2^64 - 1`, immediately after `on_ack_received(true)`
or `on_duplicate_ack`, `cwnd = ssthresh`; so the test `cwnd < ssthresh` of the next
`on_ack_received(false)` fails, the additive branch is taken and `cwnd` becomes
`min(cwnd + 1, max_cwnd)`. -/
theorem loss_enters_congestion_avoidance (c : CongestionController)
    (hc : c.cwnd_ < 2 ^ 64) (hmin : c.min_cwnd_ < 2 ^ 64 - 1) :
    (c.on_ack_received true).cwnd_ = (c.on_ack_received true).ssthresh_ ∧
    (c.on_duplicate_ack).cwnd_ = (c.on_duplicate_ack).ssthresh_ ∧
    ¬ ((c.on_ack_received true).cwnd_ < (c.on_ack_received true).ssthresh_) ∧
    ((c.on_ack_received true).on_ack_received false).cwnd_ =
      min ((c.on_ack_received true).cwnd_ + 1) c.max_cwnd_ ∧
    ((c.on_duplicate_ack).on_ack_received false).cwnd_ =
      min ((c.on_duplicate_ack).cwnd_ + 1) c.max_cwnd_ := by
  have hdup : c.on_duplicate_ack = c.on_ack_received true := rfl
  have hcw : (c.on_ack_received true).cwnd_ = max (c.cwnd_ / 2) c.min_cwnd_ := rfl
  have hss : (c.on_ack_received true).ssthresh_ = max (c.cwnd_ / 2) c.min_cwnd_ := rfl
  have hmx : (c.on_ack_received true).max_cwnd_ = c.max_cwnd_ := rfl
  have hnext : ((c.on_ack_received true).on_ack_received false).cwnd_ =
      min ((c.on_ack_received true).cwnd_ + 1) c.max_cwnd_ := by
    have hlt : ¬ ((c.on_ack_received true).cwnd_ < (c.on_ack_received true).ssthresh_) := by
      rw [hcw, hss]; exact lt_irrefl _
    have hmod : ((c.on_ack_received true).cwnd_ + 1) % U64 =
        (c.on_ack_received true).cwnd_ + 1 := by
      apply Nat.mod_eq_of_lt
      rw [hcw]
      unfold U64
      have h1 : c.cwnd_ / 2 < 2 ^ 64 - 1 := by omega
      have h2 : max (c.cwnd_ / 2) c.min_cwnd_ < 2 ^ 64 - 1 := max_lt h1 hmin
      omega
    show ((c.on_ack_received true).increase_cwnd).cwnd_ = _
    simp only [CongestionController.increase_cwnd, hlt, if_false, hmod, hmx]
  refine ⟨by rw [hcw, hss], by rw [hdup, hcw, hss], by rw [hcw, hss]; exact lt_irrefl _,
    hnext, ?_⟩
  rw [hdup]
  exact hnext

theorem loss_enters_congestion_avoidance_witness :
    ((CongestionController.mk 4000 5000 3 10 10000).on_ack_received true).cwnd_ =
      ((CongestionController.mk 4000 5000 3 10 10000).on_ack_received true).ssthresh_ ∧
    (((CongestionController.mk 4000 5000 3 10 10000).on_ack_received true).on_ack_received
        false).cwnd_ =
      min (((CongestionController.mk 4000 5000 3 10 10000).on_ack_received true).cwnd_ + 1)
        10000 :=
  ⟨(loss_enters_congestion_avoidance (CongestionController.mk 4000 5000 3 10 10000)
      (by decide!) (by decide!)).1,
   (loss_enters_congestion_avoidance (CongestionController.mk 4000 5000 3 10 10000)
      (by decide!) (by decide!)).2.2.2.1⟩

/-! ### Termination of the watermark loop -/

theorem advance_contiguous_count_spec (received : List (Nat × Nat)) :
    ∀ (fuel h w n : Nat), advance_contiguous_count received fuel h = some (w, n) →
      n < fuel ∧ advance_contiguous received fuel h = some w ∧
      ∀ fuel2, n < fuel2 → advance_contiguous_count received fuel2 h = some (w, n) := by
  intro fuel
  induction fuel with
  | zero => intro h w n hc; exact Option.noConfusion hc
  | succ f ih =>
    intro h w n hc
    cases hin : (map_find received ((h + 1) % U64)).isSome with
    | true =>
      simp only [advance_contiguous_count, hin, if_true] at hc
      cases hrec : advance_contiguous_count received f ((h + 1) % U64) with
      | none => rw [hrec] at hc; exact Option.noConfusion hc
      | some r =>
        obtain ⟨w1, n1⟩ := r
        rw [hrec, Option.map_some', Option.some.injEq, Prod.mk.injEq] at hc
        obtain ⟨rfl, rfl⟩ := hc
        obtain ⟨g1, g2, g3⟩ := ih _ w1 n1 hrec
        refine ⟨by omega, ?_, ?_⟩
        · simp only [advance_contiguous, hin, if_true, g2]
        · intro fuel2 hf2
          obtain ⟨f2, rfl⟩ : ∃ f2, fuel2 = f2 + 1 := ⟨fuel2 - 1, by omega⟩
          simp only [advance_contiguous_count, hin, if_true, g3 f2 (by omega),
            Option.map_some']
    | false =>
      simp only [advance_contiguous_count, hin, Bool.false_eq_true, if_false,
        Option.some.injEq, Prod.mk.injEq] at hc
      obtain ⟨rfl, rfl⟩ := hc
      refine ⟨by omega, ?_, ?_⟩
      · simp only [advance_contiguous, hin, Bool.false_eq_true, if_false]
      · intro fuel2 hf2
        obtain ⟨f2, rfl⟩ : ∃ f2, fuel2 = f2 + 1 := ⟨fuel2 - 1, by omega⟩
        simp only [advance_contiguous_count, hin, Bool.false_eq_true, if_false]

theorem advance_contiguous_count_of_returns (received : List (Nat × Nat)) :
    ∀ (fuel h w : Nat), advance_contiguous received fuel h = some w →
      ∃ n, advance_contiguous_count received fuel h = some (w, n) := by
  intro fuel
  induction fuel with
  | zero => intro h w hc; exact Option.noConfusion hc
  | succ f ih =>
    intro h w hc
    cases hin : (map_find received ((h + 1) % U64)).isSome with
    | true =>
      simp only [advance_contiguous, hin, if_true] at hc
      obtain ⟨n, hn⟩ := ih _ w hc
      exact ⟨n + 1, by simp only [advance_contiguous_count, hin, if_true, hn, Option.map_some']⟩
    | false =>
      simp only [advance_contiguous, hin, Bool.false_eq_true, if_false,
        Option.some.injEq] at hc
      subst hc
      exact ⟨0, by simp only [advance_contiguous_count, hin, Bool.false_eq_true, if_false]⟩

/-- C38. The greedy watermark advance terminates: for a received set with fewer than
`2^64` entries (the size of a `std::map` is a `size_t`) and every starting watermark, the
loop of `add_received_packet` ends, also when `highest_contiguous_ + 1` wraps around, with
the same watermark `w` and the same number `n` of increments whenever it is given more
iterations than there are entries, and `n` is at most the number of entries. -/
theorem watermark_advance_terminates (received : List (Nat × Nat)) (h : Nat)
    (hlen : received.length < 2 ^ 64) :
    ∃ w n, n ≤ received.length ∧
      ∀ fuel, received.length < fuel →
        advance_contiguous_count received fuel h = some (w, n) ∧
        advance_contiguous received fuel h = some w := by
  obtain ⟨w, hw⟩ := advance_contiguous_returns received (received.length + 1) h hlen
    (Nat.lt_succ_self _)
  obtain ⟨n, hn⟩ := advance_contiguous_count_of_returns received _ h w hw
  obtain ⟨g1, _, g3⟩ := advance_contiguous_count_spec received _ h w n hn
  refine ⟨w, n, by omega, ?_⟩
  intro fuel hfuel
  have hc := g3 fuel (by omega)
  exact ⟨hc, (advance_contiguous_count_spec received fuel h w n hc).2.1⟩

theorem watermark_advance_terminates_witness :
    ∃ w n, n ≤ 4 ∧
      ∀ fuel, 4 < fuel →
        advance_contiguous_count [(0, 5), (7, 1), (2 ^ 64 - 1, 2), (1, 9)] fuel (2 ^ 64 - 2) =
          some (w, n) ∧
        advance_contiguous [(0, 5), (7, 1), (2 ^ 64 - 1, 2), (1, 9)] fuel (2 ^ 64 - 2) =
          some w :=
  watermark_advance_terminates [(0, 5), (7, 1), (2 ^ 64 - 1, 2), (1, 9)] (2 ^ 64 - 2)
    (by decide!)

/-! ### Consistency of the pending table -/

theorem map_assign_mem {V : Type} (m : List (Nat × V)) (k : Nat) (v : V) (e : Nat × V)
    (he : e ∈ map_assign m k v) : e = (k, v) ∨ e ∈ m := by
  induction m with
  | nil =>
    simp only [map_assign, List.mem_singleton] at he
    exact Or.inl he
  | cons x m ih =>
    obtain ⟨k1, w⟩ := x
    simp only [map_assign] at he
    by_cases h1 : k < k1
    · simp only [h1, if_true, List.mem_cons] at he
      rcases he with he | he | he
      · exact Or.inl he
      · exact Or.inr (by rw [he]; exact List.mem_cons_self _ _)
      · exact Or.inr (List.mem_cons_of_mem _ he)
    · simp only [h1, if_false] at he
      by_cases h2 : k = k1
      · simp only [h2, if_true, List.mem_cons] at he
        rcases he with he | he
        · exact Or.inl (by rw [he, h2])
        · exact Or.inr (List.mem_cons_of_mem _ he)
      · simp only [h2, if_false, List.mem_cons] at he
        rcases he with he | he
        · exact Or.inr (by rw [he]; exact List.mem_cons_self _ _)
        · rcases ih he with h | h
          · exact Or.inl h
          · exact Or.inr (List.mem_cons_of_mem _ h)

theorem map_assign_sorted {V : Type} (m : List (Nat × V)) (k : Nat) (v : V)
    (h : map_sorted m) : map_sorted (map_assign m k v) := by
  induction m with
  | nil => simp [map_assign, map_sorted, map_keys]
  | cons x m ih =>
    obtain ⟨k1, w⟩ := x
    have hx : ∀ y ∈ map_keys m, k1 < y := by
      intro y hy
      simp only [map_sorted, map_keys, List.map_cons, List.pairwise_cons] at h
      exact h.1 y hy
    have hm : map_sorted m := by
      simp only [map_sorted, map_keys, List.map_cons, List.pairwise_cons] at h
      exact h.2
    simp only [map_assign]
    by_cases h1 : k < k1
    · simp only [h1, if_true]
      simp only [map_sorted, map_keys, List.map_cons, List.pairwise_cons, List.mem_cons]
      refine ⟨?_, ?_, ?_⟩
      · intro y hy
        rcases hy with rfl | hy
        · exact h1
        · exact lt_trans h1 (hx y hy)
      · exact hx
      · exact hm
    · simp only [h1, if_false]
      by_cases h2 : k = k1
      · simp only [h2, if_true]
        simp only [map_sorted, map_keys, List.map_cons, List.pairwise_cons]
        exact ⟨hx, hm⟩
      · simp only [h2, if_false]
        simp only [map_sorted, map_keys, List.map_cons, List.pairwise_cons]
        refine ⟨?_, ih hm⟩
        intro y hy
        obtain ⟨e, he, rfl⟩ := List.mem_map.mp hy
        rcases map_assign_mem m k v e he with rfl | hmem
        · simp only
          omega
        · exact hx e.1 (List.mem_map.mpr ⟨e, hmem, rfl⟩)

theorem map_assign_map {V W : Type} (f : V → W) (m : List (Nat × V)) (k : Nat) (v : V) :
    (map_assign m k v).map (fun e => (e.1, f e.2)) =
      map_assign (m.map (fun e => (e.1, f e.2))) k (f v) := by
  induction m with
  | nil => rfl
  | cons x m ih =>
    obtain ⟨k1, w⟩ := x
    simp only [map_assign, List.map_cons]
    by_cases h1 : k < k1
    · simp only [h1, if_true, List.map_cons]
    · simp only [h1, if_false]
      by_cases h2 : k = k1
      · simp only [h2, if_true, List.map_cons]
      · simp only [h2, if_false, List.map_cons, ih]

theorem map_find_map {V W : Type} (f : V → W) (m : List (Nat × V)) (k : Nat) :
    map_find (m.map (fun e => (e.1, f e.2))) k = (map_find m k).map f := by
  induction m with
  | nil => rfl
  | cons x m ih =>
    obtain ⟨k1, w⟩ := x
    simp only [List.map_cons, map_find]
    by_cases h : k1 = k
    · simp only [h, if_true, Option.map_some']
    · simp only [h, if_false, ih]

theorem map_sorted_filter {V : Type} (q : Nat × V → Bool) (m : List (Nat × V))
    (h : map_sorted m) : map_sorted (m.filter q) :=
  List.Pairwise.sublist (List.Sublist.map _ (List.filter_sublist _)) h

/-- The invariant of the pending table: ascending keys, `send_times_` holding exactly the
entries' keys and send timestamps, and every entry's `seq` equal to its key. -/
theorem apply_invariant (m : ReliabilityManager) (c : PendingCall)
    (hs : map_sorted m.pending_packets_)
    (ht : m.send_times_ = m.pending_packets_.map (fun e => (e.1, e.2.send_ts_ns)))
    (hq : ∀ e ∈ m.pending_packets_, e.2.seq = e.1) :
    map_sorted (m.apply c).pending_packets_ ∧
    (m.apply c).send_times_ =
      (m.apply c).pending_packets_.map (fun e => (e.1, e.2.send_ts_ns)) ∧
    (∀ e ∈ (m.apply c).pending_packets_, e.2.seq = e.1) ∧
    (m.apply c).has_ack_callback = m.has_ack_callback ∧
    (m.apply c).has_retransmit_callback = m.has_retransmit_callback := by
  cases c with
  | add_pending_packet seq send_time =>
    simp only [ReliabilityManager.apply, ReliabilityManager.add_pending_packet]
    refine ⟨map_assign_sorted _ _ _ hs, ?_, ?_, trivial, trivial⟩
    · rw [map_assign_map (fun p : Pending => p.send_ts_ns), ht]
    · intro e he
      rcases map_assign_mem _ _ _ e he with rfl | hmem
      · rfl
      · exact hq e hmem
  | remove_pending_packet seq =>
    simp only [ReliabilityManager.apply, ReliabilityManager.remove_pending_packet, map_erase]
    refine ⟨map_sorted_filter _ _ hs, ?_, ?_, trivial, trivial⟩
    · rw [ht, List.filter_map]
      rfl
    · intro e he
      exact hq e (List.mem_of_mem_filter he)
  | process_ack clock ack_seq missing_seqs =>
    simp only [ReliabilityManager.apply]
    have hkeys := process_ack_keys m clock ack_seq missing_seqs
    have heq := process_ack_eq m clock ack_seq missing_seqs
    have hfields := retransmit_fold_fields missing_seqs
      ({ m with
         pending_packets_ := m.pending_packets_.filter (fun e => decide (ack_seq < e.1))
         send_times_ := m.send_times_.filter
           (fun e => decide (ack_seq < e.1 ∨ e.1 ∉ map_keys m.pending_packets_)) },
       (ack_sweep m.send_times_ m.has_ack_callback clock ack_seq m.pending_packets_ 0).2)
    rw [← heq] at hfields
    have hproj1 := retransmit_fold_proj (fun e : Nat × Pending => (e.1, e.2.send_ts_ns))
      (fun _ _ => rfl) missing_seqs
      ({ m with
         pending_packets_ := m.pending_packets_.filter (fun e => decide (ack_seq < e.1))
         send_times_ := m.send_times_.filter
           (fun e => decide (ack_seq < e.1 ∨ e.1 ∉ map_keys m.pending_packets_)) },
       (ack_sweep m.send_times_ m.has_ack_callback clock ack_seq m.pending_packets_ 0).2)
    rw [← heq] at hproj1
    have hproj2 := retransmit_fold_proj (fun e : Nat × Pending => (e.1, e.2.seq))
      (fun _ _ => rfl) missing_seqs
      ({ m with
         pending_packets_ := m.pending_packets_.filter (fun e => decide (ack_seq < e.1))
         send_times_ := m.send_times_.filter
           (fun e => decide (ack_seq < e.1 ∨ e.1 ∉ map_keys m.pending_packets_)) },
       (ack_sweep m.send_times_ m.has_ack_callback clock ack_seq m.pending_packets_ 0).2)
    rw [← heq] at hproj2
    simp only at hfields hproj1 hproj2
    refine ⟨?_, ?_, ?_, hfields.2.2, hfields.2.1⟩
    · unfold map_sorted
      rw [hkeys]
      exact List.Pairwise.sublist (List.Sublist.map _ (List.filter_sublist _)) hs
    · rw [hfields.1, hproj1, ht, List.filter_map]
      congr 1
      apply List.filter_congr
      intro e he
      have hk : e.1 ∈ map_keys m.pending_packets_ := List.mem_map.mpr ⟨e, he, rfl⟩
      simp [hk]
    · intro e he
      have hmem : (e.1, e.2.seq) ∈
          (m.process_ack clock ack_seq missing_seqs).1.pending_packets_.map
            (fun e : Nat × Pending => (e.1, e.2.seq)) := List.mem_map.mpr ⟨e, he, rfl⟩
      rw [hproj2] at hmem
      obtain ⟨e1, he1, hpair⟩ := List.mem_map.mp hmem
      have h1 := hq e1 (List.mem_of_mem_filter he1)
      simp only [Prod.mk.injEq] at hpair
      rw [← hpair.2, ← hpair.1]
      exact h1

theorem after_invariant (calls : List PendingCall) :
    ∀ m : ReliabilityManager,
      map_sorted m.pending_packets_ →
      m.send_times_ = m.pending_packets_.map (fun e => (e.1, e.2.send_ts_ns)) →
      (∀ e ∈ m.pending_packets_, e.2.seq = e.1) →
      map_sorted (m.after calls).pending_packets_ ∧
      (m.after calls).send_times_ =
        (m.after calls).pending_packets_.map (fun e => (e.1, e.2.send_ts_ns)) ∧
      (∀ e ∈ (m.after calls).pending_packets_, e.2.seq = e.1) ∧
      (m.after calls).has_ack_callback = m.has_ack_callback := by
  induction calls with
  | nil => intro m hs ht hq; exact ⟨hs, ht, hq, rfl⟩
  | cons c rest ih =>
    intro m hs ht hq
    obtain ⟨g1, g2, g3, g4, _⟩ := apply_invariant m c hs ht hq
    obtain ⟨k1, k2, k3, k4⟩ := ih (m.apply c) g1 g2 g3
    simp only [ReliabilityManager.after, List.foldl_cons] at *
    exact ⟨k1, k2, k3, k4.trans g4⟩

theorem send_times_agree_of_map (m : ReliabilityManager)
    (hs : map_sorted m.pending_packets_)
    (ht : m.send_times_ = m.pending_packets_.map (fun e => (e.1, e.2.send_ts_ns))) :
    send_times_agree m := by
  intro k p t hmem hfind
  rw [ht, map_find_map (fun p : Pending => p.send_ts_ns),
    map_find_of_mem_sorted _ hs k p hmem] at hfind
  simp only [Option.map_some', Option.some.injEq] at hfind
  exact hfind.symm

/-- C35. Pending-table consistency: after every finite sequence of `add_pending_packet`,
`remove_pending_packet` and `process_ack` calls on a fresh `ReliabilityManager`,
`pending_packets_` and `send_times_` have the same keys, every pending entry's `seq` equals
its key, and `send_times_` maps a key to the `send_ts_ns` of the pending entry at that key
(and to nothing when there is none). The keys are ascending, the two maps agree in the
sense used by the `process_ack` theorems, and so every ACK event of a following
`process_ack` carries the entry's own send timestamp. -/
theorem pending_table_consistency (retransmit_cb ack_cb : Bool) (calls : List PendingCall) :
    map_keys ((ReliabilityManager.new retransmit_cb ack_cb).after calls).pending_packets_ =
      map_keys ((ReliabilityManager.new retransmit_cb ack_cb).after calls).send_times_ ∧
    (∀ e ∈ ((ReliabilityManager.new retransmit_cb ack_cb).after calls).pending_packets_,
      e.2.seq = e.1) ∧
    (∀ k, map_find ((ReliabilityManager.new retransmit_cb ack_cb).after calls).send_times_ k =
      (map_find ((ReliabilityManager.new retransmit_cb ack_cb).after calls).pending_packets_
        k).map (fun p => p.send_ts_ns)) ∧
    map_sorted ((ReliabilityManager.new retransmit_cb ack_cb).after calls).pending_packets_ ∧
    send_times_agree ((ReliabilityManager.new retransmit_cb ack_cb).after calls) ∧
    (ack_cb = true → ∀ (clock : Nat → Nat) (ack_seq : Nat) (missing_seqs : List Nat),
      ack_calls (((ReliabilityManager.new retransmit_cb ack_cb).after calls).process_ack clock
          ack_seq missing_seqs).2 =
        (((ReliabilityManager.new retransmit_cb ack_cb).after calls).pending_packets_.filter
            (fun e => decide (e.1 ≤ ack_seq))).map
          (fun e => (e.1, e.2.send_ts_ns, e.2.retransmits))) := by
  obtain ⟨hs, ht, hq, hcb⟩ := after_invariant calls (ReliabilityManager.new retransmit_cb ack_cb)
    (by simp [map_sorted, map_keys, ReliabilityManager.new]) rfl
    (fun e he => absurd he (List.not_mem_nil _))
  have hagree := send_times_agree_of_map _ hs ht
  refine ⟨?_, hq, ?_, hs, hagree, ?_⟩
  · rw [ht]
    simp only [map_keys, List.map_map]
    rfl
  · intro k
    rw [ht]
    exact map_find_map (fun p : Pending => p.send_ts_ns) _ k
  · intro hacb clock ack_seq missing_seqs
    have hcb2 : ((ReliabilityManager.new retransmit_cb ack_cb).after calls).has_ack_callback =
        true := by rw [hcb]; exact hacb
    rw [process_ack_eq, retransmit_fold_ack_calls, hcb2]
    exact ack_sweep_calls _ clock ack_seq _ hagree 0

/-! ### Eviction from the received set -/

theorem generate_ack_state (a : AckManager) (fuel : Nat) (r : AckManager × AckPacket)
    (h : a.generate_ack fuel = some r) : r.1 = { a with packets_since_ack_ := 0 } := by
  unfold AckManager.generate_ack at h
  simp only at h
  cases hs : generate_ack_scan a.received_packets_
      ((a.highest_contiguous_ + int_to_u64 a.window_size_) % U64) fuel
      ((a.highest_contiguous_ + 1) % U64) [] with
  | none => rw [hs] at h; exact Option.noConfusion h
  | some M =>
    rw [hs] at h
    simp only [Option.some.injEq] at h
    rw [← h]

theorem cleanup_find (a : AckManager) (b k : Nat) :
    map_find (a.cleanup_old_packets b).received_packets_ k =
      if k < b then none else map_find a.received_packets_ k := by
  have h := map_find_filter_key (fun x => !decide (x < b)) a.received_packets_ k
  simp only [AckManager.cleanup_old_packets]
  rw [h]
  by_cases hk : k < b
  · simp [hk]
  · simp [hk]

/-- In every state reached from a fresh `AckManager` the slot after the watermark is
empty. -/
theorem call_slot_empty (a : AckManager) (fuel : Nat) (c : AckCall) (a1 : AckManager)
    (hc : a.call fuel c = some a1)
    (hslot : (map_find a.received_packets_ ((a.highest_contiguous_ + 1) % U64)).isSome =
      false) :
    (map_find a1.received_packets_ ((a1.highest_contiguous_ + 1) % U64)).isSome = false := by
  cases c with
  | add_received_packet seq recv_time =>
    simp only [AckManager.call] at hc
    cases hadd : a.add_received_packet fuel seq recv_time with
    | none => rw [hadd] at hc; exact Option.noConfusion hc
    | some r =>
      rw [hadd, Option.map_some', Option.some.injEq] at hc
      subst hc
      by_cases hdup : (map_find a.received_packets_ seq).isSome = true
      · rw [add_received_packet_dup a fuel seq recv_time hdup, Option.some.injEq] at hadd
        rw [← hadd]
        exact hslot
      · have hnew : (map_find a.received_packets_ seq).isSome = false := by simpa using hdup
        rw [add_received_packet_new a fuel seq recv_time hnew] at hadd
        cases hadv : advance_contiguous ((seq, recv_time) :: a.received_packets_) fuel
            a.highest_contiguous_ with
        | none => rw [hadv] at hadd; exact Option.noConfusion hadd
        | some w =>
          rw [hadv, Option.map_some', Option.some.injEq] at hadd
          rw [← hadd]
          exact advance_contiguous_exit _ fuel _ w hadv
  | generate_ack =>
    simp only [AckManager.call] at hc
    cases hg : a.generate_ack fuel with
    | none => rw [hg] at hc; exact Option.noConfusion hc
    | some r =>
      rw [hg, Option.map_some', Option.some.injEq] at hc
      subst hc
      rw [generate_ack_state a fuel r hg]
      exact hslot
  | force_ack =>
    simp only [AckManager.call, Option.some.injEq] at hc
    subst hc
    exact hslot
  | cleanup_old_packets b =>
    simp only [AckManager.call, Option.some.injEq] at hc
    subst hc
    have hH : (a.cleanup_old_packets b).highest_contiguous_ = a.highest_contiguous_ := rfl
    rw [hH, cleanup_find]
    split
    · rfl
    · exact hslot

theorem run_slot_empty (fuel : Nat) (calls : List AckCall) :
    ∀ (a a1 : AckManager), AckManager.run fuel a calls = some a1 →
      (map_find a.received_packets_ ((a.highest_contiguous_ + 1) % U64)).isSome = false →
      (map_find a1.received_packets_ ((a1.highest_contiguous_ + 1) % U64)).isSome = false := by
  induction calls with
  | nil =>
    intro a a1 h hslot
    simp only [AckManager.run, Option.some.injEq] at h
    subst h
    exact hslot
  | cons c rest ih =>
    intro a a1 h hslot
    simp only [AckManager.run] at h
    cases hc : a.call fuel c with
    | none => rw [hc] at h; exact Option.noConfusion h
    | some a2 =>
      rw [hc] at h
      exact ih a2 a1 h (call_slot_empty a fuel c a2 hc hslot)

/-- Re-adding an evicted sequence: what `add_received_packet` does after
`cleanup_old_packets(b)` for a `k < b`, in a state whose slot after the watermark is
empty and that held `k`. -/
theorem readd_after_cleanup (a : AckManager) (b k t : Nat)
    (hslot : (map_find a.received_packets_ ((a.highest_contiguous_ + 1) % U64)).isSome =
      false)
    (hkb : k < b) (hdup : a.is_duplicate k = true) :
    (∀ fuel r, (a.cleanup_old_packets b).add_received_packet fuel k t = some r →
      r = ({ a with
             received_packets_ := (k, t) :: (a.cleanup_old_packets b).received_packets_
             packets_since_ack_ := (a.packets_since_ack_ + 1) % U64 }, true)) ∧
    (∀ fuel, 0 < fuel → ∃ r, (a.cleanup_old_packets b).add_received_packet fuel k t = some r) := by
  have hnew : (map_find (a.cleanup_old_packets b).received_packets_ k).isSome = false := by
    rw [cleanup_find, if_pos hkb]
    rfl
  have hne : ¬ k = (a.highest_contiguous_ + 1) % U64 := by
    intro heq
    unfold AckManager.is_duplicate at hdup
    rw [heq, hslot] at hdup
    exact Bool.noConfusion hdup
  have hslot2 : (map_find ((k, t) :: (a.cleanup_old_packets b).received_packets_)
      ((a.highest_contiguous_ + 1) % U64)).isSome = false := by
    rw [map_find_cons, if_neg hne, cleanup_find]
    split
    · rfl
    · exact hslot
  have hadv : ∀ f, advance_contiguous ((k, t) :: (a.cleanup_old_packets b).received_packets_)
      (f + 1) a.highest_contiguous_ = some a.highest_contiguous_ := by
    intro f
    simp only [advance_contiguous, hslot2, Bool.false_eq_true, if_false]
  have hrun : ∀ f, (a.cleanup_old_packets b).add_received_packet (f + 1) k t =
      some ({ a with
             received_packets_ := (k, t) :: (a.cleanup_old_packets b).received_packets_
             packets_since_ack_ := (a.packets_since_ack_ + 1) % U64 }, true) := by
    intro f
    rw [add_received_packet_new _ (f + 1) k t hnew]
    have hH : (a.cleanup_old_packets b).highest_contiguous_ = a.highest_contiguous_ := rfl
    rw [hH, hadv f]
    rfl
  constructor
  · intro fuel r hr
    cases fuel with
    | zero =>
      rw [add_received_packet_new _ 0 k t hnew] at hr
      simp only [advance_contiguous, Option.map_none'] at hr
      exact Option.noConfusion hr
    | succ f =>
      rw [hrun f, Option.some.injEq] at hr
      exact hr.symm
  · intro fuel hf
    obtain ⟨f, rfl⟩ : ∃ f, fuel = f + 1 := ⟨fuel - 1, by omega⟩
    exact ⟨_, hrun f⟩

/-- C34, counterexample. On `AckManager(256, -1)`, after sequence 5 has been received,
`force_ack()` stores `ack_period_ = -1` into the 64-bit counter, which becomes `2^64 - 1`.
After `cleanup_old_packets(6)` sequence 5 is reported as new again, and
`packets_since_ack_++` wraps the counter to 0 instead of increasing it by 1. -/
theorem eviction_counter_wrap_counterexample :
    AckManager.run 2 (AckManager.new 256 (-1))
        [AckCall.add_received_packet 5 100, AckCall.force_ack] =
      some ⟨[(5, 100)], 0, 256, -1, 2 ^ 64 - 1⟩ ∧
    (AckManager.mk [(5, 100)] 0 256 (-1) (2 ^ 64 - 1)).is_duplicate 5 = true ∧
    ((AckManager.mk [(5, 100)] 0 256 (-1) (2 ^ 64 - 1)).cleanup_old_packets 6).add_received_packet
        2 5 200 = some (⟨[(5, 200)], 0, 256, -1, 0⟩, true) ∧
    ¬ ((AckManager.mk [(5, 200)] 0 256 (-1) 0).packets_since_ack_ =
      (AckManager.mk [(5, 100)] 0 256 (-1) (2 ^ 64 - 1)).packets_since_ack_ + 1) := by
  decide!

/-- C34. Eviction and dedup, amended: in every state reached from a fresh `AckManager` by
`add_received_packet`, `generate_ack`, `force_ack` and `cleanup_old_packets` calls,
`cleanup_old_packets(b)` keeps exactly the received entries with key `≥ b` and changes
neither `highest_contiguous_` nor `packets_since_ack_`; and for every `k < b` that was
received before the cleanup, a following `add_received_packet(k, t)` returns (one
iteration of the watermark loop is enough) the value true, raises the received count by 1,
sets `packets_since_ack_` to `(old + 1) mod 2^64`, which is `old + 1` unless the counter
was `2^64 - 1`, and leaves `highest_contiguous_` unchanged, whether or not
`k ≤ highest_contiguous_`. -/
theorem eviction_defeats_dedup (window_size ack_period : Int) (fuel : Nat)
    (calls : List AckCall) (a : AckManager)
    (hrun : AckManager.run fuel (AckManager.new window_size ack_period) calls = some a)
    (b : Nat) :
    (a.cleanup_old_packets b).received_packets_ =
      a.received_packets_.filter (fun e => !decide (e.1 < b)) ∧
    (∀ k, (a.cleanup_old_packets b).is_duplicate k = (!decide (k < b) && a.is_duplicate k)) ∧
    (a.cleanup_old_packets b).highest_contiguous_ = a.highest_contiguous_ ∧
    (a.cleanup_old_packets b).packets_since_ack_ = a.packets_since_ack_ ∧
    ∀ k t, k < b → a.is_duplicate k = true →
      (∀ fuel2, 0 < fuel2 →
        ∃ r, (a.cleanup_old_packets b).add_received_packet fuel2 k t = some r ∧
          r.2 = true ∧
          r.1.get_received_count = (a.cleanup_old_packets b).get_received_count + 1 ∧
          r.1.packets_since_ack_ = (a.packets_since_ack_ + 1) % 2 ^ 64 ∧
          (a.packets_since_ack_ < 2 ^ 64 - 1 →
            r.1.packets_since_ack_ = a.packets_since_ack_ + 1) ∧
          r.1.highest_contiguous_ = a.highest_contiguous_) := by
  have hslot := run_slot_empty fuel calls (AckManager.new window_size ack_period) a hrun rfl
  refine ⟨rfl, ?_, rfl, rfl, ?_⟩
  · intro k
    unfold AckManager.is_duplicate
    rw [cleanup_find]
    by_cases hk : k < b
    · simp [hk]
    · simp [hk]
  · intro k t hkb hdup fuel2 hf2
    obtain ⟨h1, h2⟩ := readd_after_cleanup a b k t hslot hkb hdup
    obtain ⟨r, hr⟩ := h2 fuel2 hf2
    have hr2 := h1 fuel2 r hr
    refine ⟨r, hr, ?_, ?_, ?_, ?_, ?_⟩
    · rw [hr2]
    · rw [hr2]
      simp [AckManager.get_received_count]
    · rw [hr2]
      rfl
    · intro hlt
      rw [hr2]
      exact Nat.mod_eq_of_lt (by unfold U64; omega)
    · rw [hr2]

theorem eviction_defeats_dedup_witness :
    ∃ r, ((AckManager.mk [(3, 30), (2, 20), (1, 10)] 3 256 1 0).cleanup_old_packets
        3).add_received_packet 1 2 99 = some r ∧
      r.2 = true ∧ r.1.highest_contiguous_ = 3 ∧ r.1.packets_since_ack_ = 1 := by
  obtain ⟨_, _, _, _, h⟩ := eviction_defeats_dedup 256 1 300
    [AckCall.add_received_packet 1 10, AckCall.add_received_packet 2 20,
     AckCall.add_received_packet 3 30, AckCall.generate_ack]
    (AckManager.mk [(3, 30), (2, 20), (1, 10)] 3 256 1 0) (by decide!) 3
  obtain ⟨r, h1, h2, _, _, h4, h5⟩ := h 2 99 (by decide) (by decide) 1 (by decide)
  exact ⟨r, h1, h2, h5, h4 (by decide!)⟩

/-! ### Rounding to `double` -/

theorem ilog2_loop_le : ∀ (fuel n : Nat), n ≤ fuel → 0 < n → 2 ^ ilog2_loop fuel n ≤ n := by
  intro fuel
  induction fuel with
  | zero => intro n h1 h2; omega
  | succ f ih =>
    intro n h1 h2
    by_cases h : n < 2
    · simp only [ilog2_loop, h, if_true, pow_zero]
      omega
    · simp only [ilog2_loop, h, if_false]
      have := ih (n / 2) (by omega) (by omega)
      rw [pow_succ]
      omega

theorem ilog2_loop_lt : ∀ (fuel n : Nat), n ≤ fuel → n < 2 ^ (ilog2_loop fuel n + 1) := by
  intro fuel
  induction fuel with
  | zero => intro n h1; simp only [ilog2_loop]; omega
  | succ f ih =>
    intro n h1
    by_cases h : n < 2
    · simp only [ilog2_loop, h, if_true]
      omega
    · simp only [ilog2_loop, h, if_false]
      have := ih (n / 2) (by omega)
      rw [pow_succ]
      omega

theorem ilog2_le (n : Nat) (h : 0 < n) : 2 ^ ilog2 n ≤ n := ilog2_loop_le n n le_rfl h

theorem ilog2_lt (n : Nat) : n < 2 ^ (ilog2 n + 1) := ilog2_loop_lt n n le_rfl

theorem round_half_even_intCast (z : ℤ) : round_half_even (z : ℚ) = z := by
  simp [round_half_even]

theorem round_half_even_err (y : ℚ) : |((round_half_even y : ℤ) : ℚ) - y| ≤ 1 / 2 := by
  have h1 : (⌊y⌋ : ℚ) ≤ y := Int.floor_le y
  have h2 : y < (⌊y⌋ : ℚ) + 1 := Int.lt_floor_add_one y
  unfold round_half_even
  simp only
  split
  · rw [abs_le]; constructor <;> linarith
  · split
    · rw [abs_le]; push_cast; constructor <;> linarith
    · split
      · rw [abs_le]; constructor <;> linarith
      · rw [abs_le]; push_cast; constructor <;> linarith

theorem binade_le (x : ℚ) (hx : 0 < x) : (2 : ℚ) ^ binade x ≤ x := by
  have hnum : 0 < x.num := Rat.num_pos.mpr hx
  have hden : 0 < x.den := x.den_pos
  have hxeq : ((x.num.toNat : ℕ) : ℚ) / (x.den : ℚ) = x := by
    have hcast : ((x.num.toNat : ℕ) : ℚ) = ((x.num : ℤ) : ℚ) := by
      have : ((x.num.toNat : ℕ) : ℤ) = x.num := Int.toNat_of_nonneg hnum.le
      exact_mod_cast congrArg (fun z : ℤ => (z : ℚ)) this
    rw [hcast]
    exact Rat.num_div_den x
  have ha := ilog2_le x.num.toNat (by omega)
  have hb := ilog2_lt x.den
  have haq : (2 : ℚ) ^ (ilog2 x.num.toNat : ℤ) ≤ ((x.num.toNat : ℕ) : ℚ) := by
    rw [zpow_natCast]
    exact_mod_cast ha
  have hbq : ((x.den : ℕ) : ℚ) ≤ (2 : ℚ) ^ ((ilog2 x.den : ℤ) + 1) := by
    have : (2 : ℚ) ^ ((ilog2 x.den : ℤ) + 1) = ((2 ^ (ilog2 x.den + 1) : ℕ) : ℚ) := by
      push_cast
      rw [← zpow_natCast]
      push_cast
      rfl
    rw [this]
    exact_mod_cast hb.le
  unfold binade
  simp only
  split
  · have hdq : (0 : ℚ) < (x.den : ℚ) := by exact_mod_cast hden
    have hpos : (0 : ℚ) < (2 : ℚ) ^ ((ilog2 x.num.toNat : ℤ) - (ilog2 x.den : ℤ) - 1) :=
      zpow_pos (by norm_num) _
    have hmul : (2 : ℚ) ^ ((ilog2 x.num.toNat : ℤ) - (ilog2 x.den : ℤ) - 1) *
        (2 : ℚ) ^ ((ilog2 x.den : ℤ) + 1) = (2 : ℚ) ^ (ilog2 x.num.toNat : ℤ) := by
      rw [← zpow_add₀ (by norm_num : (2 : ℚ) ≠ 0)]
      congr 1
      ring
    have hfrac : (2 : ℚ) ^ ((ilog2 x.num.toNat : ℤ) - (ilog2 x.den : ℤ) - 1) ≤
        ((x.num.toNat : ℕ) : ℚ) / (x.den : ℚ) := by
      rw [le_div_iff₀ hdq]
      calc (2 : ℚ) ^ ((ilog2 x.num.toNat : ℤ) - (ilog2 x.den : ℤ) - 1) * (x.den : ℚ)
          ≤ (2 : ℚ) ^ ((ilog2 x.num.toNat : ℤ) - (ilog2 x.den : ℤ) - 1) *
              (2 : ℚ) ^ ((ilog2 x.den : ℤ) + 1) := mul_le_mul_of_nonneg_left hbq hpos.le
        _ = (2 : ℚ) ^ (ilog2 x.num.toNat : ℤ) := hmul
        _ ≤ ((x.num.toNat : ℕ) : ℚ) := haq
    rw [hxeq] at hfrac
    exact hfrac
  · rename_i h
    exact not_lt.mp h

theorem binade_natCast (n : Nat) (hn : 0 < n) : binade (n : ℚ) = ilog2 n := by
  have h1 : ilog2 1 = 0 := rfl
  have hle : (2 : ℚ) ^ (ilog2 n : ℤ) ≤ (n : ℚ) := by
    rw [zpow_natCast]
    exact_mod_cast ilog2_le n hn
  unfold binade
  simp only [Rat.num_natCast, Rat.den_natCast, Int.toNat_ofNat, h1, Nat.cast_zero, sub_zero]
  rw [if_neg (not_lt.mpr hle)]

theorem double_round_pos (x : ℚ) (hx : 0 < x) :
    double_round x =
      (round_half_even (x / (2 : ℚ) ^ (binade x - 52)) : ℚ) * (2 : ℚ) ^ (binade x - 52) := by
  unfold double_round
  rw [if_neg hx.ne', if_neg (not_lt.mpr hx.le)]

/-- An integer below `2^53` is a `double`. -/
theorem double_round_natCast (n : Nat) (hn : n < 2 ^ 53) : double_round (n : ℚ) = n := by
  by_cases h0 : n = 0
  · subst h0
    simp [double_round]
  · have hpos : 0 < n := Nat.pos_of_ne_zero h0
    have hq : (0 : ℚ) < (n : ℚ) := by exact_mod_cast hpos
    have hE : ilog2 n ≤ 52 := by
      by_contra hc
      have h1 : 2 ^ 53 ≤ 2 ^ ilog2 n := Nat.pow_le_pow_right (by norm_num) (by omega)
      have h2 := ilog2_le n hpos
      omega
    obtain ⟨m, hm⟩ : ∃ m : ℕ, ilog2 n + m = 52 := ⟨52 - ilog2 n, by omega⟩
    have hexp : (binade (n : ℚ) - 52 : ℤ) = -(m : ℤ) := by
      rw [binade_natCast n hpos]
      omega
    have hpow : (2 : ℚ) ^ (-(m : ℤ)) = ((2 : ℚ) ^ m)⁻¹ := by
      rw [zpow_neg, zpow_natCast]
    have h2m : (0 : ℚ) < (2 : ℚ) ^ m := pow_pos (by norm_num) m
    have harg : (n : ℚ) / ((2 : ℚ) ^ m)⁻¹ = (((n * 2 ^ m : ℕ) : ℤ) : ℚ) := by
      rw [div_inv_eq_mul]
      push_cast
      rfl
    rw [double_round_pos _ hq, hexp, hpow, harg, round_half_even_intCast]
    push_cast
    field_simp

/-- The error of rounding a positive number to `double` is at most half a unit in the
last place. -/
theorem double_round_err (x : ℚ) (hx : 0 < x) :
    |double_round x - x| ≤ (2 : ℚ) ^ (binade x - 52) / 2 := by
  have hp : (0 : ℚ) < (2 : ℚ) ^ (binade x - 52) := zpow_pos (by norm_num) _
  have herr := round_half_even_err (x / (2 : ℚ) ^ (binade x - 52))
  have hx2 : x = x / (2 : ℚ) ^ (binade x - 52) * (2 : ℚ) ^ (binade x - 52) := by
    field_simp
  rw [double_round_pos x hx]
  have hdiff : (round_half_even (x / (2 : ℚ) ^ (binade x - 52)) : ℚ) *
        (2 : ℚ) ^ (binade x - 52) - x =
      ((round_half_even (x / (2 : ℚ) ^ (binade x - 52)) : ℚ) -
        x / (2 : ℚ) ^ (binade x - 52)) * (2 : ℚ) ^ (binade x - 52) := by
    field_simp
  rw [hdiff, abs_mul, abs_of_pos hp]
  calc |(round_half_even (x / (2 : ℚ) ^ (binade x - 52)) : ℚ) -
          x / (2 : ℚ) ^ (binade x - 52)| * (2 : ℚ) ^ (binade x - 52)
      ≤ 1 / 2 * (2 : ℚ) ^ (binade x - 52) := mul_le_mul_of_nonneg_right herr hp.le
    _ = (2 : ℚ) ^ (binade x - 52) / 2 := by ring

/-- Dividing an integer below `2^53` by `100.0` and discarding the fraction gives the
integer quotient. -/
theorem floor_double_div_100 (x : Nat) (hx : x < 2 ^ 53) :
    double_to_u64 (double_div (x : ℚ) 100) = x / 100 := by
  unfold double_to_u64 double_div
  by_cases hr : x % 100 = 0
  · have hxk : (x : ℚ) / 100 = ((x / 100 : ℕ) : ℚ) := by
      have h := Nat.div_add_mod x 100
      have : (x : ℚ) = 100 * ((x / 100 : ℕ) : ℚ) := by
        have h2 : x = 100 * (x / 100) := by omega
        exact_mod_cast h2
      rw [this]
      field_simp
    rw [hxk, double_round_natCast _ (by omega), Int.floor_natCast]
    exact Int.toNat_ofNat _
  · have hxpos : 0 < x := by omega
    have hq : (0 : ℚ) < (x : ℚ) / 100 := by positivity
    have hlo : ((x / 100 : ℕ) : ℚ) + 1 / 100 ≤ (x : ℚ) / 100 := by
      have h2 : 100 * (x / 100) + 1 ≤ x := by omega
      have h3 : (100 : ℚ) * ((x / 100 : ℕ) : ℚ) + 1 ≤ (x : ℚ) := by exact_mod_cast h2
      linarith
    have hhi : (x : ℚ) / 100 ≤ ((x / 100 : ℕ) : ℚ) + 99 / 100 := by
      have h2 : x ≤ 100 * (x / 100) + 99 := by omega
      have h3 : (x : ℚ) ≤ (100 : ℚ) * ((x / 100 : ℕ) : ℚ) + 99 := by exact_mod_cast h2
      linarith
    have hE : binade ((x : ℚ) / 100) - 52 ≤ -6 := by
      have h1 := binade_le _ hq
      have h2 : (x : ℚ) / 100 < (2 : ℚ) ^ (47 : ℤ) := by
        have h3 : (x : ℚ) < 2 ^ 53 := by exact_mod_cast hx
        have h4 : ((2 : ℚ) ^ (47 : ℤ)) = 140737488355328 := by norm_num
        rw [h4]
        have h5 : ((2 : ℚ) ^ 53) = 9007199254740992 := by norm_num
        rw [h5] at h3
        linarith
      have h3 := lt_of_le_of_lt h1 h2
      rw [zpow_lt_zpow_iff_right₀ (by norm_num : (1 : ℚ) < 2)] at h3
      omega
    have hulp : (2 : ℚ) ^ (binade ((x : ℚ) / 100) - 52) ≤ 1 / 64 := by
      have h1 := zpow_le_zpow_right₀ (by norm_num : (1 : ℚ) ≤ 2) hE
      have h2 : ((2 : ℚ) ^ (-6 : ℤ)) = 1 / 64 := by norm_num
      rw [h2] at h1
      exact h1
    have herr := double_round_err _ hq
    rw [abs_le] at herr
    have hfl : ⌊double_round ((x : ℚ) / 100)⌋ = Int.ofNat (x / 100) := by
      rw [Int.floor_eq_iff]
      have hc : ((Int.ofNat (x / 100) : ℤ) : ℚ) = ((x / 100 : ℕ) : ℚ) := Int.cast_natCast _
      rw [hc]
      constructor <;> linarith [herr.1, herr.2]
    rw [hfl]
    exact Int.toNat_ofNat _

/-- Where the index is the integer quotient: `p * (n - 1)` below `2^53`. -/
theorem percentile_index_eq (p n : Nat) (h : p * (n - 1) < 2 ^ 53) :
    percentile_index (p : ℚ) n = p * (n - 1) / 100 := by
  unfold percentile_index double_mul double_of_u64
  by_cases hp : p = 0
  · subst hp
    have h0 : double_round ((0 : ℕ) * double_round ((n - 1 : ℕ) : ℚ)) = ((0 : ℕ) : ℚ) := by
      simp [double_round]
    rw [h0, floor_double_div_100 0 (by norm_num)]
    simp
  · have hn : n - 1 < 2 ^ 53 := by
      have : n - 1 ≤ p * (n - 1) := Nat.le_mul_of_pos_left _ (Nat.pos_of_ne_zero hp)
      omega
    rw [double_round_natCast _ hn]
    have hmul : (p : ℚ) * ((n - 1 : ℕ) : ℚ) = ((p * (n - 1) : ℕ) : ℚ) := by push_cast; rfl
    rw [hmul, double_round_natCast _ h, floor_double_div_100 _ h]

/-! ### Percentiles -/

theorem sorted_getElem?_le (L : List Nat) (hs : L.Sorted (fun a b => a ≤ b)) (i j a b : Nat)
    (hij : i ≤ j) (hi : L[i]? = some a) (hj : L[j]? = some b) : a ≤ b := by
  obtain ⟨hi1, hi2⟩ := List.getElem?_eq_some.mp hi
  obtain ⟨hj1, hj2⟩ := List.getElem?_eq_some.mp hj
  have h := hs.rel_get_of_le (a := ⟨i, hi1⟩) (b := ⟨j, hj1⟩) hij
  simp only [List.get_eq_getElem] at h
  rw [hi2, hj2] at h
  exact h

theorem get_percentile_eq (s : LatencyStats) (p : Nat) (hne : s.latencies ≠ [])
    (hn : p * (s.latencies.length - 1) < 2 ^ 53) :
    s.get_percentile_latency_ns (p : ℚ) =
      (s, (s.latencies.insertionSort (fun a b => a ≤ b))[p * (s.latencies.length - 1) / 100]?) := by
  have hemp : s.latencies.isEmpty = false := by
    cases h : s.latencies with
    | nil => exact absurd h hne
    | cons x l => rfl
  unfold LatencyStats.get_percentile_latency_ns
  simp only [hemp, Bool.false_eq_true, if_false, List.length_insertionSort]
  rw [percentile_index_eq p _ hn]

theorem percentile_index_lt (p n : Nat) (hp : p ≤ 100) (hn : 0 < n) :
    p * (n - 1) / 100 < n := by
  have h1 : p * (n - 1) ≤ 100 * (n - 1) := Nat.mul_le_mul_right _ hp
  have h2 : p * (n - 1) / 100 ≤ 100 * (n - 1) / 100 := Nat.div_le_div_right h1
  rw [Nat.mul_div_cancel_left _ (by norm_num : 0 < 100)] at h2
  omega

theorem insertionSort_replicate (n a : Nat) :
    (List.replicate n a).insertionSort (fun x y => x ≤ y) = List.replicate n a := by
  apply List.Sorted.insertionSort_eq
  unfold List.Sorted
  rw [List.pairwise_replicate]
  exact Or.inr le_rfl

/-- C31, counterexample. The index is computed in `double`. For a vector of
`n = 2^53 + 4` samples and `p = 100`, `n - 1` is not a `double` and is rounded to
`2^53 + 4`, the product and the quotient are rounded again, and the index is `n` itself:
the access is outside the vector. For `n = 90981810654002` and `p = 99` the product
`p * (n - 1)` exceeds `2^53`, is rounded to the next multiple of 100, and the index is
`90071992547461`, one more than `floor(p * (n - 1) / 100)`. -/
theorem percentile_index_rounding_counterexample :
    percentile_index 100 (2 ^ 53 + 4) = 2 ^ 53 + 4 ∧
    ((LatencyStats.mk 0 0 0 0 (List.replicate (2 ^ 53 + 4) 7)).get_percentile_latency_ns
      100).2 = none ∧
    percentile_index 99 90981810654002 = 90071992547461 ∧
    99 * (90981810654002 - 1) / 100 = 90071992547460 := by
  have hidx : percentile_index 100 (2 ^ 53 + 4) = 2 ^ 53 + 4 := by decide!
  refine ⟨hidx, ?_, by decide!, by decide!⟩
  have hemp : (List.replicate (2 ^ 53 + 4) 7).isEmpty = false := by
    rw [show (2 ^ 53 + 4 : Nat) = (2 ^ 53 + 3) + 1 from rfl, List.replicate_succ]
    rfl
  unfold LatencyStats.get_percentile_latency_ns
  simp only [hemp, Bool.false_eq_true, if_false, List.length_insertionSort,
    List.length_replicate]
  rw [hidx, insertionSort_replicate, List.getElem?_replicate, if_neg (lt_irrefl _)]

/-- C31. Percentile, amended: for integers `p ≤ 100` and a sample vector of length `n`
with `p * (n - 1) < 2^53`, on an empty vector `get_percentile_latency_ns` returns 0 (for
any argument); on a non-empty one the index it computes in `double` is
`floor(p * (n - 1) / 100)`, that index is below `n`, and the value returned is the element
at that index of the ascending arrangement of the samples (a sorted permutation of
them); the object, and with it the stored vector, is unchanged. -/
theorem percentile_sorted_index (s : LatencyStats) (p : Nat) (hp : p ≤ 100)
    (hn : p * (s.latencies.length - 1) < 2 ^ 53) :
    (s.latencies = [] →
      ∀ percentile : ℚ, s.get_percentile_latency_ns percentile = (s, some 0)) ∧
    (s.latencies ≠ [] →
      percentile_index (p : ℚ) s.latencies.length = p * (s.latencies.length - 1) / 100 ∧
      p * (s.latencies.length - 1) / 100 < s.latencies.length ∧
      (s.latencies.insertionSort (fun a b => a ≤ b)).Sorted (fun a b => a ≤ b) ∧
      (s.latencies.insertionSort (fun a b => a ≤ b)).Perm s.latencies ∧
      ∃ v, (s.latencies.insertionSort (fun a b => a ≤ b))[p * (s.latencies.length - 1) / 100]? =
          some v ∧
        s.get_percentile_latency_ns (p : ℚ) = (s, some v)) := by
  constructor
  · intro hemp percentile
    unfold LatencyStats.get_percentile_latency_ns
    rw [hemp]
    rfl
  · intro hne
    have hlen : 0 < s.latencies.length := List.length_pos.mpr hne
    have hlt := percentile_index_lt p s.latencies.length hp hlen
    have hlt2 : p * (s.latencies.length - 1) / 100 <
        (s.latencies.insertionSort (fun a b => a ≤ b)).length := by
      rw [List.length_insertionSort]
      exact hlt
    refine ⟨percentile_index_eq p _ hn, hlt, List.sorted_insertionSort _ _,
      List.perm_insertionSort _ _, ?_⟩
    obtain ⟨v, hv⟩ : ∃ v, (s.latencies.insertionSort (fun a b => a ≤ b))[p *
        (s.latencies.length - 1) / 100]? = some v :=
      ⟨_, List.getElem?_eq_getElem hlt2⟩
    exact ⟨v, hv, by rw [get_percentile_eq s p hne hn, hv]⟩

theorem percentile_sorted_index_witness :
    (LatencyStats.mk 5 150 10 50 [30, 10, 50, 20, 40]).get_percentile_latency_ns
        ((50 : ℕ) : ℚ) =
      (LatencyStats.mk 5 150 10 50 [30, 10, 50, 20, 40], some 30) := by
  obtain ⟨_, _, _, _, v, hv, hget⟩ := (percentile_sorted_index
    (LatencyStats.mk 5 150 10 50 [30, 10, 50, 20, 40]) 50 (by decide) (by decide!)).2
    (by decide)
  have h30 : v = 30 := by
    have h : ([30, 10, 50, 20, 40].insertionSort (fun a b => a ≤ b))[50 * (5 - 1) / 100]? =
        some 30 := by decide
    exact Option.some.inj (hv.symm.trans h)
  rw [hget, h30]

/-! ### Percentiles and the tracked extremes -/

theorem add_latencies_fields (samples : List Nat) :
    ∀ s : LatencyStats,
      (s.add_latencies samples).latencies = s.latencies ++ samples ∧
      (s.add_latencies samples).min_latency_ns = samples.foldl min s.min_latency_ns ∧
      (s.add_latencies samples).max_latency_ns = samples.foldl max s.max_latency_ns := by
  induction samples with
  | nil => intro s; exact ⟨(List.append_nil _).symm, rfl, rfl⟩
  | cons x rest ih =>
    intro s
    obtain ⟨h1, h2, h3⟩ := ih (s.add_latency x)
    simp only [LatencyStats.add_latencies, List.foldl_cons] at *
    refine ⟨?_, h2, h3⟩
    rw [h1]
    simp [LatencyStats.add_latency]

theorem foldl_min_spec (l : List Nat) :
    ∀ m : Nat, l.foldl min m ≤ m ∧ (∀ x ∈ l, l.foldl min m ≤ x) ∧
      (l.foldl min m = m ∨ l.foldl min m ∈ l) := by
  induction l with
  | nil => intro m; exact ⟨le_rfl, fun x hx => absurd hx (List.not_mem_nil _), Or.inl rfl⟩
  | cons a rest ih =>
    intro m
    obtain ⟨h1, h2, h3⟩ := ih (min m a)
    simp only [List.foldl_cons]
    refine ⟨le_trans h1 (min_le_left _ _), ?_, ?_⟩
    · intro x hx
      rcases List.mem_cons.mp hx with rfl | hx
      · exact le_trans h1 (min_le_right _ _)
      · exact h2 x hx
    · rcases h3 with h3 | h3
      · rcases min_choice m a with hm | hm
        · exact Or.inl (h3.trans hm)
        · exact Or.inr (by rw [h3, hm]; exact List.mem_cons_self _ _)
      · exact Or.inr (List.mem_cons_of_mem _ h3)

theorem foldl_max_spec (l : List Nat) :
    ∀ m : Nat, m ≤ l.foldl max m ∧ (∀ x ∈ l, x ≤ l.foldl max m) ∧
      (l.foldl max m = m ∨ l.foldl max m ∈ l) := by
  induction l with
  | nil => intro m; exact ⟨le_rfl, fun x hx => absurd hx (List.not_mem_nil _), Or.inl rfl⟩
  | cons a rest ih =>
    intro m
    obtain ⟨h1, h2, h3⟩ := ih (max m a)
    simp only [List.foldl_cons]
    refine ⟨le_trans (le_max_left _ _) h1, ?_, ?_⟩
    · intro x hx
      rcases List.mem_cons.mp hx with rfl | hx
      · exact le_trans (le_max_right _ _) h1
      · exact h2 x hx
    · rcases h3 with h3 | h3
      · rcases max_choice m a with hm | hm
        · exact Or.inl (h3.trans hm)
        · exact Or.inr (by rw [h3, hm]; exact List.mem_cons_self _ _)
      · exact Or.inr (List.mem_cons_of_mem _ h3)

/-- After the samples have been added to a reset `LatencyStats`, the tracked minimum and
maximum are the least and the greatest sample. -/
theorem tracked_extremes (samples : List Nat) (hne : samples ≠ [])
    (h64 : ∀ x ∈ samples, x < 2 ^ 64) :
    (LatencyStats.reset.add_latencies samples).latencies = samples ∧
    (LatencyStats.reset.add_latencies samples).min_latency_ns ∈ samples ∧
    (∀ x ∈ samples, (LatencyStats.reset.add_latencies samples).min_latency_ns ≤ x) ∧
    (LatencyStats.reset.add_latencies samples).max_latency_ns ∈ samples ∧
    (∀ x ∈ samples, x ≤ (LatencyStats.reset.add_latencies samples).max_latency_ns) := by
  obtain ⟨h1, h2, h3⟩ := add_latencies_fields samples LatencyStats.reset
  obtain ⟨x0, hx0⟩ := List.exists_mem_of_ne_nil samples hne
  obtain ⟨m1, m2, m3⟩ := foldl_min_spec samples LatencyStats.reset.min_latency_ns
  obtain ⟨n1, n2, n3⟩ := foldl_max_spec samples LatencyStats.reset.max_latency_ns
  have hmin0 : LatencyStats.reset.min_latency_ns = 2 ^ 64 - 1 := rfl
  have hmax0 : LatencyStats.reset.max_latency_ns = 0 := rfl
  rw [h2, h3]
  refine ⟨by rw [h1]; rfl, ?_, m2, ?_, n2⟩
  · rcases m3 with h | h
    · have hx := m2 x0 hx0
      have hx64 := h64 x0 hx0
      rw [h, hmin0] at hx
      have : x0 = 2 ^ 64 - 1 := by omega
      rw [h, hmin0, ← this]
      exact hx0
    · exact h
  · rcases n3 with h | h
    · have hx := n2 x0 hx0
      rw [h, hmax0] at hx
      have : x0 = 0 := by omega
      rw [h, hmax0, ← this]
      exact hx0
    · exact h

theorem replicate_zero_one_stats (N : Nat) :
    (LatencyStats.reset.add_latencies (List.replicate N 0 ++ [1])).latencies =
      List.replicate N 0 ++ [1] ∧
    (LatencyStats.reset.add_latencies (List.replicate N 0 ++ [1])).max_latency_ns = 1 ∧
    (List.replicate N 0 ++ [1]).insertionSort (fun a b => a ≤ b) = List.replicate N 0 ++ [1] ∧
    (List.replicate N 0 ++ [1]).isEmpty = false ∧
    (List.replicate N 0 ++ [1]).length = N + 1 := by
  obtain ⟨h1, _, h3⟩ := add_latencies_fields (List.replicate N 0 ++ [1]) LatencyStats.reset
  have hmax : ∀ n : Nat, (List.replicate n 0).foldl max 0 = 0 := by
    intro n
    induction n with
    | zero => rfl
    | succ k ih => rw [List.replicate_succ, List.foldl_cons]; exact ih
  refine ⟨by rw [h1]; rfl, ?_, ?_, ?_, ?_⟩
  · rw [h3, List.foldl_append]
    have h0 : LatencyStats.reset.max_latency_ns = 0 := rfl
    rw [h0, hmax]
    rfl
  · apply List.Sorted.insertionSort_eq
    unfold List.Sorted
    rw [List.pairwise_append]
    refine ⟨?_, List.pairwise_singleton _ _, ?_⟩
    · rw [List.pairwise_replicate]
      exact Or.inr le_rfl
    · intro a ha b hb
      rw [List.eq_of_mem_replicate ha]
      exact Nat.zero_le _
  · cases List.replicate N 0 <;> rfl
  · rw [List.length_append, List.length_replicate]
    rfl

/-- C37, counterexample. After `2^53 + 1` samples of value 0 and one sample of value 1
have been added to a reset `LatencyStats`, `max_latency_ns` is 1, but
`get_percentile_latency_ns(100)` computes the index `2^53` in `double` (the last index,
`2^53 + 1`, is not a `double`) and returns 0. -/
theorem percentile_100_below_max_counterexample :
    ((LatencyStats.reset.add_latencies
        (List.replicate (2 ^ 53 + 1) 0 ++ [1])).get_percentile_latency_ns 100).2 = some 0 ∧
    (LatencyStats.reset.add_latencies
        (List.replicate (2 ^ 53 + 1) 0 ++ [1])).max_latency_ns = 1 := by
  obtain ⟨h1, h2, h3, h4, h5⟩ := replicate_zero_one_stats (2 ^ 53 + 1)
  have hidx : percentile_index 100 (2 ^ 53 + 1 + 1) = 2 ^ 53 := by decide!
  refine ⟨?_, h2⟩
  unfold LatencyStats.get_percentile_latency_ns
  rw [h1]
  simp only [h4, Bool.false_eq_true, if_false, List.length_insertionSort, h5]
  rw [hidx, h3, List.getElem?_append_left (by rw [List.length_replicate]; exact Nat.lt_succ_self _),
    List.getElem?_replicate_of_lt (Nat.lt_succ_self _)]

/-- C37. Percentile ordering against the tracked extremes, amended: for a non-empty
sequence of `n` 64-bit samples with `100 * (n - 1) < 2^53` added to a reset `LatencyStats`
and integers `p ≤ q ≤ 100`, the four percentile calls return values with
`min_latency_ns = percentile(0) ≤ percentile(p) ≤ percentile(q) ≤ percentile(100) =
max_latency_ns`. -/
theorem percentile_ordering (samples : List Nat) (p q : Nat) (hne : samples ≠ [])
    (h64 : ∀ x ∈ samples, x < 2 ^ 64) (hpq : p ≤ q) (hq : q ≤ 100)
    (hn : 100 * (samples.length - 1) < 2 ^ 53) :
    ∃ v0 vp vq v100,
      (LatencyStats.reset.add_latencies samples).get_percentile_latency_ns ((0 : ℕ) : ℚ) =
        (LatencyStats.reset.add_latencies samples, some v0) ∧
      (LatencyStats.reset.add_latencies samples).get_percentile_latency_ns (p : ℚ) =
        (LatencyStats.reset.add_latencies samples, some vp) ∧
      (LatencyStats.reset.add_latencies samples).get_percentile_latency_ns (q : ℚ) =
        (LatencyStats.reset.add_latencies samples, some vq) ∧
      (LatencyStats.reset.add_latencies samples).get_percentile_latency_ns ((100 : ℕ) : ℚ) =
        (LatencyStats.reset.add_latencies samples, some v100) ∧
      (LatencyStats.reset.add_latencies samples).min_latency_ns = v0 ∧
      v0 ≤ vp ∧ vp ≤ vq ∧ vq ≤ v100 ∧
      v100 = (LatencyStats.reset.add_latencies samples).max_latency_ns := by
  obtain ⟨hlat, hmin_mem, hmin_le, hmax_mem, hmax_le⟩ := tracked_extremes samples hne h64
  have hne2 : (LatencyStats.reset.add_latencies samples).latencies ≠ [] := by
    rw [hlat]; exact hne
  have hlen : 0 < samples.length := List.length_pos.mpr hne
  have hsorted := List.sorted_insertionSort (fun a b : Nat => a ≤ b) samples
  have hperm := List.perm_insertionSort (fun a b : Nat => a ≤ b) samples
  have hLlen := List.length_insertionSort (fun a b : Nat => a ≤ b) samples
  have hget : ∀ r : Nat, r ≤ 100 →
      ∃ v, (samples.insertionSort (fun a b => a ≤ b))[r * (samples.length - 1) / 100]? =
          some v ∧
        (LatencyStats.reset.add_latencies samples).get_percentile_latency_ns (r : ℚ) =
          (LatencyStats.reset.add_latencies samples, some v) := by
    intro r hr
    have hr53 : r * ((LatencyStats.reset.add_latencies samples).latencies.length - 1) <
        2 ^ 53 := by
      rw [hlat]
      exact lt_of_le_of_lt (Nat.mul_le_mul_right _ hr) hn
    have hlt : r * (samples.length - 1) / 100 <
        (samples.insertionSort (fun a b => a ≤ b)).length := by
      rw [hLlen]
      exact percentile_index_lt r samples.length hr hlen
    have h := get_percentile_eq (LatencyStats.reset.add_latencies samples) r hne2 hr53
    rw [hlat] at h
    exact ⟨_, List.getElem?_eq_getElem hlt, by rw [h, List.getElem?_eq_getElem hlt]⟩
  obtain ⟨v0, hv0, g0⟩ := hget 0 (by omega)
  obtain ⟨vp, hvp, gp⟩ := hget p (by omega)
  obtain ⟨vq, hvq, gq⟩ := hget q hq
  obtain ⟨v100, hv100, g100⟩ := hget 100 le_rfl
  have hi0 : 0 * (samples.length - 1) / 100 = 0 := by simp
  have hi100 : 100 * (samples.length - 1) / 100 = samples.length - 1 :=
    Nat.mul_div_cancel_left _ (by norm_num)
  have hipq : p * (samples.length - 1) / 100 ≤ q * (samples.length - 1) / 100 :=
    Nat.div_le_div_right (Nat.mul_le_mul_right _ hpq)
  have hiq : q * (samples.length - 1) / 100 ≤ 100 * (samples.length - 1) / 100 :=
    Nat.div_le_div_right (Nat.mul_le_mul_right _ hq)
  have hmem : ∀ (i v : Nat), (samples.insertionSort (fun a b => a ≤ b))[i]? = some v →
      v ∈ samples := by
    intro i v hv
    exact hperm.mem_iff.mp (List.mem_iff_getElem?.mpr ⟨i, hv⟩)
  refine ⟨v0, vp, vq, v100, g0, gp, gq, g100, ?_, ?_, ?_, ?_, ?_⟩
  · apply le_antisymm
    · exact hmin_le v0 (hmem _ _ hv0)
    · obtain ⟨j, hj⟩ := List.mem_iff_getElem?.mp (hperm.mem_iff.mpr hmin_mem)
      rw [hi0] at hv0
      exact sorted_getElem?_le _ hsorted 0 j _ _ (Nat.zero_le _) hv0 hj
  · exact sorted_getElem?_le _ hsorted _ _ _ _
      (by rw [hi0]; exact Nat.zero_le _) hv0 hvp
  · exact sorted_getElem?_le _ hsorted _ _ _ _ hipq hvp hvq
  · exact sorted_getElem?_le _ hsorted _ _ _ _ hiq hvq hv100
  · apply le_antisymm
    · exact hmax_le v100 (hmem _ _ hv100)
    · obtain ⟨j, hj⟩ := List.mem_iff_getElem?.mp (hperm.mem_iff.mpr hmax_mem)
      have hjlt : j < (samples.insertionSort (fun a b => a ≤ b)).length :=
        (List.getElem?_eq_some.mp hj).1
      rw [hi100] at hv100
      exact sorted_getElem?_le _ hsorted j _ _ _ (by rw [hLlen] at hjlt; omega) hj hv100

theorem percentile_ordering_witness :
    ∃ v0 vp vq v100,
      (LatencyStats.reset.add_latencies [30, 10, 50, 20, 40]).get_percentile_latency_ns
          ((0 : ℕ) : ℚ) = (LatencyStats.reset.add_latencies [30, 10, 50, 20, 40], some v0) ∧
      (LatencyStats.reset.add_latencies [30, 10, 50, 20, 40]).get_percentile_latency_ns
          ((25 : ℕ) : ℚ) = (LatencyStats.reset.add_latencies [30, 10, 50, 20, 40], some vp) ∧
      (LatencyStats.reset.add_latencies [30, 10, 50, 20, 40]).get_percentile_latency_ns
          ((90 : ℕ) : ℚ) = (LatencyStats.reset.add_latencies [30, 10, 50, 20, 40], some vq) ∧
      (LatencyStats.reset.add_latencies [30, 10, 50, 20, 40]).get_percentile_latency_ns
          ((100 : ℕ) : ℚ) =
        (LatencyStats.reset.add_latencies [30, 10, 50, 20, 40], some v100) ∧
      (LatencyStats.reset.add_latencies [30, 10, 50, 20, 40]).min_latency_ns = v0 ∧
      v0 ≤ vp ∧ vp ≤ vq ∧ vq ≤ v100 ∧
      v100 = (LatencyStats.reset.add_latencies [30, 10, 50, 20, 40]).max_latency_ns :=
  percentile_ordering [30, 10, 50, 20, 40] 25 90 (by decide) (by decide!) (by decide)
    (by decide) (by decide!)

end udp_benchmark
